import Mathlib

/-!
# An explicit-free-list allocator (`mm.c`): shallow embedding

The arena is a byte-addressed memory `Nat → Nat` (each byte is read modulo 256).
`unsigned int` values are naturals reduced modulo `2^32`, `size_t` values are
naturals reduced modulo `2^64`, and pointers are addresses in `Nat` (a stored
pointer occupies 8 bytes, little endian, so a store keeps it modulo `2^64`).
-/

namespace MM

/-! ## Memory -/

/-- The byte memory. -/
abbrev Mem := Nat → Nat

/-- `GET(p)`: the `unsigned int` stored in the four bytes at `p`. -/
def GET (m : Mem) (p : Nat) : Nat :=
  m p % 256 + 256 * (m (p + 1) % 256) + 65536 * (m (p + 2) % 256)
    + 16777216 * (m (p + 3) % 256)

/-- `PUT(p, val)`: store the `unsigned int` conversion of `val` in the four bytes at `p`. -/
def PUT (m : Mem) (p val : Nat) : Mem := fun a =>
  if a = p then val % 256
  else if a = p + 1 then val / 256 % 256
  else if a = p + 2 then val / 65536 % 256
  else if a = p + 3 then val / 16777216 % 256
  else m a

/-- Read of a `void *` object (8 bytes) at `p`: low word first. -/
def GETP (m : Mem) (p : Nat) : Nat := GET m p + 4294967296 * GET m (p + 4)

/-- Store of a `void *` object (8 bytes) at `p`: low word first. -/
def PUTP (m : Mem) (p val : Nat) : Mem :=
  PUT (PUT m p (val % 4294967296)) (p + 4) (val / 4294967296 % 4294967296)

/-! ## Macros -/

def WSIZE : Nat := 4
def DSIZE : Nat := 8
def CHUNKSIZE : Nat := 4096
def MINSIZE : Nat := 24
def ALIGNMENT : Nat := 8

/-- `MAX(x, y)`. -/
def MAX (x y : Nat) : Nat := if x > y then x else y

/-- `PACK(size, alloc)`. -/
def PACK (size alloc : Nat) : Nat := size ||| alloc

/-- `GET_SIZE(p)`: `GET(p) & ~0x7` in `unsigned int`. -/
def GET_SIZE (m : Mem) (p : Nat) : Nat := GET m p &&& 4294967288

/-- `GET_ALLOC(p)`: `GET(p) & 0x1`. -/
def GET_ALLOC (m : Mem) (p : Nat) : Nat := GET m p &&& 1

/-- `HDRP(bp)`. -/
def HDRP (bp : Nat) : Nat := bp - WSIZE

/-- `FTRP(bp)`. -/
def FTRP (m : Mem) (bp : Nat) : Nat := bp + GET_SIZE m (HDRP bp) - DSIZE

/-- `NEXT_BLKP(bp)`. -/
def NEXT_BLKP (m : Mem) (bp : Nat) : Nat := bp + GET_SIZE m (HDRP bp)

/-- `PREV_BLKP(bp)`. -/
def PREV_BLKP (m : Mem) (bp : Nat) : Nat := bp - GET_SIZE m (HDRP bp - WSIZE)

/-- `PREV_FREE(bp)`. -/
def PREV_FREE (m : Mem) (bp : Nat) : Nat := GETP m bp

/-- `NEXT_FREE(bp)`. -/
def NEXT_FREE (m : Mem) (bp : Nat) : Nat := GETP m (bp + DSIZE)

/-- `ALIGN(size)` on a `size_t`: `(size + 7) & ~0x7` modulo `2^64`. -/
def ALIGN (size : Nat) : Nat :=
  ((size + (ALIGNMENT - 1)) % 18446744073709551616) &&& 18446744073709551608

/-! ## State -/

/-- The globals of `mm.c`, the arena bytes, and the arena provider's variables. -/
structure State where
  /-- the bytes of the address space -/
  mem : Mem
  /-- provider: first byte of the arena (`mem_heap_lo`) -/
  mem_start_brk : Nat
  /-- provider: one past the last byte of the arena (`mem_heap_hi + 1`) -/
  mem_brk : Nat
  /-- provider: the arena may not grow beyond this address -/
  mem_max_addr : Nat
  /-- provider: the byte counts asked of `mem_sbrk`, most recent first -/
  sbrk_log : List Nat
  heap_listp : Nat
  free_listp : Nat
  count : Nat
  full_count : Nat

/-- Modelled from the spec: the arena provider `mem_sbrk` (declared in `memlib.h`, which is
not part of the sources). It extends the arena by `incr` bytes and returns the previous top
of the arena, or refuses (`none`, the C value `(void *)-1`) when the arena cannot grow by
that much. Every request is recorded in `sbrk_log`. -/
def mem_sbrk (s : State) (incr : Nat) : Option Nat × State :=
  if s.mem_brk + incr > s.mem_max_addr then
    (none, { s with sbrk_log := incr :: s.sbrk_log })
  else
    (some s.mem_brk, { s with mem_brk := s.mem_brk + incr, sbrk_log := incr :: s.sbrk_log })

/-! ## The allocator -/

/-- The loop of `find_fit`, with `fuel` iterations left. `none`: the fuel ran out. -/
def find_fit_loop (m : Mem) (asize : Nat) : Nat → Nat → Option Nat
  | 0, _ => none
  | fuel + 1, bp =>
    if GET_ALLOC m (HDRP bp) = 0 then
      if asize ≤ GET_SIZE m (HDRP bp) then some bp
      else find_fit_loop m asize fuel (NEXT_FREE m bp)
    else some 0

/-- `find_fit(asize)`: first-fit search of the free list; `some 0` is `NULL`.
The loop reads a pointer below `2^64` at each step and changes no memory, so a run of more
than `2^64 + 1` iterations revisits an address and never ends: `none` is non-termination. -/
def find_fit (s : State) (asize : Nat) : Option Nat :=
  find_fit_loop s.mem asize 18446744073709551617 s.free_listp

/-- `remove_free_bp(bp)`. -/
def remove_free_bp (s : State) (bp : Nat) : State :=
  if PREV_FREE s.mem bp ≠ 0 then
    let m1 := PUTP s.mem (PREV_FREE s.mem bp + DSIZE) (NEXT_FREE s.mem bp)
    let m2 := PUTP m1 (NEXT_FREE m1 bp) (PREV_FREE m1 bp)
    { s with mem := m2, count := (s.count + 4294967296 - 1) % 4294967296 }
  else
    let fl := NEXT_FREE s.mem bp
    let m1 := PUTP s.mem (NEXT_FREE s.mem bp) (PREV_FREE s.mem bp)
    { s with mem := m1, free_listp := fl, count := (s.count + 4294967296 - 1) % 4294967296 }

/-- `insert_free_block(bp)`. -/
def insert_free_block (s : State) (bp : Nat) : State :=
  let m1 := PUTP s.mem (bp + DSIZE) s.free_listp
  let m2 := PUTP m1 s.free_listp bp
  let m3 := PUTP m2 bp 0
  { s with mem := m3, free_listp := bp, count := (s.count + 1) % 4294967296 }

/-- `coalesce(bp)`: the resulting block pointer and state. -/
def coalesce (s : State) (bp : Nat) : Nat × State :=
  let next_alloc := GET_ALLOC s.mem (HDRP (NEXT_BLKP s.mem bp))
  let size := GET_SIZE s.mem (HDRP bp)
  let prev_alloc :=
    if PREV_BLKP s.mem bp = bp then PREV_BLKP s.mem bp
    else GET_ALLOC s.mem (HDRP (PREV_BLKP s.mem bp))
  if prev_alloc = 0 ∧ next_alloc = 0 then
    let size := (size + (GET_SIZE s.mem (HDRP (PREV_BLKP s.mem bp))
      + GET_SIZE s.mem (HDRP (NEXT_BLKP s.mem bp))) % 4294967296) % 18446744073709551616
    let s1 := remove_free_bp s (NEXT_BLKP s.mem bp)
    let s2 := remove_free_bp s1 (PREV_BLKP s1.mem bp)
    let bp := PREV_BLKP s2.mem bp
    let m3 := PUT s2.mem (HDRP bp) (PACK size 0)
    let m4 := PUT m3 (FTRP m3 bp) (PACK size 0)
    (bp, insert_free_block { s2 with mem := m4 } bp)
  else if prev_alloc ≠ 0 ∧ next_alloc = 0 then
    let size := (size + GET_SIZE s.mem (HDRP (NEXT_BLKP s.mem bp))) % 18446744073709551616
    let s1 := remove_free_bp s (NEXT_BLKP s.mem bp)
    let m2 := PUT s1.mem (HDRP bp) (PACK size 0)
    let m3 := PUT m2 (FTRP m2 bp) (PACK size 0)
    (bp, insert_free_block { s1 with mem := m3 } bp)
  else if prev_alloc = 0 ∧ next_alloc ≠ 0 then
    let size := (size + GET_SIZE s.mem (HDRP (PREV_BLKP s.mem bp))) % 18446744073709551616
    let bp := PREV_BLKP s.mem bp
    let s1 := remove_free_bp s bp
    let m2 := PUT s1.mem (HDRP bp) (PACK size 0)
    let m3 := PUT m2 (FTRP m2 bp) (PACK size 0)
    (bp, insert_free_block { s1 with mem := m3 } bp)
  else
    (bp, insert_free_block s bp)

/-- `extend_heap(words)`: the returned pointer (`0` is `NULL`) and the state. -/
def extend_heap (s : State) (words : Nat) : Nat × State :=
  let s0 := { s with full_count := (s.full_count + 1) % 4294967296 }
  let size := (if words % 2 ≠ 0 then (words + 1) * WSIZE else words * WSIZE) % 4294967296
  let size := if size < MINSIZE then MINSIZE else size
  match mem_sbrk s0 size with
  | (none, s1) => (0, s1)
  | (some bp, s1) =>
    let m2 := PUT s1.mem (HDRP bp) (PACK size 0)
    let m3 := PUT m2 (FTRP m2 bp) (PACK size 0)
    let m4 := PUT m3 (HDRP (NEXT_BLKP m3 bp)) (PACK 0 1)
    coalesce { s1 with mem := m4 } bp

/-- `place(bp, asize)`. -/
def place (s : State) (bp asize : Nat) : State :=
  let csize := GET_SIZE s.mem (HDRP bp)
  if (csize + 4294967296 - asize) % 4294967296 ≥ MINSIZE then
    let m1 := PUT s.mem (HDRP bp) (PACK asize 1)
    let m2 := PUT m1 (FTRP m1 bp) (PACK asize 1)
    let temp := NEXT_BLKP m2 bp
    let s3 := remove_free_bp { s with mem := m2 } bp
    let bp := temp
    let s4 := { s3 with full_count := (s3.full_count + 1) % 4294967296 }
    let m5 := PUT s4.mem (HDRP bp) (PACK ((csize + 4294967296 - asize) % 4294967296) 0)
    let m6 := PUT m5 (FTRP m5 bp) (PACK ((csize + 4294967296 - asize) % 4294967296) 0)
    (coalesce { s4 with mem := m6 } bp).2
  else
    let m1 := PUT s.mem (HDRP bp) (PACK csize 1)
    let m2 := PUT m1 (FTRP m1 bp) (PACK csize 1)
    remove_free_bp { s with mem := m2 } bp

/-- `mm_init()`: the return value (`0` or `-1`) and the state. -/
def mm_init (s : State) : Int × State :=
  let s0 := { s with heap_listp := 0, free_listp := 0, count := 0 }
  match mem_sbrk s0 (MINSIZE + ALIGNMENT) with
  | (none, s1) => (-1, { s1 with heap_listp := 18446744073709551615 })
  | (some hl, s1) =>
    let s1 := { s1 with heap_listp := hl }
    let m2 := PUT s1.mem s1.heap_listp 0
    let m3 := PUT m2 (s1.heap_listp + WSIZE) (PACK MINSIZE 1)
    let m4 := PUT m3 (s1.heap_listp + MINSIZE) (PACK MINSIZE 1)
    let m5 := PUT m4 (s1.heap_listp + MINSIZE + WSIZE) (PACK 0 1)
    let s6 := { s1 with mem := m5, free_listp := s1.heap_listp + DSIZE }
    let r := extend_heap s6 (CHUNKSIZE / WSIZE)
    if r.1 = 0 then (-1, r.2) else (0, r.2)

/-- The `unsigned int asize` of `mm_malloc`: `MAX(ALIGN(size) + ALIGNMENT, MINSIZE)`,
computed in `size_t` and converted to `unsigned int`. -/
def adjust (size : Nat) : Nat :=
  (MAX ((ALIGN size + ALIGNMENT) % 18446744073709551616) MINSIZE) % 4294967296

/-- `mm_malloc(size)`: the returned pointer (`0` is `NULL`) and the state; `none` when the
search of the free list does not terminate. -/
def mm_malloc (s : State) (size : Nat) : Option (Nat × State) :=
  if size ≤ 0 then some (0, s)
  else
    let asize := adjust size
    match find_fit s asize with
    | none => none
    | some bp =>
      if bp ≠ 0 then some (bp, place s bp asize)
      else
        let extendsize := MAX asize CHUNKSIZE
        let r := extend_heap s (extendsize / WSIZE)
        if r.1 = 0 then some (0, r.2) else some (r.1, place r.2 r.1 asize)

/-- `mm_free(bp)`. -/
def mm_free (s : State) (bp : Nat) : State :=
  let size := GET_SIZE s.mem (HDRP bp)
  let m1 := PUT s.mem (HDRP bp) (PACK size 0)
  let m2 := PUT m1 (FTRP m1 bp) (PACK size 0)
  (coalesce { s with mem := m2 } bp).2


/-! ## Description of a well-formed heap -/

/-- A block of the physical chain: payload address, size and allocated flag. -/
structure Blk where
  bp : Nat
  size : Nat
  alloc : Bool
deriving DecidableEq

/-- The header (and footer) word of a block: `PACK(size, alloc)`. -/
def Blk.word (b : Blk) : Nat := b.size + (if b.alloc then 1 else 0)

/-- Address layout of consecutive blocks: the first payload is at `a`, each next payload
is `size` bytes further, the last block ends at `e`. -/
def Lay : Nat → List Blk → Nat → Prop
  | a, [], e => a = e
  | a, b :: r, e => b.bp = a ∧ b.size % 8 = 0 ∧ 24 ≤ b.size ∧ Lay (a + b.size) r e

/-- Header and footer of the block `b` both hold its word. -/
def TagOK (m : Mem) (b : Blk) : Prop :=
  GET m (b.bp - 4) = b.word ∧ GET m (b.bp + b.size - 8) = b.word

/-- A doubly linked segment: starting at `cur`, whose predecessor is `prev`, the nodes `l`
are linked by `NEXT_FREE` and end at `e`; each `PREV_FREE` is the node before. -/
def Seg (m : Mem) : Nat → Nat → List Nat → Nat → Prop
  | _, cur, [], e => cur = e
  | prev, cur, x :: r, e => cur = x ∧ GETP m x = prev ∧ Seg m x (GETP m (x + 8)) r e

/-- No two consecutive blocks are both free. -/
def NoAdj (l : List Blk) : Prop := l.Chain' (fun b c => b.alloc = true ∨ c.alloc = true)

/-- The memory `m2` differs from `m` only at addresses satisfying `P`. -/
def Mod (P : Nat → Prop) (m m2 : Mem) : Prop := ∀ a, ¬ P a → m2 a = m a

/-- The prologue block. -/
def pro (s : State) : Blk := ⟨s.heap_listp + 8, 24, true⟩

/-- Well-formed heap with a hole: the blocks `bs` follow the prologue and end at the epilogue
header, the last word of the arena; every block outside `mid` has its header and footer;
`fl` is the free list, a list of distinct blocks. -/
structure HInv (s : State) (bs mid : List Blk) (fl : List Nat) : Prop where
  lay : Lay (s.heap_listp + 8) (pro s :: bs) s.mem_brk
  tags : ∀ b ∈ pro s :: bs, b ∉ mid → TagOK s.mem b
  epi : GET s.mem (s.mem_brk - 4) = 1
  lo_le : s.mem_start_brk ≤ s.heap_listp
  al8 : (s.heap_listp - s.mem_start_brk) % 8 = 0
  small : s.mem_brk - s.mem_start_brk < 4294967296
  addr : s.mem_brk ≤ s.mem_max_addr ∧ s.mem_max_addr < 18446744073709551616
  list : Seg s.mem 0 s.free_listp fl (s.heap_listp + 8)
  sub : ∀ x ∈ fl, ∃ b ∈ bs, b.bp = x
  nodup : fl.Nodup
  cnt : s.count = fl.length

/-- Well-formed heap: every block has its header and footer. -/
abbrev WInv (s : State) (bs : List Blk) (fl : List Nat) : Prop := HInv s bs [] fl

/-- Valid heap: well formed, the free list holds exactly the free blocks, no two adjacent
blocks are free, and `live` lists the payload addresses of the allocated blocks. -/
structure Inv (s : State) (live : List Nat) (bs : List Blk) (fl : List Nat) : Prop where
  wf : WInv s bs fl
  free_iff : ∀ b ∈ bs, b.bp ∈ fl ↔ b.alloc = false
  noadj : NoAdj (pro s :: bs)
  live_iff : ∀ p, p ∈ live ↔ ∃ b ∈ bs, b.bp = p ∧ b.alloc = true
  live_nodup : live.Nodup

/-- The states reached from a successful `mm_init` on an arena in the 64-bit address space by
`mm_malloc` calls with sizes between 1 and `2^32 - 16` and `mm_free` calls on addresses that
`mm_malloc` returned and that were not freed since (`live`), the arena staying below `2^32`
bytes. -/
inductive Reach : State → List Nat → Prop
  | init (s0 : State) (h64 : s0.mem_max_addr < 18446744073709551616)
      (hlo : s0.mem_start_brk ≤ s0.mem_brk)
      (hal : (s0.mem_brk - s0.mem_start_brk) % 8 = 0)
      (hok : (mm_init s0).1 = 0)
      (hsmall : (mm_init s0).2.mem_brk - (mm_init s0).2.mem_start_brk < 4294967296) :
      Reach (mm_init s0).2 []
  | malloc (s : State) (live : List Nat) (n p : Nat) (s2 : State) (h : Reach s live)
      (h1 : 1 ≤ n) (h2 : n ≤ 4294967280) (hm : mm_malloc s n = some (p, s2))
      (hsmall : s2.mem_brk - s2.mem_start_brk < 4294967296) :
      Reach s2 (if p = 0 then live else p :: live)
  | free (s : State) (live : List Nat) (p : Nat) (h : Reach s live) (hp : p ∈ live) :
      Reach (mm_free s p) (live.erase p)

/-- The addresses of `S` are pairwise equal or at least one link area (16 bytes) apart. -/
def Apart (S : List Nat) : Prop := ∀ x ∈ S, ∀ y ∈ S, x = y ∨ x + 16 ≤ y ∨ y + 16 ≤ x

/-- The bytes the allocator owns: the payload of the prologue, the extent (header to footer)
of every free block, and everything from the epilogue header on. The other bytes of the
chain are the tags and payloads of the allocated blocks. -/
def Owned (s : State) (bs : List Blk) (a : Nat) : Prop :=
  (s.heap_listp + 8 ≤ a ∧ a < s.heap_listp + 24)
  ∨ (∃ b ∈ bs, b.alloc = false ∧ b.bp - 4 ≤ a ∧ a < b.bp + b.size - 4)
  ∨ s.mem_brk - 4 ≤ a

/-- The fields that only `mem_sbrk`, `mm_init` and the block counter touch. -/
def SameArena (s s2 : State) : Prop :=
  s2.heap_listp = s.heap_listp ∧ s2.mem_brk = s.mem_brk
  ∧ s2.mem_start_brk = s.mem_start_brk ∧ s2.mem_max_addr = s.mem_max_addr
  ∧ s2.sbrk_log = s.sbrk_log ∧ s2.full_count = s.full_count

/-- The last block of `l1` when it is free: the free block just before the one that follows
`l1`. -/
def prevFree (l1 : List Blk) : Option Blk :=
  match l1.getLast? with
  | some c => if c.alloc then none else some c
  | none => none

/-- The first block of `l2` when it is free. -/
def nextFree (l2 : List Blk) : Option Blk :=
  match l2.head? with
  | some d => if d.alloc then none else some d
  | none => none

/-- The free block that the free block `b` and its free neighbours make, `b` standing
between the blocks `l1` and `l2`. -/
def merged (l1 : List Blk) (b : Blk) (l2 : List Blk) : Blk :=
  match prevFree l1, nextFree l2 with
  | none, none => b
  | none, some d => ⟨b.bp, b.size + d.size, false⟩
  | some c, none => ⟨c.bp, c.size + b.size, false⟩
  | some c, some d => ⟨c.bp, c.size + b.size + d.size, false⟩

/-- The chain after the merge. -/
def mergedChain (l1 : List Blk) (b : Blk) (l2 : List Blk) : List Blk :=
  (match prevFree l1 with
    | none => l1
    | some _ => l1.dropLast)
  ++ merged l1 b l2 ::
  (match nextFree l2 with
    | none => l2
    | some _ => l2.tail)

/-- The free list after the merge: the merged-away neighbours leave it and the merged block
becomes its head. -/
def mergedList (fl : List Nat) (l1 : List Blk) (b : Blk) (l2 : List Blk) : List Nat :=
  (merged l1 b l2).bp ::
    (match prevFree l1 with
      | none => (match nextFree l2 with
          | none => fl
          | some d => fl.erase d.bp)
      | some c => (match nextFree l2 with
          | none => fl
          | some d => fl.erase d.bp).erase c.bp)

/-- The chain after `place(b.bp, asize)` on the free block `b` between `l1` and `l2`. -/
def placeChain (l1 : List Blk) (b : Blk) (l2 : List Blk) (asize : Nat) : List Blk :=
  if 24 ≤ b.size - asize then
    l1 ++ ⟨b.bp, asize, true⟩ :: ⟨b.bp + asize, b.size - asize, false⟩ :: l2
  else l1 ++ ⟨b.bp, b.size, true⟩ :: l2

/-- The free list after `place(b.bp, asize)`. -/
def placeList (fl : List Nat) (b : Blk) (asize : Nat) : List Nat :=
  if 24 ≤ b.size - asize then (b.bp + asize) :: fl.erase b.bp else fl.erase b.bp

/-- The result of the first-fit search over the free-list nodes `l`: the first node whose
block is at least `asize` bytes, `0` (`NULL`) when there is none. -/
def firstFit (m : Mem) (asize : Nat) : List Nat → Nat
  | [] => 0
  | x :: r => if asize ≤ GET_SIZE m (HDRP x) then x else firstFit m asize r

/-- The state `mm_init` hands to `extend_heap`: the prologue and the first epilogue are in
place. -/
def initState (s0 : State) : State :=
  { s0 with
    heap_listp := s0.mem_brk
    free_listp := s0.mem_brk + 8
    count := 0
    mem_brk := s0.mem_brk + 32
    sbrk_log := 32 :: s0.sbrk_log
    mem := PUT (PUT (PUT (PUT s0.mem s0.mem_brk 0) (s0.mem_brk + 4) 25) (s0.mem_brk + 24) 25)
      (s0.mem_brk + 28) 1 }

/-- The `k`-th block pointer of the walk by physical adjacency (`NEXT_BLKP`) that starts at
the prologue, `heap_listp + DSIZE`. -/
def blockAt (s : State) (k : Nat) : Nat := (NEXT_BLKP s.mem)^[k] (s.heap_listp + DSIZE)

/-- The `k`-th node of the free list: `k` steps of `NEXT_FREE` from `free_listp`. -/
def nodeAt (s : State) (k : Nat) : Nat := (NEXT_FREE s.mem)^[k] s.free_listp

/-- The block pointer `x` is on the free list: the walk from `free_listp` reaches it, and it
and the nodes before it are marked free (the walk of `find_fit` stops at the first allocated
block, the prologue). -/
def OnFreeList (s : State) (x : Nat) : Prop :=
  ∃ k, nodeAt s k = x ∧ ∀ i, i ≤ k → GET_ALLOC s.mem (HDRP (nodeAt s i)) = 0



/-! ### Decision procedures and a concrete run -/

instance Lay.dec : (a : Nat) → (l : List Blk) → (e : Nat) → Decidable (Lay a l e)
  | a, [], e => inferInstanceAs (Decidable (a = e))
  | a, b :: r, e =>
    have := Lay.dec (a + b.size) r e
    inferInstanceAs (Decidable (b.bp = a ∧ b.size % 8 = 0 ∧ 24 ≤ b.size ∧ Lay (a + b.size) r e))

instance TagOK.dec (m : Mem) (b : Blk) : Decidable (TagOK m b) :=
  inferInstanceAs (Decidable (GET m (b.bp - 4) = b.word ∧ GET m (b.bp + b.size - 8) = b.word))

instance Seg.dec (m : Mem) : (p c : Nat) → (l : List Nat) → (e : Nat) → Decidable (Seg m p c l e)
  | _, c, [], e => inferInstanceAs (Decidable (c = e))
  | p, c, x :: r, e =>
    have := Seg.dec m x (GETP m (x + 8)) r e
    inferInstanceAs (Decidable (c = x ∧ GETP m x = p ∧ Seg m x (GETP m (x + 8)) r e))

/-- An untouched arena of one megabyte starting at address 4096. -/
def fresh : State :=
  { mem := fun _ => 0, mem_start_brk := 4096, mem_brk := 4096, mem_max_addr := 1052672,
    sbrk_log := [], heap_listp := 0, free_listp := 0, count := 0, full_count := 0 }

/-- The heap right after `mm_init`. -/
def heap0 : State := (mm_init fresh).2

/-- The state after `mm_malloc(n)`. -/
def after (s : State) (n : Nat) : State := ((mm_malloc s n).getD (0, s)).2

/-- After `A = mm_malloc(16)`: `A = 4128`. -/
def heapA : State := after heap0 16

/-- After `B = mm_malloc(16)`: `B = 4152`. -/
def heapAB : State := after heapA 16

/-- After `C = mm_malloc(16)`: `C = 4176`. -/
def heapABC : State := after heapAB 16

/-- After `mm_free(B)`. -/
def heapFB : State := mm_free heapABC 4152

/-- The state inside `mm_free(A)` on `heapFB` at the call of `coalesce`: header and footer
of the block at `A` are marked free. -/
def heapW : State := { heapFB with mem := PUT (PUT heapFB.mem 4124 24) 4144 24 }
/-- An untouched arena that holds the initial heap and nothing more. -/
def tiny : State :=
  { mem := fun _ => 0, mem_start_brk := 4096, mem_brk := 4096, mem_max_addr := 8224,
    sbrk_log := [], heap_listp := 0, free_listp := 0, count := 0, full_count := 0 }

/-- The heap right after `mm_init` on `tiny`. -/
def heapT : State := (mm_init tiny).2


/-- An untouched arena at 4096 whose provider grants up to 8 GiB. -/
def big : State :=
  { mem := fun _ => 0, mem_start_brk := 4096, mem_brk := 4096, mem_max_addr := 8589938688,
    sbrk_log := [], heap_listp := 0, free_listp := 0, count := 0, full_count := 0 }

/-- The heap right after `mm_init` on `big`. -/
def heapBig : State := (mm_init big).2

/-- After `mm_malloc(2^32 - 16)` on `heapBig`, which returns 4128: the arena is longer than
`2^32` bytes. -/
def heapBigM : State := after heapBig 4294967280

/-- After `mm_free(4128)` on `heapBigM`. -/
def heapBigF : State := mm_free heapBigM 4128


/-! ## `mm_realloc` and the consistency checker -/

/-- `mm_realloc(ptr, size)`: the stub ignores both arguments and returns `NULL` (`0`); the
state is the one it was called in. -/
def mm_realloc (s : State) (ptr size : Nat) : Nat × State :=
  let _ := ptr
  let _ := size
  (0, s)

/-- Modelled from the spec: the provider's `mem_heap_lo()` (declared in `memlib.h`, which is
not part of the sources), the lower bound of the current addressable extent of the arena:
its first byte. -/
def mem_heap_lo (s : State) : Nat := s.mem_start_brk

/-- Modelled from the spec: the provider's `mem_heap_hi()` (declared in `memlib.h`, which is
not part of the sources), the upper bound of the current addressable extent of the arena:
its last byte. -/
def mem_heap_hi (s : State) : Nat := s.mem_brk - 1

/-- What `mm_check_heap` prints, one value per `printf`. -/
inductive Report
  /-- The text `Error: next pointer out of bounds`. -/
  | next_out_of_bounds
  /-- The text `Error: pointer in free list is allocated` (three `printf` calls write it). -/
  | allocated_in_list
  /-- The text `Error: prev pointer out of bounds`. -/
  | prev_out_of_bounds
  /-- The line `<status> block at <location>, size <size>`; `status` is `allocated` or
  `free`. -/
  | block (allocated : Bool) (location size : Nat)
  deriving DecidableEq

/-- A report is a violation when it is one of the `Error:` texts. -/
def Report.isError : Report → Bool
  | Report.block _ _ _ => false
  | _ => true

/-- The body of the free-list loop of `mm_check_heap` at the node `bp`. -/
def check_node (s : State) (bp : Nat) : List Report :=
  (if NEXT_FREE s.mem bp ≠ 0 then
      (if NEXT_FREE s.mem bp < mem_heap_lo s ∨ NEXT_FREE s.mem bp > mem_heap_hi s then
          [Report.next_out_of_bounds] else [])
      ++ (if GET_ALLOC s.mem (HDRP (NEXT_FREE s.mem bp)) ≠ 0 then
          [Report.allocated_in_list] else [])
    else [])
  ++ (if GET_ALLOC s.mem (HDRP bp) ≠ 0 then [Report.allocated_in_list] else [])
  ++ (if PREV_FREE s.mem bp ≠ 0 then
      (if GET_ALLOC s.mem (HDRP (PREV_FREE s.mem bp)) ≠ 0 then
          [Report.allocated_in_list] else [])
      ++ (if PREV_FREE s.mem bp < mem_heap_lo s ∨ PREV_FREE s.mem bp > mem_heap_hi s then
          [Report.prev_out_of_bounds] else [])
    else [])

/-- The free-list loop of `mm_check_heap`: `temp1` iterations from `bp`, following
`NEXT_FREE`. -/
def check_list (s : State) : Nat → Nat → List Report
  | 0, _ => []
  | temp1 + 1, bp => check_node s bp ++ check_list s temp1 (NEXT_FREE s.mem bp)

/-- The block loop of `mm_check_heap`: `temp2` iterations from `bp`, following `NEXT_BLKP`.
The status is read with `GET_ALLOC(bp)`, the size with `GET_SIZE(HDRP(bp))`, and the location
is `HDRP(bp)`; the `if(!status)` branch is dead, `status` being a string literal. -/
def check_blocks (s : State) : Nat → Nat → List Report
  | 0, _ => []
  | temp2 + 1, bp =>
    Report.block (decide (GET_ALLOC s.mem bp ≠ 0)) (HDRP bp) (GET_SIZE s.mem (HDRP bp))
      :: check_blocks s temp2 (NEXT_BLKP s.mem bp)

/-- `mm_check_heap()`: the return value and what it prints. It assigns to locals only, so
the state is the one it was called in. -/
def mm_check_heap (s : State) : Int × List Report :=
  (0, (if s.count > 1 then check_list s s.count s.free_listp else [])
    ++ check_blocks s s.full_count s.heap_listp)
/-- The heap right after `mm_init`, with the header of its only free-list block (payload
4128) overwritten by `PACK(4096, 1)`: a free list of one block that is marked allocated. -/
def corruptA : State := { heap0 with mem := PUT heap0.mem (HDRP 4128) (PACK 4096 1) }

/-- The heap `heapFB` (free list 4152, 4200), with the header of the free-list block at 4152
overwritten by `PACK(24, 1)`: a free list of two blocks, the first marked allocated. -/
def corruptB : State := { heapFB with mem := PUT heapFB.mem (HDRP 4152) (PACK 24 1) }


/-! ## Memory lemmas -/

theorem GET_lt (m : Mem) (p : Nat) : GET m p < 4294967296 := by
  unfold GET; omega

theorem GETP_lt (m : Mem) (p : Nat) : GETP m p < 18446744073709551616 := by
  have h1 := GET_lt m p
  have h2 := GET_lt m (p + 4)
  unfold GETP; omega

theorem PUT_byte (m : Mem) (p v a : Nat) (h : a < p ∨ p + 4 ≤ a) : PUT m p v a = m a := by
  unfold PUT
  rw [if_neg (by omega), if_neg (by omega), if_neg (by omega), if_neg (by omega)]

theorem PUTP_byte (m : Mem) (p v a : Nat) (h : a < p ∨ p + 8 ≤ a) : PUTP m p v a = m a := by
  unfold PUTP
  rw [PUT_byte _ _ _ _ (by omega), PUT_byte _ _ _ _ (by omega)]

theorem GET_congr {m m2 : Mem} {p : Nat} (h : ∀ a, p ≤ a → a < p + 4 → m2 a = m a) :
    GET m2 p = GET m p := by
  unfold GET
  rw [h p (by omega) (by omega), h (p + 1) (by omega) (by omega),
    h (p + 2) (by omega) (by omega), h (p + 3) (by omega) (by omega)]

theorem GETP_congr {m m2 : Mem} {p : Nat} (h : ∀ a, p ≤ a → a < p + 8 → m2 a = m a) :
    GETP m2 p = GETP m p := by
  unfold GETP
  rw [GET_congr (fun a h1 h2 => h a (by omega) (by omega)),
    GET_congr (m := m) (p := p + 4) (fun a h1 h2 => h a (by omega) (by omega))]

theorem GET_PUT_same (m : Mem) (p v : Nat) : GET (PUT m p v) p = v % 4294967296 := by
  unfold GET PUT
  rw [if_pos rfl, if_neg (by omega), if_pos rfl, if_neg (by omega), if_neg (by omega),
    if_pos rfl, if_neg (by omega), if_neg (by omega), if_neg (by omega), if_pos rfl]
  omega

theorem GET_PUT_disj (m : Mem) (p v q : Nat) (h : q + 4 ≤ p ∨ p + 4 ≤ q) :
    GET (PUT m p v) q = GET m q :=
  GET_congr (fun a h1 h2 => PUT_byte m p v a (by omega))

theorem GETP_PUT_disj (m : Mem) (p v q : Nat) (h : q + 8 ≤ p ∨ p + 4 ≤ q) :
    GETP (PUT m p v) q = GETP m q :=
  GETP_congr (fun a h1 h2 => PUT_byte m p v a (by omega))

theorem GET_PUTP_disj (m : Mem) (p v q : Nat) (h : q + 4 ≤ p ∨ p + 8 ≤ q) :
    GET (PUTP m p v) q = GET m q :=
  GET_congr (fun a h1 h2 => PUTP_byte m p v a (by omega))

theorem GETP_PUTP_disj (m : Mem) (p v q : Nat) (h : q + 8 ≤ p ∨ p + 8 ≤ q) :
    GETP (PUTP m p v) q = GETP m q :=
  GETP_congr (fun a h1 h2 => PUTP_byte m p v a (by omega))

theorem GETP_PUTP_same (m : Mem) (p v : Nat) (hv : v < 18446744073709551616) :
    GETP (PUTP m p v) p = v := by
  unfold GETP PUTP
  rw [GET_PUT_disj _ _ _ _ (by omega), GET_PUT_same, GET_PUT_same]
  omega

/-! ## Bit-level facts about packed words -/

theorem and_mask32 (v : Nat) (h : v < 4294967296) : v &&& 4294967288 = v - v % 8 := by
  apply Nat.eq_of_testBit_eq
  intro j
  have e1 : (4294967288 : Nat) = 2 ^ 3 * (2 ^ 29 - 1) := by norm_num
  have e2 : v - v % 8 = 2 ^ 3 * (v / 8) := by omega
  rw [Nat.testBit_and, e1, e2, Nat.testBit_mul_pow_two, Nat.testBit_mul_pow_two,
    Nat.testBit_two_pow_sub_one]
  have e3 : v = 2 ^ 3 * (v / 8) + v % 8 := by omega
  by_cases hj : j < 3
  · simp [Nat.not_le_of_lt hj]
  · have hj3 : 3 ≤ j := Nat.le_of_not_lt hj
    have hv : v.testBit j = (v / 8).testBit (j - 3) := by
      conv_lhs => rw [e3]
      rw [Nat.testBit_mul_pow_two_add _ (by omega), if_neg hj]
    rw [hv]
    by_cases hk : j - 3 < 29
    · simp [hj3, hk]
    · have : v / 8 < 2 ^ (j - 3) :=
        calc v / 8 < 2 ^ 29 := by omega
          _ ≤ 2 ^ (j - 3) := Nat.pow_le_pow_of_le_right (by decide) (by omega)
      simp [Nat.testBit_lt_two_pow this]

theorem and_mask64 (v : Nat) (h : v < 18446744073709551616) :
    v &&& 18446744073709551608 = v - v % 8 := by
  apply Nat.eq_of_testBit_eq
  intro j
  have e1 : (18446744073709551608 : Nat) = 2 ^ 3 * (2 ^ 61 - 1) := by norm_num
  have e2 : v - v % 8 = 2 ^ 3 * (v / 8) := by omega
  rw [Nat.testBit_and, e1, e2, Nat.testBit_mul_pow_two, Nat.testBit_mul_pow_two,
    Nat.testBit_two_pow_sub_one]
  have e3 : v = 2 ^ 3 * (v / 8) + v % 8 := by omega
  by_cases hj : j < 3
  · simp [Nat.not_le_of_lt hj]
  · have hj3 : 3 ≤ j := Nat.le_of_not_lt hj
    have hv : v.testBit j = (v / 8).testBit (j - 3) := by
      conv_lhs => rw [e3]
      rw [Nat.testBit_mul_pow_two_add _ (by omega), if_neg hj]
    rw [hv]
    by_cases hk : j - 3 < 61
    · simp [hj3, hk]
    · have : v / 8 < 2 ^ (j - 3) :=
        calc v / 8 < 2 ^ 61 := by omega
          _ ≤ 2 ^ (j - 3) := Nat.pow_le_pow_of_le_right (by decide) (by omega)
      simp [Nat.testBit_lt_two_pow this]

theorem PACK_eq (size al : Nat) (h8 : size % 8 = 0) (ha : al < 8) : PACK size al = size + al := by
  unfold PACK
  have e : size = 2 ^ 3 * (size / 8) := by omega
  rw [e, ← Nat.mul_add_lt_is_or (by omega)]

theorem GET_SIZE_eq (m : Mem) (p : Nat) : GET_SIZE m p = GET m p - GET m p % 8 :=
  and_mask32 _ (GET_lt m p)

theorem GET_ALLOC_eq (m : Mem) (p : Nat) : GET_ALLOC m p = GET m p % 2 :=
  Nat.and_one_is_mod _

theorem ALIGN_eq (size : Nat) :
    ALIGN size = (size + 7) % 18446744073709551616
      - (size + 7) % 18446744073709551616 % 8 := by
  unfold ALIGN ALIGNMENT
  exact and_mask64 _ (Nat.mod_lt _ (by decide))


/-! ## Layout lemmas -/

theorem Lay_append {a e : Nat} {l1 l2 : List Blk} :
    Lay a (l1 ++ l2) e ↔ ∃ mid, Lay a l1 mid ∧ Lay mid l2 e := by
  induction l1 generalizing a with
  | nil => simp [Lay]
  | cons b r ih =>
    show (b.bp = a ∧ b.size % 8 = 0 ∧ 24 ≤ b.size ∧ Lay (a + b.size) (r ++ l2) e) ↔
      ∃ mid, (b.bp = a ∧ b.size % 8 = 0 ∧ 24 ≤ b.size ∧ Lay (a + b.size) r mid) ∧ Lay mid l2 e
    rw [ih]
    constructor
    · rintro ⟨h1, h2, h3, mid, h4, h5⟩
      exact ⟨mid, ⟨h1, h2, h3, h4⟩, h5⟩
    · rintro ⟨mid, ⟨h1, h2, h3, h4⟩, h5⟩
      exact ⟨h1, h2, h3, mid, h4, h5⟩

theorem Lay_le {a e : Nat} {l : List Blk} (h : Lay a l e) : a ≤ e := by
  induction l generalizing a with
  | nil => simp [Lay] at h; omega
  | cons b r ih =>
    obtain ⟨h1, h2, h3, h4⟩ := h
    have := ih h4
    omega

theorem Lay_mem {a e : Nat} {l : List Blk} (h : Lay a l e) {b : Blk} (hb : b ∈ l) :
    a ≤ b.bp ∧ b.bp + b.size ≤ e ∧ b.size % 8 = 0 ∧ 24 ≤ b.size ∧ (b.bp - a) % 8 = 0 := by
  induction l generalizing a with
  | nil => simp at hb
  | cons c r ih =>
    obtain ⟨h1, h2, h3, h4⟩ := h
    rcases List.mem_cons.1 hb with rfl | hb
    · have := Lay_le h4
      refine ⟨by omega, by omega, h2, h3, by omega⟩
    · have := ih h4 hb
      refine ⟨by omega, by omega, this.2.2.1, this.2.2.2.1, by omega⟩

theorem Lay_disj {a e : Nat} {l : List Blk} (h : Lay a l e) {b c : Blk} (hb : b ∈ l)
    (hc : c ∈ l) : b = c ∨ b.bp + b.size ≤ c.bp ∨ c.bp + c.size ≤ b.bp := by
  induction l generalizing a with
  | nil => simp at hb
  | cons d r ih =>
    obtain ⟨h1, h2, h3, h4⟩ := h
    rcases List.mem_cons.1 hb with hb1 | hb1
    · rcases List.mem_cons.1 hc with hc1 | hc1
      · exact Or.inl (hb1.trans hc1.symm)
      · have := Lay_mem h4 hc1
        subst hb1
        right; left; omega
    · rcases List.mem_cons.1 hc with hc1 | hc1
      · have := Lay_mem h4 hb1
        subst hc1
        right; right; omega
      · exact ih h4 hb1 hc1

theorem Lay_bp_inj {a e : Nat} {l : List Blk} (h : Lay a l e) {b c : Blk} (hb : b ∈ l)
    (hc : c ∈ l) (hbc : b.bp = c.bp) : b = c := by
  have h1 := Lay_mem h hb
  have h2 := Lay_mem h hc
  rcases Lay_disj h hb hc with h3 | h3 | h3
  · exact h3
  · omega
  · omega


/-! ## Frames -/

theorem Mod.rfl {P : Nat → Prop} {m : Mem} : Mod P m m := fun _ _ => Eq.refl _

theorem Mod.mono {P Q : Nat → Prop} {m m2 : Mem} (h : Mod P m m2) (hpq : ∀ a, P a → Q a) :
    Mod Q m m2 := fun a ha => h a (fun hp => ha (hpq a hp))

theorem Mod.trans {P : Nat → Prop} {m m2 m3 : Mem} (h1 : Mod P m m2) (h2 : Mod P m2 m3) :
    Mod P m m3 := fun a ha => (h2 a ha).trans (h1 a ha)

theorem Mod_PUT (m : Mem) (p v : Nat) : Mod (fun a => p ≤ a ∧ a < p + 4) m (PUT m p v) :=
  fun a ha => PUT_byte m p v a (by omega)

theorem Mod_PUTP (m : Mem) (p v : Nat) : Mod (fun a => p ≤ a ∧ a < p + 8) m (PUTP m p v) :=
  fun a ha => PUTP_byte m p v a (by omega)

theorem Mod.get {P : Nat → Prop} {m m2 : Mem} (h : Mod P m m2) {w : Nat}
    (hw : ∀ a, w ≤ a → a < w + 4 → ¬ P a) : GET m2 w = GET m w :=
  GET_congr (fun a h1 h2 => h a (hw a h1 h2))

theorem Mod.getp {P : Nat → Prop} {m m2 : Mem} (h : Mod P m m2) {w : Nat}
    (hw : ∀ a, w ≤ a → a < w + 8 → ¬ P a) : GETP m2 w = GETP m w :=
  GETP_congr (fun a h1 h2 => h a (hw a h1 h2))

/-! ## Doubly linked segments -/

theorem Seg_frame {m m2 : Mem} {l : List Nat} {prev cur e : Nat}
    (hf : ∀ x ∈ l, GETP m2 x = GETP m x ∧ GETP m2 (x + 8) = GETP m (x + 8))
    (h : Seg m prev cur l e) : Seg m2 prev cur l e := by
  induction l generalizing prev cur with
  | nil => exact h
  | cons x r ih =>
    obtain ⟨h1, h2, h3⟩ := h
    have hx := hf x (List.mem_cons_self _ _)
    refine ⟨h1, by rw [hx.1]; exact h2, ?_⟩
    rw [hx.2]
    exact ih (fun y hy => hf y (List.mem_cons_of_mem _ hy)) h3

theorem Seg_frame_PUTP {m : Mem} {l : List Nat} {prev cur e w v : Nat}
    (hw : ∀ x ∈ l, x + 16 ≤ w ∨ w + 8 ≤ x)
    (h : Seg m prev cur l e) : Seg (PUTP m w v) prev cur l e :=
  Seg_frame (fun x hx => ⟨GETP_PUTP_disj _ _ _ _ (by have := hw x hx; omega),
    GETP_PUTP_disj _ _ _ _ (by have := hw x hx; omega)⟩) h

theorem Seg_frame_PUT {m : Mem} {l : List Nat} {prev cur e w v : Nat}
    (hw : ∀ x ∈ l, x + 16 ≤ w ∨ w + 4 ≤ x)
    (h : Seg m prev cur l e) : Seg (PUT m w v) prev cur l e :=
  Seg_frame (fun x hx => ⟨GETP_PUT_disj _ _ _ _ (by have := hw x hx; omega),
    GETP_PUT_disj _ _ _ _ (by have := hw x hx; omega)⟩) h

theorem Seg_frame_Mod {P : Nat → Prop} {m m2 : Mem} {l : List Nat} {prev cur e : Nat}
    (hm : Mod P m m2) (hw : ∀ x ∈ l, ∀ a, x ≤ a → a < x + 16 → ¬ P a)
    (h : Seg m prev cur l e) : Seg m2 prev cur l e :=
  Seg_frame (fun x hx => ⟨hm.getp (fun a h1 h2 => hw x hx a h1 (by omega)),
    hm.getp (fun a h1 h2 => hw x hx a (by omega) (by omega))⟩) h

/-- Every node of a segment other than the first is the `NEXT_FREE` of a node; the segment
ends where it says. -/
theorem Seg_cur_mem {m : Mem} {l : List Nat} {prev cur e : Nat} (h : Seg m prev cur l e) :
    cur ∈ l ++ [e] := by
  cases l with
  | nil => simp [Seg] at h; simp [h]
  | cons x r => simp [h.1]

/-- Rewriting the `PREV_FREE` of the first node of a segment (or of its end). -/
theorem Seg_relink {m : Mem} {l : List Nat} {x nx e p : Nat} (hp : p < 18446744073709551616)
    (hap : Apart (e :: l)) (hnd : (e :: l).Nodup) (h : Seg m x nx l e) :
    Seg (PUTP m nx p) p nx l e := by
  cases l with
  | nil => exact h
  | cons y r =>
    obtain ⟨h1, h2, h3⟩ := h
    subst h1
    refine ⟨rfl, GETP_PUTP_same _ _ _ hp, ?_⟩
    rw [GETP_PUTP_disj _ _ _ _ (by omega)]
    refine Seg_frame_PUTP (fun z hz => ?_) h3
    have hne : z ≠ nx := by
      intro hzn
      have := (List.nodup_cons.1 (List.nodup_cons.1 hnd).2).1
      exact this (hzn ▸ hz)
    have := hap z (by simp [hz]) nx (by simp)
    omega

/-- Unlinking the node `x` that follows a non-empty prefix `l1` of a segment. -/
theorem Seg_unlink {m : Mem} {l1 l2 : List Nat} {x e prev cur : Nat} (hl1 : l1 ≠ [])
    (hap : Apart (e :: (l1 ++ x :: l2))) (hnd : (e :: (l1 ++ x :: l2)).Nodup)
    (h : Seg m prev cur (l1 ++ x :: l2) e) :
    Seg (PUTP (PUTP m (GETP m x + 8) (GETP m (x + 8))) (GETP m (x + 8)) (GETP m x))
      prev cur (l1 ++ l2) e ∧ GETP m x ∈ l1 ∧ GETP m (x + 8) ∈ l2 ++ [e] := by
  induction l1 generalizing prev cur with
  | nil => exact absurd rfl hl1
  | cons p r ih =>
    obtain ⟨h1, h2, h3⟩ := h
    subst h1
    have hnd1 : (e :: (r ++ x :: l2)).Nodup := by
      have h0 := List.nodup_cons.1 hnd
      have h00 := List.nodup_cons.1 h0.2
      exact List.nodup_cons.2 ⟨fun hh => h0.1 (List.mem_cons_of_mem _ hh), h00.2⟩
    have hap1 : Apart (e :: (r ++ x :: l2)) := by
      intro a ha b hb
      apply hap a _ b _
      · rcases List.mem_cons.1 ha with ha | ha
        · simp [ha]
        · exact List.mem_cons_of_mem _ (List.mem_cons_of_mem _ ha)
      · rcases List.mem_cons.1 hb with hb | hb
        · simp [hb]
        · exact List.mem_cons_of_mem _ (List.mem_cons_of_mem _ hb)
    have hcur_notin : cur ∉ r ++ x :: l2 := by
      have h0 := List.nodup_cons.1 hnd
      exact (List.nodup_cons.1 h0.2).1
    have hcur_ne_e : cur ≠ e := by
      have h0 := List.nodup_cons.1 hnd
      intro hh
      exact h0.1 (by simp [hh])
    have sep : ∀ z, z ∈ e :: (r ++ x :: l2) → cur + 16 ≤ z ∨ z + 16 ≤ cur := by
      intro z hz
      have hzne : cur ≠ z := by
        intro hh
        rcases List.mem_cons.1 hz with hz | hz
        · exact hcur_ne_e (hh.trans hz)
        · exact hcur_notin (hh ▸ hz)
      have := hap cur (by simp) z (by
        rcases List.mem_cons.1 hz with hz | hz
        · simp [hz]
        · exact List.mem_cons_of_mem _ (List.mem_cons_of_mem _ hz))
      omega
    cases r with
    | nil =>
      -- `cur` is the node just before `x`
      obtain ⟨h4, h5, h6⟩ := h3
      have hnx : GETP m (x + 8) ∈ l2 ++ [e] := Seg_cur_mem h6
      have hx : GETP m x = cur := h5
      have hsx := sep x (by simp)
      have hsn : cur + 16 ≤ GETP m (x + 8) ∨ GETP m (x + 8) + 16 ≤ cur := by
        apply sep
        rcases List.mem_append.1 hnx with hh | hh
        · simp [hh]
        · simp at hh; simp [hh]
      rw [hx]
      refine ⟨⟨rfl, ?_, ?_⟩, by simp, hnx⟩
      · rw [GETP_PUTP_disj _ _ _ _ (by omega), GETP_PUTP_disj _ _ _ _ (by omega)]
        exact h2
      · rw [GETP_PUTP_disj _ _ _ _ (by omega), GETP_PUTP_same _ _ _ (GETP_lt _ _)]
        have hap2 : Apart (e :: l2) := by
          intro a ha b hb
          apply hap a _ b _
          · rcases List.mem_cons.1 ha with ha | ha
            · simp [ha]
            · simp [ha]
          · rcases List.mem_cons.1 hb with hb | hb
            · simp [hb]
            · simp [hb]
        have hnd2 : (e :: l2).Nodup := by
          have h0 := List.nodup_cons.1 hnd1
          simp only [List.nil_append] at h0
          exact List.nodup_cons.2 ⟨fun hh => h0.1 (List.mem_cons_of_mem _ hh),
            (List.nodup_cons.1 h0.2).2⟩
        have hb : Seg (PUTP m (cur + 8) (GETP m (x + 8))) x (GETP m (x + 8)) l2 e := by
          refine Seg_frame_PUTP (fun z hz => ?_) h6
          have := sep z (by simp [hz])
          omega
        have hp : cur < 18446744073709551616 := hx ▸ GETP_lt m x
        exact Seg_relink hp hap2 hnd2 hb
    | cons q r2 =>
      have ih1 := ih (by simp) hap1 hnd1 h3
      obtain ⟨ih2, ih3, ih4⟩ := ih1
      have hs1 := sep (GETP m x) (List.mem_cons_of_mem _ (List.mem_append_left _ ih3))
      have hs2 : cur + 16 ≤ GETP m (x + 8) ∨ GETP m (x + 8) + 16 ≤ cur := by
        apply sep
        rcases List.mem_append.1 ih4 with hh | hh
        · exact List.mem_cons_of_mem _ (List.mem_append_right _ (List.mem_cons_of_mem _ hh))
        · simp at hh; simp [hh]
      refine ⟨⟨rfl, ?_, ?_⟩, List.mem_cons_of_mem _ ih3, ih4⟩
      · rw [GETP_PUTP_disj _ _ _ _ (by omega), GETP_PUTP_disj _ _ _ _ (by omega)]
        exact h2
      · rw [GETP_PUTP_disj _ _ _ _ (by omega), GETP_PUTP_disj _ _ _ _ (by omega)]
        exact ih2


/-! ## Free-list surgery -/

theorem Apart_sub {S T : List Nat} (h : Apart T) (hs : ∀ x ∈ S, x ∈ T) : Apart S :=
  fun x hx y hy => h x (hs x hx) y (hs y hy)

/-- `remove_free_bp` on the node `x` of the list `l1 ++ x :: l2`. -/
theorem remove_free_bp_seg (s : State) (l1 l2 : List Nat) (x e : Nat)
    (hseg : Seg s.mem 0 s.free_listp (l1 ++ x :: l2) e)
    (hap : Apart (e :: (l1 ++ x :: l2))) (hnd : (e :: (l1 ++ x :: l2)).Nodup)
    (hnz : ∀ y ∈ l1, y ≠ 0) (hc : s.count = (l1 ++ x :: l2).length)
    (hlen : (l1 ++ x :: l2).length ≤ 4294967296) :
    Seg (remove_free_bp s x).mem 0 (remove_free_bp s x).free_listp (l1 ++ l2) e
    ∧ (remove_free_bp s x).count = (l1 ++ l2).length
    ∧ Mod (fun a => ∃ y ∈ e :: (l1 ++ l2), y ≤ a ∧ a < y + 16) s.mem (remove_free_bp s x).mem
    ∧ (remove_free_bp s x).free_listp = (l1 ++ l2 ++ [e]).head! := by
  have hcnt : (s.count + 4294967296 - 1) % 4294967296 = (l1 ++ l2).length := by
    rw [hc]; simp only [List.length_append, List.length_cons] at hlen ⊢; omega
  cases l1 with
  | nil =>
    obtain ⟨h1, h2, h3⟩ := hseg
    have hprev : PREV_FREE s.mem x = 0 := h2
    have hnx : GETP s.mem (x + 8) ∈ l2 ++ [e] := Seg_cur_mem h3
    have hap2 : Apart (e :: l2) := Apart_sub hap (by
      intro z hz; rcases List.mem_cons.1 hz with hz | hz <;> simp [hz])
    have hnd2 : (e :: l2).Nodup := by
      have h0 := List.nodup_cons.1 hnd
      simp only [List.nil_append] at h0
      exact List.nodup_cons.2 ⟨fun hh => h0.1 (List.mem_cons_of_mem _ hh),
        (List.nodup_cons.1 h0.2).2⟩
    have hs := Seg_relink (p := 0) (by decide) hap2 hnd2 h3
    unfold remove_free_bp
    rw [if_neg (by rw [hprev]; simp)]
    simp only [NEXT_FREE, PREV_FREE, DSIZE] at hprev ⊢
    rw [hprev]
    refine ⟨hs, hcnt, ?_, ?_⟩
    · refine (Mod_PUTP _ _ _).mono (fun a ha => ⟨GETP s.mem (x + 8), ?_, by omega, by omega⟩)
      rcases List.mem_append.1 hnx with hh | hh
      · simp [hh]
      · simp at hh; simp [hh]
    · cases l2 with
      | nil => simpa [Seg] using h3
      | cons y r => simpa using h3.1
  | cons p r =>
    have hu := Seg_unlink (by simp) hap hnd hseg
    obtain ⟨hu1, hu2, hu3⟩ := hu
    have hpz : GETP s.mem x ≠ 0 := hnz _ hu2
    have hxnot : x ∉ p :: r := by
      have h0 := (List.nodup_cons.1 hnd).2
      have := List.disjoint_of_nodup_append h0
      exact fun hh => this hh (List.mem_cons_self _ _)
    have hsep : GETP s.mem x + 16 ≤ x ∨ x + 16 ≤ GETP s.mem x := by
      have hne : GETP s.mem x ≠ x := fun hh => hxnot (hh ▸ hu2)
      have := hap (GETP s.mem x) (List.mem_cons_of_mem _ (List.mem_append_left _ hu2)) x
        (by simp)
      omega
    unfold remove_free_bp
    rw [if_pos (by simpa [PREV_FREE] using hpz)]
    simp only [NEXT_FREE, PREV_FREE, DSIZE]
    rw [GETP_PUTP_disj _ _ _ (x + 8) (by omega), GETP_PUTP_disj _ _ _ x (by omega)]
    refine ⟨hu1, hcnt, ?_, ?_⟩
    · intro a ha
      have h1 : ¬ (GETP s.mem x + 8 ≤ a ∧ a < GETP s.mem x + 8 + 8) := by
        intro hh
        apply ha
        refine ⟨GETP s.mem x, List.mem_cons_of_mem _ (List.mem_append_left _ hu2), by omega,
          by omega⟩
      have h2 : ¬ (GETP s.mem (x + 8) ≤ a ∧ a < GETP s.mem (x + 8) + 8) := by
        intro hh
        apply ha
        refine ⟨GETP s.mem (x + 8), ?_, by omega, by omega⟩
        rcases List.mem_append.1 hu3 with hh | hh
        · exact List.mem_cons_of_mem _ (List.mem_append_right _ hh)
        · simp at hh; simp [hh]
      rw [PUTP_byte _ _ _ _ (by omega), PUTP_byte _ _ _ _ (by omega)]
    · have := hseg.1
      simp [this]

/-- `insert_free_block` of a new node `x`. -/
theorem insert_free_block_seg (s : State) (fl : List Nat) (x e : Nat)
    (hseg : Seg s.mem 0 s.free_listp fl e)
    (hap : Apart (x :: e :: fl)) (hnd : (x :: e :: fl).Nodup)
    (hlt : ∀ y ∈ x :: e :: fl, y < 18446744073709551616)
    (hc : s.count = fl.length) (hlen : fl.length + 1 < 4294967296) :
    Seg (insert_free_block s x).mem 0 x (x :: fl) e
    ∧ (insert_free_block s x).count = (x :: fl).length
    ∧ Mod (fun a => ∃ y ∈ x :: e :: fl, y ≤ a ∧ a < y + 16) s.mem (insert_free_block s x).mem := by
  have hhd : s.free_listp ∈ fl ++ [e] := Seg_cur_mem hseg
  have hhd2 : s.free_listp ∈ e :: fl := by
    rcases List.mem_append.1 hhd with hh | hh
    · exact List.mem_cons_of_mem _ hh
    · simp at hh; simp [hh]
  have hxn : x ∉ e :: fl := (List.nodup_cons.1 hnd).1
  have hsep : ∀ z ∈ e :: fl, x + 16 ≤ z ∨ z + 16 ≤ x := by
    intro z hz
    have hne : x ≠ z := fun hh => hxn (hh ▸ hz)
    have := hap x (by simp) z (List.mem_cons_of_mem _ hz)
    omega
  have hsh := hsep _ hhd2
  have hap2 : Apart (e :: fl) := Apart_sub hap (fun z hz => List.mem_cons_of_mem _ hz)
  have hnd2 : (e :: fl).Nodup := (List.nodup_cons.1 hnd).2
  have hxlt := hlt x (by simp)
  have hhlt := hlt _ (List.mem_cons_of_mem _ hhd2)
  unfold insert_free_block
  simp only [DSIZE]
  refine ⟨⟨rfl, GETP_PUTP_same _ _ _ (by decide), ?_⟩, ?_, ?_⟩
  · rw [GETP_PUTP_disj _ _ _ _ (by omega), GETP_PUTP_disj _ _ _ _ (by omega),
      GETP_PUTP_same _ _ _ hhlt]
    refine Seg_frame_PUTP (fun z hz => ?_) ?_
    · have := hsep z (List.mem_cons_of_mem _ hz); omega
    · refine Seg_relink (x := 0) hxlt hap2 hnd2 ?_
      refine Seg_frame_PUTP (fun z hz => ?_) hseg
      have := hsep z (List.mem_cons_of_mem _ hz); omega
  · simp only [List.length_cons]; omega
  · intro a ha
    have h1 : ¬ (x ≤ a ∧ a < x + 16) := fun hh => ha ⟨x, by simp, hh.1, hh.2⟩
    have h2 : ¬ (s.free_listp ≤ a ∧ a < s.free_listp + 16) :=
      fun hh => ha ⟨_, List.mem_cons_of_mem _ hhd2, hh.1, hh.2⟩
    rw [PUTP_byte _ _ _ _ (by omega), PUTP_byte _ _ _ _ (by omega),
      PUTP_byte _ _ _ _ (by omega)]


/-! ## Fields left alone by the list operations -/

theorem remove_free_bp_fields (s : State) (x : Nat) :
    (remove_free_bp s x).heap_listp = s.heap_listp
    ∧ (remove_free_bp s x).mem_brk = s.mem_brk
    ∧ (remove_free_bp s x).mem_start_brk = s.mem_start_brk
    ∧ (remove_free_bp s x).mem_max_addr = s.mem_max_addr
    ∧ (remove_free_bp s x).sbrk_log = s.sbrk_log
    ∧ (remove_free_bp s x).full_count = s.full_count := by
  unfold remove_free_bp
  split <;> exact ⟨rfl, rfl, rfl, rfl, rfl, rfl⟩

theorem insert_free_block_fields (s : State) (x : Nat) :
    (insert_free_block s x).heap_listp = s.heap_listp
    ∧ (insert_free_block s x).mem_brk = s.mem_brk
    ∧ (insert_free_block s x).mem_start_brk = s.mem_start_brk
    ∧ (insert_free_block s x).mem_max_addr = s.mem_max_addr
    ∧ (insert_free_block s x).sbrk_log = s.sbrk_log
    ∧ (insert_free_block s x).full_count = s.full_count
    ∧ (insert_free_block s x).free_listp = x :=
  ⟨rfl, rfl, rfl, rfl, rfl, rfl, rfl⟩

/-! ## Consequences of the layout -/

/-- A header or footer byte of one block is in no link area of a block of the chain. -/
theorem tag_clear {a e : Nat} {L : List Blk} (h : Lay a L e) {b c : Blk} (hb : b ∈ L)
    (hc : c ∈ L) {x : Nat}
    (hx : (b.bp - 4 ≤ x ∧ x < b.bp) ∨ (b.bp + b.size - 8 ≤ x ∧ x < b.bp + b.size - 4)) :
    ¬ (c.bp ≤ x ∧ x < c.bp + 16) := by
  have h1 := Lay_mem h hb
  have h2 := Lay_mem h hc
  rcases Lay_disj h hb hc with h3 | h3 | h3
  · subst h3; omega
  · omega
  · omega

/-- A byte of the extent of one block is in no link area of another block. -/
theorem ext_clear {a e : Nat} {L : List Blk} (h : Lay a L e) {b c : Blk} (hb : b ∈ L)
    (hc : c ∈ L) (hne : b.bp ≠ c.bp) {x : Nat} (hx : b.bp - 4 ≤ x ∧ x < b.bp + b.size - 4) :
    ¬ (c.bp ≤ x ∧ x < c.bp + 16) := by
  have h1 := Lay_mem h hb
  have h2 := Lay_mem h hc
  rcases Lay_disj h hb hc with h3 | h3 | h3
  · subst h3; exact absurd rfl hne
  · omega
  · omega

theorem Lay_length {a e : Nat} {l : List Blk} (h : Lay a l e) : a + 24 * l.length ≤ e := by
  induction l generalizing a with
  | nil => simp [Lay] at h; simp; omega
  | cons b r ih =>
    obtain ⟨h1, h2, h3, h4⟩ := h
    have := ih h4
    simp only [List.length_cons]
    omega

theorem pro_mem (s : State) (bs : List Blk) : pro s ∈ pro s :: bs := List.mem_cons_self _ _

theorem HInv.bp_ne_pro {s : State} {bs mid : List Blk} {fl : List Nat} (h : HInv s bs mid fl)
    {b : Blk} (hb : b ∈ bs) : s.heap_listp + 32 ≤ b.bp := by
  obtain ⟨h1, h2, h3, h4⟩ := h.lay
  have := Lay_mem h4 hb
  simp only [pro] at this
  omega

theorem HInv.fl_facts {s : State} {bs mid : List Blk} {fl : List Nat} (h : HInv s bs mid fl) :
    (∀ x ∈ fl, s.heap_listp + 32 ≤ x ∧ x + 24 ≤ s.mem_brk)
    ∧ ((s.heap_listp + 8) :: fl).Nodup
    ∧ fl.length ≤ bs.length
    ∧ 24 * bs.length + 32 + s.heap_listp ≤ s.mem_brk := by
  have hlay := h.lay
  obtain ⟨h1, h2, h3, h4⟩ := hlay
  have hb : ∀ x ∈ fl, s.heap_listp + 32 ≤ x ∧ x + 24 ≤ s.mem_brk := by
    intro x hx
    obtain ⟨b, hb, rfl⟩ := h.sub x hx
    have := Lay_mem h4 hb
    simp only [pro] at this
    omega
  refine ⟨hb, ?_, ?_, ?_⟩
  · refine List.nodup_cons.2 ⟨fun hh => ?_, h.nodup⟩
    have := hb _ hh
    omega
  · have hsub : fl ⊆ bs.map Blk.bp := by
      intro x hx
      obtain ⟨b, hb, rfl⟩ := h.sub x hx
      exact List.mem_map_of_mem _ hb
    have := (h.nodup.subperm hsub).length_le
    simpa using this
  · have := Lay_length h4
    simp only [pro] at this
    omega

/-- The free-list nodes and the prologue are pairwise at least a link area apart. -/
theorem HInv.apart {s : State} {bs mid : List Blk} {fl : List Nat} (h : HInv s bs mid fl)
    {S : List Nat} (hS : ∀ x ∈ S, ∃ b ∈ pro s :: bs, b.bp = x) : Apart S := by
  intro x hx y hy
  obtain ⟨b, hb, rfl⟩ := hS x hx
  obtain ⟨c, hc, rfl⟩ := hS y hy
  have h1 := Lay_mem h.lay hb
  have h2 := Lay_mem h.lay hc
  rcases Lay_disj h.lay hb hc with h3 | h3 | h3
  · left; rw [h3]
  · right; left; omega
  · right; right; omega

theorem HInv.sub_pro {s : State} {bs mid : List Blk} {fl : List Nat} (h : HInv s bs mid fl) :
    ∀ x ∈ (s.heap_listp + 8) :: fl, ∃ b ∈ pro s :: bs, b.bp = x := by
  intro x hx
  rcases List.mem_cons.1 hx with hx | hx
  · exact ⟨pro s, pro_mem s bs, hx.symm⟩
  · obtain ⟨b, hb, hbx⟩ := h.sub x hx
    exact ⟨b, List.mem_cons_of_mem _ hb, hbx⟩

/-- A memory change confined to link areas of blocks of the chain keeps the tags. -/
theorem HInv.frame_links {s : State} {bs mid : List Blk} {fl : List Nat} (h : HInv s bs mid fl)
    {S : List Nat} (hS : ∀ x ∈ S, ∃ b ∈ pro s :: bs, b.bp = x) {m2 : Mem}
    (hm : Mod (fun a => ∃ y ∈ S, y ≤ a ∧ a < y + 16) s.mem m2) :
    (∀ b ∈ pro s :: bs, GET m2 (b.bp - 4) = GET s.mem (b.bp - 4)
      ∧ GET m2 (b.bp + b.size - 8) = GET s.mem (b.bp + b.size - 8))
    ∧ GET m2 (s.mem_brk - 4) = GET s.mem (s.mem_brk - 4) := by
  refine ⟨fun b hb => ⟨?_, ?_⟩, ?_⟩
  · refine hm.get (fun a h1 h2 => ?_)
    rintro ⟨y, hy, h3, h4⟩
    obtain ⟨c, hc, rfl⟩ := hS y hy
    have := Lay_mem h.lay hb
    exact tag_clear h.lay hb hc (Or.inl ⟨h1, by omega⟩) ⟨h3, h4⟩
  · refine hm.get (fun a h1 h2 => ?_)
    rintro ⟨y, hy, h3, h4⟩
    obtain ⟨c, hc, rfl⟩ := hS y hy
    have := Lay_mem h.lay hb
    exact tag_clear h.lay hb hc (Or.inr ⟨h1, by omega⟩) ⟨h3, h4⟩
  · refine hm.get (fun a h1 h2 => ?_)
    rintro ⟨y, hy, h3, h4⟩
    obtain ⟨c, hc, rfl⟩ := hS y hy
    have := Lay_mem h.lay hc
    omega

theorem pro_congr {s s2 : State} (h : s2.heap_listp = s.heap_listp) : pro s2 = pro s := by
  simp [pro, h]

/-! ## Steps that keep a well-formed heap -/

/-- Transfer of `HInv` to a state with the same arena bounds whose memory keeps the tags
outside the hole, the epilogue, and has the given free list. -/
theorem HInv.transfer {s s2 : State} {bs mid : List Blk} {fl fl2 : List Nat}
    (h : HInv s bs mid fl)
    (e1 : s2.heap_listp = s.heap_listp) (e2 : s2.mem_brk = s.mem_brk)
    (e3 : s2.mem_start_brk = s.mem_start_brk) (e4 : s2.mem_max_addr = s.mem_max_addr)
    (ht : ∀ b ∈ pro s :: bs, b ∉ mid → GET s2.mem (b.bp - 4) = GET s.mem (b.bp - 4)
      ∧ GET s2.mem (b.bp + b.size - 8) = GET s.mem (b.bp + b.size - 8))
    (he : GET s2.mem (s.mem_brk - 4) = GET s.mem (s.mem_brk - 4))
    (hl : Seg s2.mem 0 s2.free_listp fl2 (s.heap_listp + 8))
    (hsub : ∀ x ∈ fl2, ∃ b ∈ bs, b.bp = x) (hnd : fl2.Nodup) (hc : s2.count = fl2.length) :
    HInv s2 bs mid fl2 := by
  have hp := pro_congr e1
  constructor
  · rw [e1, e2, hp]; exact h.lay
  · intro b hb hbm
    rw [hp] at hb
    have := ht b hb hbm
    have h0 := h.tags b hb hbm
    exact ⟨this.1.trans h0.1, this.2.trans h0.2⟩
  · rw [e2, he]; exact h.epi
  · rw [e1, e3]; exact h.lo_le
  · rw [e1, e3]; exact h.al8
  · rw [e2, e3]; exact h.small
  · rw [e2, e4]; exact h.addr
  · rw [e1]; exact hl
  · exact hsub
  · exact hnd
  · exact hc

theorem HInv.remove {s : State} {bs mid : List Blk} {fl : List Nat} (h : HInv s bs mid fl)
    {x : Nat} (hx : x ∈ fl) :
    HInv (remove_free_bp s x) bs mid (fl.erase x)
    ∧ Mod (fun a => ∃ y ∈ (s.heap_listp + 8) :: fl.erase x, y ≤ a ∧ a < y + 16) s.mem
        (remove_free_bp s x).mem
    ∧ (remove_free_bp s x).free_listp = (fl.erase x ++ [s.heap_listp + 8]).head! := by
  obtain ⟨l1, l2, rfl⟩ := List.append_of_mem hx
  have hnd := h.nodup
  have hxl1 : x ∉ l1 := by
    intro hh
    exact (List.disjoint_of_nodup_append hnd) hh (List.mem_cons_self _ _)
  have her : (l1 ++ x :: l2).erase x = l1 ++ l2 := by
    rw [List.erase_append_right _ hxl1, List.erase_cons_head]
  rw [her]
  obtain ⟨f1, f2, f3, f4⟩ := h.fl_facts
  have hap : Apart ((s.heap_listp + 8) :: (l1 ++ x :: l2)) := h.apart h.sub_pro
  have hnz : ∀ y ∈ l1, y ≠ 0 := by
    intro y hy
    have := f1 y (List.mem_append_left _ hy)
    omega
  have hlen : (l1 ++ x :: l2).length ≤ 4294967296 := by
    have := h.small
    have := h.lo_le
    omega
  obtain ⟨r1, r2, r3, r4⟩ := remove_free_bp_seg s l1 l2 x _ h.list hap f2 hnz h.cnt hlen
  obtain ⟨e1, e2, e3, e4, e5, e6⟩ := remove_free_bp_fields s x
  have hsub2 : ∀ y ∈ (s.heap_listp + 8) :: (l1 ++ l2), ∃ b ∈ pro s :: bs, b.bp = y := by
    intro y hy
    apply h.sub_pro
    rcases List.mem_cons.1 hy with hy | hy
    · simp [hy]
    · rcases List.mem_append.1 hy with hy | hy
      · simp [hy]
      · simp [hy]
  obtain ⟨t1, t2⟩ := h.frame_links hsub2 r3
  refine ⟨?_, r3, r4⟩
  refine h.transfer e1 e2 e3 e4 (fun b hb _ => t1 b hb) t2 r1 ?_ ?_ r2
  · intro y hy
    apply h.sub
    rcases List.mem_append.1 hy with hy | hy
    · simp [hy]
    · simp [hy]
  · have := hnd.sublist (List.Sublist.append (List.Sublist.refl l1) (List.sublist_cons_self x l2))
    exact this

theorem HInv.insert {s : State} {bs mid : List Blk} {fl : List Nat} (h : HInv s bs mid fl)
    {x : Nat} (hx : x ∉ fl) (hxb : ∃ b ∈ bs, b.bp = x) :
    HInv (insert_free_block s x) bs mid (x :: fl)
    ∧ Mod (fun a => ∃ y ∈ x :: (s.heap_listp + 8) :: fl, y ≤ a ∧ a < y + 16) s.mem
        (insert_free_block s x).mem := by
  obtain ⟨f1, f2, f3, f4⟩ := h.fl_facts
  have hsubx : ∀ y ∈ x :: (s.heap_listp + 8) :: fl, ∃ b ∈ pro s :: bs, b.bp = y := by
    intro y hy
    rcases List.mem_cons.1 hy with hy | hy
    · obtain ⟨b, hb, hbx⟩ := hxb
      exact ⟨b, List.mem_cons_of_mem _ hb, hbx.trans hy.symm⟩
    · exact h.sub_pro y hy
  have hap : Apart (x :: (s.heap_listp + 8) :: fl) := h.apart hsubx
  obtain ⟨b0, hb0, hb0x⟩ := hxb
  have hxge := h.bp_ne_pro hb0
  have hnd : (x :: (s.heap_listp + 8) :: fl).Nodup := by
    refine List.nodup_cons.2 ⟨fun hh => ?_, f2⟩
    rcases List.mem_cons.1 hh with hh | hh
    · omega
    · exact hx hh
  have haddr := h.addr
  have hlt : ∀ y ∈ x :: (s.heap_listp + 8) :: fl, y < 18446744073709551616 := by
    intro y hy
    obtain ⟨b, hb, rfl⟩ := hsubx y hy
    have := Lay_mem h.lay hb
    omega
  have hsubl : (x :: fl) ⊆ bs.map Blk.bp := by
    intro y hy
    rcases List.mem_cons.1 hy with hy | hy
    · rw [hy, ← hb0x]; exact List.mem_map_of_mem _ hb0
    · obtain ⟨b, hb, rfl⟩ := h.sub y hy
      exact List.mem_map_of_mem _ hb
  have hnd1 : (x :: fl).Nodup := List.nodup_cons.2 ⟨hx, h.nodup⟩
  have hlen : fl.length + 1 < 4294967296 := by
    have := (hnd1.subperm hsubl).length_le
    simp only [List.length_cons, List.length_map] at this
    have := h.small
    have := h.lo_le
    omega
  obtain ⟨r1, r2, r3⟩ := insert_free_block_seg s fl x _ h.list hap hnd hlt h.cnt hlen
  obtain ⟨t1, t2⟩ := h.frame_links hsubx r3
  refine ⟨?_, r3⟩
  refine h.transfer rfl rfl rfl rfl (fun b hb _ => t1 b hb) t2 r1 ?_ hnd1 r2
  intro y hy
  rcases List.mem_cons.1 hy with hy | hy
  · exact ⟨b0, hb0, hb0x.trans hy.symm⟩
  · exact h.sub y hy

/-- A word written inside the extent of a block of the hole, off the link area of every
free-list node. -/
theorem HInv.put {s : State} {bs mid : List Blk} {fl : List Nat} (h : HInv s bs mid fl)
    {c : Blk} (hc : c ∈ mid) (hcb : c ∈ bs) {w : Nat} (v : Nat)
    (hw : c.bp - 4 ≤ w ∧ w + 4 ≤ c.bp + c.size - 4)
    (hl : c.bp ∈ fl → c.bp + 16 ≤ w ∨ w + 4 ≤ c.bp) :
    HInv { s with mem := PUT s.mem w v } bs mid fl := by
  have hcL : c ∈ pro s :: bs := List.mem_cons_of_mem _ hcb
  have hcl := Lay_mem h.lay hcL
  have hcg := h.bp_ne_pro hcb
  refine h.transfer rfl rfl rfl rfl (fun b hb hbm => ?_) ?_ ?_ h.sub h.nodup h.cnt
  · have hbl := Lay_mem h.lay hb
    have hne : b ≠ c := fun hh => hbm (hh ▸ hc)
    rcases Lay_disj h.lay hb hcL with h3 | h3 | h3
    · exact absurd h3 hne
    · exact ⟨GET_PUT_disj _ _ _ _ (by omega), GET_PUT_disj _ _ _ _ (by omega)⟩
    · exact ⟨GET_PUT_disj _ _ _ _ (by omega), GET_PUT_disj _ _ _ _ (by omega)⟩
  · exact GET_PUT_disj _ _ _ _ (by omega)
  · refine Seg_frame_PUT (fun y hy => ?_) h.list
    obtain ⟨b, hb, rfl⟩ := h.sub y hy
    have hbL : b ∈ pro s :: bs := List.mem_cons_of_mem _ hb
    have hbl := Lay_mem h.lay hbL
    rcases Lay_disj h.lay hbL hcL with h3 | h3 | h3
    · subst h3
      have := hl hy
      omega
    · omega
    · omega

theorem Lay_append_notin {a e : Nat} {l1 l2 : List Blk} (h : Lay a (l1 ++ l2) e) {b : Blk}
    (hb : b ∈ l1) : b ∉ l2 := by
  obtain ⟨mid, h1, h2⟩ := Lay_append.1 h
  intro hb2
  have := Lay_mem h1 hb
  have := Lay_mem h2 hb2
  omega

/-- Replace the blocks of the hole by blocks with the same span. -/
theorem HInv.reshape {s : State} {l1 mid mid2 l2 : List Blk} {fl : List Nat}
    (h : HInv s (l1 ++ mid ++ l2) mid fl) (hm : ∀ a e, Lay a mid e → Lay a mid2 e)
    (hfl : ∀ x ∈ fl, (∃ b ∈ mid, b.bp = x) → ∃ b ∈ mid2, b.bp = x) :
    HInv s (l1 ++ mid2 ++ l2) mid2 fl := by
  have hlay := h.lay
  have e0 : pro s :: (l1 ++ mid ++ l2) = (pro s :: l1) ++ mid ++ l2 := by simp
  have e1 : pro s :: (l1 ++ mid2 ++ l2) = (pro s :: l1) ++ mid2 ++ l2 := by simp
  rw [e0] at hlay
  obtain ⟨m2, h12, h3⟩ := Lay_append.1 hlay
  obtain ⟨m1, h1, h2⟩ := Lay_append.1 h12
  have hlay2 : Lay (s.heap_listp + 8) ((pro s :: l1) ++ mid2 ++ l2) s.mem_brk :=
    Lay_append.2 ⟨m2, Lay_append.2 ⟨m1, h1, hm _ _ h2⟩, h3⟩
  constructor
  · rw [e1]; exact hlay2
  · intro b hb hbm
    rw [e1] at hb
    have hb1 : b ∈ pro s :: l1 ∨ b ∈ l2 := by
      rcases List.mem_append.1 hb with hb | hb
      · rcases List.mem_append.1 hb with hb | hb
        · exact Or.inl hb
        · exact absurd hb hbm
      · exact Or.inr hb
    apply h.tags b
    · rw [e0]
      rcases hb1 with hb1 | hb1
      · exact List.mem_append_left _ (List.mem_append_left _ hb1)
      · exact List.mem_append_right _ hb1
    · rcases hb1 with hb1 | hb1
      · exact Lay_append_notin h12 hb1
      · intro hh
        exact Lay_append_notin hlay (List.mem_append_right _ hh) hb1
  · exact h.epi
  · exact h.lo_le
  · exact h.al8
  · exact h.small
  · exact h.addr
  · exact h.list
  · intro x hx
    obtain ⟨b, hb, hbx⟩ := h.sub x hx
    rcases List.mem_append.1 hb with hb | hb
    · rcases List.mem_append.1 hb with hb | hb
      · exact ⟨b, by simp [hb], hbx⟩
      · obtain ⟨b2, hb2, hbx2⟩ := hfl x hx ⟨b, hb, hbx⟩
        exact ⟨b2, by simp [hb2], hbx2⟩
    · exact ⟨b, by simp [hb], hbx⟩
  · exact h.nodup
  · exact h.cnt

theorem HInv.open_ {s : State} {bs : List Blk} (mid : List Blk) {fl : List Nat}
    (h : HInv s bs [] fl) : HInv s bs mid fl :=
  ⟨h.lay, fun b hb _ => h.tags b hb (List.not_mem_nil _), h.epi, h.lo_le, h.al8, h.small,
    h.addr, h.list, h.sub, h.nodup, h.cnt⟩

theorem HInv.close {s : State} {bs mid : List Blk} {fl : List Nat} (h : HInv s bs mid fl)
    (ht : ∀ b ∈ mid, TagOK s.mem b) : HInv s bs [] fl :=
  ⟨h.lay, fun b hb _ => by
      by_cases hm : b ∈ mid
      · exact ht b hm
      · exact h.tags b hb hm,
    h.epi, h.lo_le, h.al8, h.small, h.addr, h.list, h.sub, h.nodup, h.cnt⟩

/-! ## Reading the tags -/

theorem Blk.word_lt {m : Mem} {b : Blk} (h : TagOK m b) : b.word < 4294967296 := by
  rw [← h.1]; exact GET_lt _ _

theorem TagOK.reads {m : Mem} {b : Blk} (h : TagOK m b) (h8 : b.size % 8 = 0) :
    GET_SIZE m (HDRP b.bp) = b.size
    ∧ GET_ALLOC m (HDRP b.bp) = (if b.alloc then 1 else 0)
    ∧ GET_SIZE m (b.bp + b.size - 8) = b.size
    ∧ NEXT_BLKP m b.bp = b.bp + b.size
    ∧ FTRP m b.bp = b.bp + b.size - 8 := by
  have hs : GET_SIZE m (HDRP b.bp) = b.size := by
    rw [GET_SIZE_eq]
    simp only [HDRP, WSIZE]
    rw [h.1]
    unfold Blk.word
    split <;> omega
  refine ⟨hs, ?_, ?_, ?_, ?_⟩
  · rw [GET_ALLOC_eq]
    simp only [HDRP, WSIZE]
    rw [h.1]
    unfold Blk.word
    split <;> omega
  · rw [GET_SIZE_eq, h.2]
    unfold Blk.word
    split <;> omega
  · unfold NEXT_BLKP; rw [hs]
  · unfold FTRP; rw [hs]; rfl

theorem TagOK.prev {m : Mem} {c : Blk} (h : TagOK m c) (h8 : c.size % 8 = 0) {bp : Nat}
    (hb : c.bp + c.size = bp) (h24 : 24 ≤ c.size) : PREV_BLKP m bp = c.bp := by
  unfold PREV_BLKP
  simp only [HDRP, WSIZE]
  have e : bp - 4 - 4 = c.bp + c.size - 8 := by omega
  rw [e, (h.reads h8).2.2.1]
  omega


/-! ## Neighbours in the chain -/

theorem Lay_adj {a e : Nat} {P l2 : List Blk} {c b : Blk} (h : Lay a (P ++ c :: b :: l2) e) :
    c.bp + c.size = b.bp := by
  obtain ⟨mid, _, h2⟩ := Lay_append.1 h
  obtain ⟨h3, _, _, h4, _⟩ := h2
  omega

theorem Lay_last {a e : Nat} {P : List Blk} {c : Blk} (h : Lay a (P ++ [c]) e) :
    c.bp + c.size = e := by
  obtain ⟨mid, _, h2⟩ := Lay_append.1 h
  obtain ⟨h3, _, _, h4⟩ := h2
  simp only [Lay] at h4
  omega

theorem Lay_head {a e : Nat} {l : List Blk} {b : Blk} (h : Lay a (b :: l) e) : b.bp = a := h.1

theorem Lay_unique {a e e2 : Nat} {l : List Blk} (h : Lay a l e) (h2 : Lay a l e2) :
    e = e2 := by
  induction l generalizing a with
  | nil => simp only [Lay] at h h2; omega
  | cons b r ih => exact ih h.2.2.2 h2.2.2.2

theorem exists_snoc {α : Type} (l : List α) (h : l ≠ []) : ∃ r c, l = r ++ [c] :=
  ⟨l.dropLast, l.getLast h, (List.dropLast_append_getLast h).symm⟩

/-- The block before `b` in the chain: the last of the prologue and the blocks before it. -/
theorem prev_exists (s : State) (l1 : List Blk) :
    ∃ P c, pro s :: l1 = P ++ [c] ∧ (l1 = [] ∧ c = pro s ∨ ∃ l, l1 = l ++ [c]) := by
  by_cases h : l1 = []
  · exact ⟨[], pro s, by simp [h], Or.inl ⟨h, rfl⟩⟩
  · obtain ⟨l, c, hl⟩ := exists_snoc l1 h
    exact ⟨pro s :: l, c, by simp [hl], Or.inr ⟨l, hl⟩⟩

/-! ## Rewriting the tags of a run of blocks -/

/-- Header and footer of a run `mid` of blocks (the hole) are rewritten into one block. -/
theorem HInv.retag {s : State} {l1 mid l2 : List Blk} {fl : List Nat}
    (h : HInv s (l1 ++ mid ++ l2) mid fl) {a0 e0 : Nat} (hm : Lay a0 mid e0)
    (hne : mid ≠ []) (al : Bool) (hfl : ∀ x ∈ fl, (∃ b ∈ mid, b.bp = x) → x = a0)
    (w : Nat) (hwv : w = Blk.word ⟨a0, e0 - a0, al⟩) :
    HInv { s with mem := PUT (PUT s.mem (a0 - 4) w) (e0 - 8) w }
      (l1 ++ [⟨a0, e0 - a0, al⟩] ++ l2) [] fl
    ∧ 24 ≤ e0 - a0 ∧ (e0 - a0) % 8 = 0 ∧ e0 - a0 < 4294967296 - 8
    ∧ s.heap_listp + 32 ≤ a0 ∧ e0 ≤ s.mem_brk := by
  obtain ⟨f, r, rfl⟩ := List.exists_cons_of_ne_nil hne
  obtain ⟨r0, g, hrg⟩ : ∃ r0 g, f :: r = r0 ++ [g] := exists_snoc _ (by simp)
  subst hwv
  have hfa : f.bp = a0 := hm.1
  have hge : g.bp + g.size = e0 := by rw [hrg] at hm; exact Lay_last hm
  have hfm : f ∈ f :: r := List.mem_cons_self _ _
  have hgm : g ∈ f :: r := by rw [hrg]; simp
  have hfb : f ∈ l1 ++ (f :: r) ++ l2 := by simp
  have hgb : g ∈ l1 ++ (f :: r) ++ l2 :=
    List.mem_append_left _ (List.mem_append_right _ hgm)
  have hfl1 := Lay_mem hm hfm
  have hgl1 := Lay_mem hm hgm
  have hfl2 := Lay_mem h.lay (List.mem_cons_of_mem _ hfb)
  have hgl2 := Lay_mem h.lay (List.mem_cons_of_mem _ hgb)
  have hfp := h.bp_ne_pro hfb
  have hsm := h.small
  have hlo := h.lo_le
  have hle := Lay_le hm
  have hsz : 24 ≤ e0 - a0 ∧ (e0 - a0) % 8 = 0 ∧ e0 - a0 < 4294967296 - 8 := by omega
  -- first write: the header of the first block
  have h1 := h.put hfm hfb (Blk.word ⟨a0, e0 - a0, al⟩) (w := a0 - 4) (by omega)
    (fun _ => Or.inr (by omega))
  -- second write: the footer of the last block
  have h2 := h1.put hgm hgb (Blk.word ⟨a0, e0 - a0, al⟩) (w := e0 - 8) (by omega)
    (fun _ => Or.inl (by omega))
  -- the run becomes one block
  have h3 := @HInv.reshape _ _ _ [⟨a0, e0 - a0, al⟩] _ _ h2 (by
      intro a e hae
      have ha : a = a0 := by rw [← hfa]; exact hae.1.symm
      subst ha
      have he : e = e0 := Lay_unique hae hm
      subst he
      refine ⟨rfl, hsz.2.1, hsz.1, ?_⟩
      simp only [Lay]
      omega)
    (by
      intro x hx hxm
      exact ⟨_, List.mem_singleton.2 rfl, (hfl x hx hxm).symm⟩)
  refine ⟨h3.close ?_, hsz.1, hsz.2.1, hsz.2.2, by omega, by omega⟩
  intro b hb
  rw [List.mem_singleton.1 hb]
  have hw : Blk.word ⟨a0, e0 - a0, al⟩ < 4294967296 := by
    unfold Blk.word
    split <;> simp only <;> omega
  constructor
  · show GET (PUT (PUT s.mem (a0 - 4) _) (e0 - 8) _) (a0 - 4) = _
    rw [GET_PUT_disj _ _ _ _ (by omega), GET_PUT_same, Nat.mod_eq_of_lt hw]
  · show GET (PUT (PUT s.mem (a0 - 4) _) (e0 - 8) _) (a0 + (e0 - a0) - 8) = _
    have e : a0 + (e0 - a0) - 8 = e0 - 8 := by omega
    rw [e, GET_PUT_same, Nat.mod_eq_of_lt hw]


/-! ## `coalesce` -/

@[simp] theorem remove_heap_listp (s : State) (x : Nat) :
    (remove_free_bp s x).heap_listp = s.heap_listp := (remove_free_bp_fields s x).1

@[simp] theorem remove_mem_brk (s : State) (x : Nat) :
    (remove_free_bp s x).mem_brk = s.mem_brk := (remove_free_bp_fields s x).2.1

@[simp] theorem remove_mem_start_brk (s : State) (x : Nat) :
    (remove_free_bp s x).mem_start_brk = s.mem_start_brk := (remove_free_bp_fields s x).2.2.1

@[simp] theorem remove_mem_max_addr (s : State) (x : Nat) :
    (remove_free_bp s x).mem_max_addr = s.mem_max_addr := (remove_free_bp_fields s x).2.2.2.1

@[simp] theorem remove_sbrk_log (s : State) (x : Nat) :
    (remove_free_bp s x).sbrk_log = s.sbrk_log := (remove_free_bp_fields s x).2.2.2.2.1

@[simp] theorem remove_full_count (s : State) (x : Nat) :
    (remove_free_bp s x).full_count = s.full_count := (remove_free_bp_fields s x).2.2.2.2.2

theorem coalesce_fields (s : State) (bp : Nat) : SameArena s (coalesce s bp).2 := by
  unfold coalesce SameArena
  simp only []
  split_ifs <;> simp [insert_free_block]

/-- The idiom `PUT(HDRP(bp), PACK(size, a)); PUT(FTRP(bp), PACK(size, a))`. -/
theorem put_tags (m : Mem) (bp sz al : Nat) (h8 : sz % 8 = 0) (hlt : sz < 4294967296)
    (hal : al ≤ 1) :
    PUT (PUT m (HDRP bp) (PACK sz al)) (FTRP (PUT m (HDRP bp) (PACK sz al)) bp) (PACK sz al)
      = PUT (PUT m (bp - 4) (sz + al)) (bp + sz - 8) (sz + al) := by
  rw [PACK_eq sz al h8 (by omega)]
  have e : FTRP (PUT m (HDRP bp) (sz + al)) bp = bp + sz - 8 := by
    unfold FTRP
    rw [GET_SIZE_eq, GET_PUT_same]
    simp only [DSIZE]
    omega
  rw [e]
  rfl

theorem links_owned {s : State} {bs mid : List Blk} {fl : List Nat} (h : HInv s bs mid fl)
    {S : List Nat}
    (hS : ∀ y ∈ S, y = s.heap_listp + 8 ∨ ∃ b ∈ bs, b.bp = y ∧ b.alloc = false) :
    ∀ a, (∃ y ∈ S, y ≤ a ∧ a < y + 16) → Owned s bs a := by
  rintro a ⟨y, hy, h1, h2⟩
  rcases hS y hy with h3 | ⟨b, hb, rfl, hbf⟩
  · left; omega
  · right; left
    have := Lay_mem h.lay (List.mem_cons_of_mem _ hb)
    exact ⟨b, hb, hbf, by omega, by omega⟩

/-- What `coalesce` reads around the block `b`. -/
theorem reads_at {s : State} {l1 l2 : List Blk} {b : Blk} {fl : List Nat}
    (h : HInv s (l1 ++ b :: l2) [] fl) :
    GET_SIZE s.mem (HDRP b.bp) = b.size ∧ NEXT_BLKP s.mem b.bp = b.bp + b.size
    ∧ (∃ c, c ∈ pro s :: l1 ∧ (l1 = [] ∧ c = pro s ∨ ∃ l, l1 = l ++ [c])
        ∧ c.bp + c.size = b.bp ∧ PREV_BLKP s.mem b.bp = c.bp
        ∧ GET_ALLOC s.mem (HDRP c.bp) = (if c.alloc then 1 else 0)
        ∧ GET_SIZE s.mem (HDRP c.bp) = c.size ∧ 24 ≤ c.size)
    ∧ ((l2 = [] ∧ GET_ALLOC s.mem (HDRP (b.bp + b.size)) = 1)
      ∨ (∃ d r, l2 = d :: r ∧ d.bp = b.bp + b.size
          ∧ GET_ALLOC s.mem (HDRP d.bp) = (if d.alloc then 1 else 0)
          ∧ GET_SIZE s.mem (HDRP d.bp) = d.size)) := by
  have hbm : b ∈ pro s :: (l1 ++ b :: l2) := by simp
  have hbt := h.tags b hbm (List.not_mem_nil _)
  have hbl := Lay_mem h.lay hbm
  have hbr := hbt.reads hbl.2.2.1
  refine ⟨hbr.1, hbr.2.2.2.1, ?_, ?_⟩
  · obtain ⟨P, c, hP, hc⟩ := prev_exists s l1
    have hcm1 : c ∈ pro s :: l1 := by rw [hP]; simp
    have hcm : c ∈ pro s :: (l1 ++ b :: l2) := by
      rcases List.mem_cons.1 hcm1 with hh | hh
      · simp [hh]
      · simp [hh]
    have hlay : Lay (s.heap_listp + 8) (P ++ c :: b :: l2) s.mem_brk := by
      have e : pro s :: (l1 ++ b :: l2) = P ++ c :: b :: l2 := by
        rw [← List.cons_append, hP]; simp
      rw [← e]; exact h.lay
    have hadj := Lay_adj hlay
    have hct := h.tags c hcm (List.not_mem_nil _)
    have hcl := Lay_mem h.lay hcm
    have hcr := hct.reads hcl.2.2.1
    exact ⟨c, hcm1, hc, hadj, hct.prev hcl.2.2.1 hadj hcl.2.2.2.1, hcr.2.1, hcr.1,
      hcl.2.2.2.1⟩
  · cases l2 with
    | nil =>
      left
      refine ⟨rfl, ?_⟩
      have hl : b.bp + b.size = s.mem_brk := by
        have e : pro s :: (l1 ++ [b]) = (pro s :: l1) ++ [b] := by simp
        have := h.lay
        rw [e] at this
        exact Lay_last this
      rw [hl, GET_ALLOC_eq]
      simp only [HDRP, WSIZE]
      rw [h.epi]
    | cons d r =>
      right
      have hdm : d ∈ pro s :: (l1 ++ b :: d :: r) := by simp
      have hdt := h.tags d hdm (List.not_mem_nil _)
      have hdl := Lay_mem h.lay hdm
      have hdr := hdt.reads hdl.2.2.1
      have hlay : Lay (s.heap_listp + 8) ((pro s :: l1) ++ b :: d :: r) s.mem_brk := by
        have := h.lay
        simpa using this
      exact ⟨d, r, rfl, (Lay_adj hlay).symm, hdr.2.1, hdr.1⟩


/-- Case 1: both neighbours allocated. -/
theorem coalesce_A {s : State} {l1 l2 : List Blk} {b : Blk} {fl : List Nat}
    (h : HInv s (l1 ++ b :: l2) [] fl) (hbf : b.alloc = false) (hbn : b.bp ∉ fl)
    (hfree : ∀ x ∈ fl, ∃ c ∈ l1 ++ b :: l2, c.bp = x ∧ c.alloc = false)
    (hpa : ∀ l c, l1 = l ++ [c] → c.alloc = true)
    (hna : ∀ d r, l2 = d :: r → d.alloc = true) :
    (coalesce s b.bp).1 = b.bp
    ∧ HInv (coalesce s b.bp).2 (l1 ++ b :: l2) [] (b.bp :: fl)
    ∧ Mod (Owned s (l1 ++ b :: l2)) s.mem (coalesce s b.bp).2.mem := by
  obtain ⟨r1, r2, ⟨c, hc1, hc2, hc3, hc4, hc5, hc6, hc7⟩, r4⟩ := reads_at h
  have hca : c.alloc = true := by
    rcases hc2 with ⟨_, rfl⟩ | ⟨l, hl⟩
    · rfl
    · exact hpa l c hl
  have hne : c.bp ≠ b.bp := by omega
  have hnx : GET_ALLOC s.mem (HDRP (b.bp + b.size)) = 1 := by
    rcases r4 with ⟨_, h4⟩ | ⟨d, r, hl2, hd1, hd2, _⟩
    · exact h4
    · rw [← hd1, hd2, hna d r hl2]; rfl
  have hco : coalesce s b.bp = (b.bp, insert_free_block s b.bp) := by
    unfold coalesce
    simp only [r1, r2, hc4, hc5, hca, hnx, if_neg hne]
    simp
  rw [hco]
  obtain ⟨i1, i2⟩ := h.insert hbn ⟨b, by simp, rfl⟩
  refine ⟨rfl, i1, i2.mono (links_owned h ?_)⟩
  intro y hy
  rcases List.mem_cons.1 hy with hy | hy
  · exact Or.inr ⟨b, by simp, hy.symm, hbf⟩
  · rcases List.mem_cons.1 hy with hy | hy
    · exact Or.inl hy
    · exact Or.inr (hfree y hy)


theorem Mod_put2 (m : Mem) (a0 e0 w : Nat) (h : a0 + 8 ≤ e0) :
    Mod (fun a => a0 - 4 ≤ a ∧ a < e0 - 4) m (PUT (PUT m (a0 - 4) w) (e0 - 8) w) := by
  intro a ha
  rw [PUT_byte _ _ _ _ (by omega), PUT_byte _ _ _ _ (by omega)]

theorem Blk.word_free (a n : Nat) : Blk.word ⟨a, n, false⟩ = n + 0 := rfl

theorem Blk.word_alloc (a n : Nat) : Blk.word ⟨a, n, true⟩ = n + 1 := rfl

/-- Case 2: only the next block is free. -/
theorem coalesce_B {s : State} {l1 r : List Blk} {b d : Blk} {fl : List Nat}
    (h : HInv s (l1 ++ b :: d :: r) [] fl) (hbf : b.alloc = false) (hbn : b.bp ∉ fl)
    (hfree : ∀ x ∈ fl, ∃ c ∈ l1 ++ b :: d :: r, c.bp = x ∧ c.alloc = false)
    (hpa : ∀ l c, l1 = l ++ [c] → c.alloc = true)
    (hdf : d.alloc = false) (hd : d.bp ∈ fl) :
    (coalesce s b.bp).1 = b.bp
    ∧ HInv (coalesce s b.bp).2 (l1 ++ ⟨b.bp, b.size + d.size, false⟩ :: r) []
        (b.bp :: fl.erase d.bp)
    ∧ Mod (Owned s (l1 ++ b :: d :: r)) s.mem (coalesce s b.bp).2.mem := by
  obtain ⟨r1, r2, ⟨c, hc1, hc2, hc3, hc4, hc5, hc6, hc7⟩, r4⟩ := reads_at h
  have hca : c.alloc = true := by
    rcases hc2 with ⟨_, rfl⟩ | ⟨l, hl⟩
    · rfl
    · exact hpa l c hl
  have hne : c.bp ≠ b.bp := by omega
  obtain ⟨hd1, hd2, hd3⟩ : d.bp = b.bp + b.size
      ∧ GET_ALLOC s.mem (HDRP d.bp) = (if d.alloc then 1 else 0)
      ∧ GET_SIZE s.mem (HDRP d.bp) = d.size := by
    rcases r4 with ⟨h4, _⟩ | ⟨d2, r2, hl2, h5, h6, h7⟩
    · exact absurd h4 (by simp)
    · obtain ⟨rfl, rfl⟩ := List.cons.inj hl2
      exact ⟨h5, h6, h7⟩
  have hbm : b ∈ pro s :: (l1 ++ b :: d :: r) := by simp
  have hdm : d ∈ pro s :: (l1 ++ b :: d :: r) := by simp
  have hbl := Lay_mem h.lay hbm
  have hdl := Lay_mem h.lay hdm
  have hsm := h.small
  have hlo := h.lo_le
  have hT : (b.size + d.size) % 18446744073709551616 = b.size + d.size :=
    Nat.mod_eq_of_lt (by omega)
  have hco : coalesce s b.bp = (b.bp, insert_free_block
      { remove_free_bp s d.bp with
        mem := PUT (PUT (remove_free_bp s d.bp).mem (b.bp - 4) (b.size + d.size + 0))
          (d.bp + d.size - 8) (b.size + d.size + 0) } b.bp) := by
    unfold coalesce
    simp only [r1, r2, hc4, hc5, hca, ← hd1, hd2, hd3, hdf, if_neg hne, hT]
    simp only [put_tags _ b.bp (b.size + d.size) 0 (by omega) (by omega) (by omega)]
    have e : b.bp + (b.size + d.size) - 8 = d.bp + d.size - 8 := by omega
    rw [e]
    simp
  rw [hco]
  obtain ⟨g1, g2, _⟩ := h.remove hd
  have hnd := h.nodup
  have g3 : HInv (remove_free_bp s d.bp) (l1 ++ [b, d] ++ r) [b, d] (fl.erase d.bp) := by
    have := g1.open_ [b, d]
    simpa using this
  have hlay : Lay b.bp [b, d] (d.bp + d.size) := by
    refine ⟨rfl, hbl.2.2.1, hbl.2.2.2.1, ?_, hdl.2.2.1, hdl.2.2.2.1, ?_⟩
    · omega
    · simp only [Lay]; omega
  obtain ⟨g4, _⟩ := g3.retag hlay (by simp) false (by
      intro x hx hxm
      obtain ⟨b2, hb2, rfl⟩ := hxm
      simp only [List.mem_cons, List.mem_singleton, List.not_mem_nil, or_false] at hb2
      rcases hb2 with rfl | rfl
      · rfl
      · exact absurd hx (List.Nodup.not_mem_erase hnd))
    (b.size + d.size + 0) (by rw [Blk.word_free]; congr 1; omega)
  have e2 : d.bp + d.size - b.bp = b.size + d.size := by omega
  rw [e2] at g4
  have g5 : HInv { remove_free_bp s d.bp with
        mem := PUT (PUT (remove_free_bp s d.bp).mem (b.bp - 4) (b.size + d.size + 0))
          (d.bp + d.size - 8) (b.size + d.size + 0) }
      (l1 ++ ⟨b.bp, b.size + d.size, false⟩ :: r) [] (fl.erase d.bp) := by
    simpa using g4
  have hbn2 : b.bp ∉ fl.erase d.bp := fun hh => hbn (List.mem_of_mem_erase hh)
  obtain ⟨i1, i2⟩ := g5.insert hbn2 ⟨⟨b.bp, b.size + d.size, false⟩, by simp, rfl⟩
  refine ⟨rfl, i1, ?_⟩
  have hown : ∀ y ∈ b.bp :: (s.heap_listp + 8) :: fl,
      y = s.heap_listp + 8 ∨ ∃ c ∈ l1 ++ b :: d :: r, c.bp = y ∧ c.alloc = false := by
    intro y hy
    rcases List.mem_cons.1 hy with hy | hy
    · exact Or.inr ⟨b, by simp, hy.symm, hbf⟩
    · rcases List.mem_cons.1 hy with hy | hy
      · exact Or.inl hy
      · exact Or.inr (hfree y hy)
  have m1 : Mod (Owned s (l1 ++ b :: d :: r)) s.mem (remove_free_bp s d.bp).mem := by
    refine g2.mono (fun a ha => links_owned h hown a ?_)
    obtain ⟨y, hy, hya⟩ := ha
    refine ⟨y, ?_, hya⟩
    rcases List.mem_cons.1 hy with hy | hy
    · simp [hy]
    · exact List.mem_cons_of_mem _ (List.mem_cons_of_mem _ (List.mem_of_mem_erase hy))
  have m2 : Mod (Owned s (l1 ++ b :: d :: r)) (remove_free_bp s d.bp).mem
      (PUT (PUT (remove_free_bp s d.bp).mem (b.bp - 4) (b.size + d.size + 0))
          (d.bp + d.size - 8) (b.size + d.size + 0)) := by
    refine (Mod_put2 _ _ (d.bp + d.size) _ (by omega)).mono (fun a ha => ?_)
    right; left
    by_cases hab : a < b.bp + b.size - 4
    · exact ⟨b, by simp, hbf, by omega, hab⟩
    · exact ⟨d, by simp, hdf, by omega, by omega⟩
  have m3 : Mod (Owned s (l1 ++ b :: d :: r))
      (PUT (PUT (remove_free_bp s d.bp).mem (b.bp - 4) (b.size + d.size + 0))
          (d.bp + d.size - 8) (b.size + d.size + 0)) (insert_free_block
      { remove_free_bp s d.bp with
        mem := PUT (PUT (remove_free_bp s d.bp).mem (b.bp - 4) (b.size + d.size + 0))
          (d.bp + d.size - 8) (b.size + d.size + 0) } b.bp).mem := by
    refine i2.mono (fun a ha => links_owned h hown a ?_)
    obtain ⟨y, hy, hya⟩ := ha
    refine ⟨y, ?_, hya⟩
    rcases List.mem_cons.1 hy with hy | hy
    · simp [hy]
    · rcases List.mem_cons.1 hy with hy | hy
      · simp at hy; simp [hy]
      · exact List.mem_cons_of_mem _ (List.mem_cons_of_mem _ (List.mem_of_mem_erase hy))
  exact (m1.trans m2).trans m3


theorem reads_prev {s : State} {l l2 : List Blk} {c b : Blk} {fl : List Nat}
    (h : HInv s (l ++ c :: b :: l2) [] fl) :
    c.bp + c.size = b.bp ∧ PREV_BLKP s.mem b.bp = c.bp
    ∧ GET_ALLOC s.mem (HDRP c.bp) = (if c.alloc then 1 else 0)
    ∧ GET_SIZE s.mem (HDRP c.bp) = c.size := by
  have hcm : c ∈ pro s :: (l ++ c :: b :: l2) := by simp
  have hct := h.tags c hcm (List.not_mem_nil _)
  have hcl := Lay_mem h.lay hcm
  have hcr := hct.reads hcl.2.2.1
  have hlay : Lay (s.heap_listp + 8) ((pro s :: l) ++ c :: b :: l2) s.mem_brk := by
    have := h.lay
    simpa using this
  have hadj := Lay_adj hlay
  exact ⟨hadj, hct.prev hcl.2.2.1 hadj hcl.2.2.2.1, hcr.2.1, hcr.1⟩

theorem HInv.remove_owned {s : State} {bs : List Blk} {fl : List Nat} (h : HInv s bs [] fl)
    (hfree : ∀ x ∈ fl, ∃ c ∈ bs, c.bp = x ∧ c.alloc = false) {x : Nat} (hx : x ∈ fl) :
    Mod (Owned s bs) s.mem (remove_free_bp s x).mem := by
  refine (h.remove hx).2.1.mono (links_owned (S := (s.heap_listp + 8) :: fl.erase x) h ?_)
  intro y hy
  rcases List.mem_cons.1 hy with hy | hy
  · exact Or.inl hy
  · exact Or.inr (hfree y (List.mem_of_mem_erase hy))

/-- Case 3: only the previous block is free. -/
theorem coalesce_C {s : State} {l l2 : List Blk} {b c : Blk} {fl : List Nat}
    (h : HInv s (l ++ c :: b :: l2) [] fl) (hbf : b.alloc = false) (hbn : b.bp ∉ fl)
    (hfree : ∀ x ∈ fl, ∃ c2 ∈ l ++ c :: b :: l2, c2.bp = x ∧ c2.alloc = false)
    (hcf : c.alloc = false) (hc : c.bp ∈ fl)
    (hna : ∀ d r, l2 = d :: r → d.alloc = true) :
    (coalesce s b.bp).1 = c.bp
    ∧ HInv (coalesce s b.bp).2 (l ++ ⟨c.bp, c.size + b.size, false⟩ :: l2) []
        (c.bp :: fl.erase c.bp)
    ∧ Mod (Owned s (l ++ c :: b :: l2)) s.mem (coalesce s b.bp).2.mem := by
  have h0 : HInv s ((l ++ [c]) ++ b :: l2) [] fl := by simpa using h
  obtain ⟨r1, r2, _, r4⟩ := reads_at h0
  obtain ⟨p1, p2, p3, p4⟩ := reads_prev h
  have hbm : b ∈ pro s :: (l ++ c :: b :: l2) := by simp
  have hcm : c ∈ pro s :: (l ++ c :: b :: l2) := by simp
  have hbl := Lay_mem h.lay hbm
  have hcl := Lay_mem h.lay hcm
  have hne : c.bp ≠ b.bp := by omega
  have hnx : GET_ALLOC s.mem (HDRP (b.bp + b.size)) = 1 := by
    rcases r4 with ⟨_, h4⟩ | ⟨d, r, hl2, hd1, hd2, _⟩
    · exact h4
    · rw [← hd1, hd2, hna d r hl2]; rfl
  have hsm := h.small
  have hlo := h.lo_le
  have hT : (b.size + c.size) % 18446744073709551616 = b.size + c.size :=
    Nat.mod_eq_of_lt (by omega)
  have hco : coalesce s b.bp = (c.bp, insert_free_block
      { remove_free_bp s c.bp with
        mem := PUT (PUT (remove_free_bp s c.bp).mem (c.bp - 4) (c.size + b.size + 0))
          (b.bp + b.size - 8) (c.size + b.size + 0) } c.bp) := by
    unfold coalesce
    simp only [r1, r2, p2, p3, p4, hcf, hnx, if_neg hne, hT]
    simp only [put_tags _ c.bp (b.size + c.size) 0 (by omega) (by omega) (by omega)]
    have e : c.bp + (b.size + c.size) - 8 = b.bp + b.size - 8 := by omega
    have e2 : b.size + c.size = c.size + b.size := by omega
    rw [e, e2]
    simp
  rw [hco]
  obtain ⟨g1, g2, _⟩ := h.remove hc
  have hnd := h.nodup
  have g3 : HInv (remove_free_bp s c.bp) (l ++ [c, b] ++ l2) [c, b] (fl.erase c.bp) := by
    have := g1.open_ [c, b]
    simpa using this
  have hlay : Lay c.bp [c, b] (b.bp + b.size) := by
    refine ⟨rfl, hcl.2.2.1, hcl.2.2.2.1, ?_, hbl.2.2.1, hbl.2.2.2.1, ?_⟩
    · omega
    · simp only [Lay]; omega
  obtain ⟨g4, _⟩ := g3.retag hlay (by simp) false (by
      intro x hx hxm
      obtain ⟨b2, hb2, rfl⟩ := hxm
      simp only [List.mem_cons, List.mem_singleton, List.not_mem_nil, or_false] at hb2
      rcases hb2 with rfl | rfl
      · rfl
      · exact absurd (List.mem_of_mem_erase hx) hbn)
    (c.size + b.size + 0) (by rw [Blk.word_free]; congr 1; omega)
  have e2 : b.bp + b.size - c.bp = c.size + b.size := by omega
  rw [e2] at g4
  have g5 : HInv { remove_free_bp s c.bp with
        mem := PUT (PUT (remove_free_bp s c.bp).mem (c.bp - 4) (c.size + b.size + 0))
          (b.bp + b.size - 8) (c.size + b.size + 0) }
      (l ++ ⟨c.bp, c.size + b.size, false⟩ :: l2) [] (fl.erase c.bp) := by
    simpa using g4
  have hcn2 : c.bp ∉ fl.erase c.bp := List.Nodup.not_mem_erase hnd
  obtain ⟨i1, i2⟩ := g5.insert hcn2 ⟨⟨c.bp, c.size + b.size, false⟩, by simp, rfl⟩
  refine ⟨rfl, i1, ?_⟩
  have hown : ∀ y ∈ c.bp :: (s.heap_listp + 8) :: fl,
      y = s.heap_listp + 8 ∨ ∃ c2 ∈ l ++ c :: b :: l2, c2.bp = y ∧ c2.alloc = false := by
    intro y hy
    rcases List.mem_cons.1 hy with hy | hy
    · exact Or.inr ⟨c, by simp, hy.symm, hcf⟩
    · rcases List.mem_cons.1 hy with hy | hy
      · exact Or.inl hy
      · exact Or.inr (hfree y hy)
  have m1 := h.remove_owned hfree hc
  have m2 : Mod (Owned s (l ++ c :: b :: l2)) (remove_free_bp s c.bp).mem
      (PUT (PUT (remove_free_bp s c.bp).mem (c.bp - 4) (c.size + b.size + 0))
          (b.bp + b.size - 8) (c.size + b.size + 0)) := by
    refine (Mod_put2 _ _ (b.bp + b.size) _ (by omega)).mono (fun a ha => ?_)
    right; left
    by_cases hab : a < c.bp + c.size - 4
    · exact ⟨c, by simp, hcf, by omega, hab⟩
    · exact ⟨b, by simp, hbf, by omega, by omega⟩
  have m3 : Mod (Owned s (l ++ c :: b :: l2))
      (PUT (PUT (remove_free_bp s c.bp).mem (c.bp - 4) (c.size + b.size + 0))
          (b.bp + b.size - 8) (c.size + b.size + 0)) (insert_free_block
      { remove_free_bp s c.bp with
        mem := PUT (PUT (remove_free_bp s c.bp).mem (c.bp - 4) (c.size + b.size + 0))
          (b.bp + b.size - 8) (c.size + b.size + 0) } c.bp).mem := by
    refine i2.mono (fun a ha => links_owned h hown a ?_)
    obtain ⟨y, hy, hya⟩ := ha
    refine ⟨y, ?_, hya⟩
    rcases List.mem_cons.1 hy with hy | hy
    · simp [hy]
    · rcases List.mem_cons.1 hy with hy | hy
      · simp at hy; simp [hy]
      · exact List.mem_cons_of_mem _ (List.mem_cons_of_mem _ (List.mem_of_mem_erase hy))
  exact (m1.trans m2).trans m3


/-- Case 4: both neighbours are free. -/
theorem coalesce_D {s : State} {l r : List Blk} {b c d : Blk} {fl : List Nat}
    (h : HInv s (l ++ c :: b :: d :: r) [] fl) (hbf : b.alloc = false) (hbn : b.bp ∉ fl)
    (hfree : ∀ x ∈ fl, ∃ c2 ∈ l ++ c :: b :: d :: r, c2.bp = x ∧ c2.alloc = false)
    (hcf : c.alloc = false) (hc : c.bp ∈ fl) (hdf : d.alloc = false) (hd : d.bp ∈ fl) :
    (coalesce s b.bp).1 = c.bp
    ∧ HInv (coalesce s b.bp).2 (l ++ ⟨c.bp, c.size + b.size + d.size, false⟩ :: r) []
        (c.bp :: (fl.erase d.bp).erase c.bp)
    ∧ Mod (Owned s (l ++ c :: b :: d :: r)) s.mem (coalesce s b.bp).2.mem := by
  have h0 : HInv s ((l ++ [c]) ++ b :: d :: r) [] fl := by simpa using h
  obtain ⟨r1, r2, _, r4⟩ := reads_at h0
  obtain ⟨p1, p2, p3, p4⟩ := reads_prev h
  obtain ⟨hd1, hd2, hd3⟩ : d.bp = b.bp + b.size
      ∧ GET_ALLOC s.mem (HDRP d.bp) = (if d.alloc then 1 else 0)
      ∧ GET_SIZE s.mem (HDRP d.bp) = d.size := by
    rcases r4 with ⟨h4, _⟩ | ⟨d2, r2, hl2, h5, h6, h7⟩
    · exact absurd h4 (by simp)
    · obtain ⟨rfl, rfl⟩ := List.cons.inj hl2
      exact ⟨h5, h6, h7⟩
  have hbm : b ∈ pro s :: (l ++ c :: b :: d :: r) := by simp
  have hcm : c ∈ pro s :: (l ++ c :: b :: d :: r) := by simp
  have hdm : d ∈ pro s :: (l ++ c :: b :: d :: r) := by simp
  have hbl := Lay_mem h.lay hbm
  have hcl := Lay_mem h.lay hcm
  have hdl := Lay_mem h.lay hdm
  have hne : c.bp ≠ b.bp := by omega
  have hcd : c.bp ≠ d.bp := by omega
  have hsm := h.small
  have hlo := h.lo_le
  have hnd := h.nodup
  have hT : (b.size + (c.size + d.size) % 4294967296) % 18446744073709551616
      = c.size + b.size + d.size := by
    rw [Nat.mod_eq_of_lt (a := c.size + d.size) (by omega), Nat.mod_eq_of_lt (by omega)]
    omega
  obtain ⟨g1, g2, _⟩ := h.remove hd
  have hc1 : c.bp ∈ fl.erase d.bp := (List.mem_erase_of_ne hcd).2 hc
  obtain ⟨g1b, g2b, _⟩ := g1.remove hc1
  obtain ⟨q1, q2, q3, q4⟩ := reads_prev g1
  obtain ⟨q1b, q2b, q3b, q4b⟩ := reads_prev g1b
  have hco : coalesce s b.bp = (c.bp, insert_free_block
      { remove_free_bp (remove_free_bp s d.bp) c.bp with
        mem := PUT (PUT (remove_free_bp (remove_free_bp s d.bp) c.bp).mem (c.bp - 4)
            (c.size + b.size + d.size + 0))
          (d.bp + d.size - 8) (c.size + b.size + d.size + 0) } c.bp) := by
    unfold coalesce
    simp only [r1, r2, p2, p3, p4, hcf, ← hd1, hd2, hd3, hdf, if_neg hne, hT, q2, q2b]
    simp only [put_tags _ c.bp (c.size + b.size + d.size) 0 (by omega) (by omega) (by omega)]
    have e : c.bp + (c.size + b.size + d.size) - 8 = d.bp + d.size - 8 := by omega
    rw [e]
    simp
  rw [hco]
  have g3 : HInv (remove_free_bp (remove_free_bp s d.bp) c.bp) (l ++ [c, b, d] ++ r) [c, b, d]
      ((fl.erase d.bp).erase c.bp) := by
    have := g1b.open_ [c, b, d]
    simpa using this
  have hlay : Lay c.bp [c, b, d] (d.bp + d.size) := by
    refine ⟨rfl, hcl.2.2.1, hcl.2.2.2.1, ?_, hbl.2.2.1, hbl.2.2.2.1, ?_, hdl.2.2.1,
      hdl.2.2.2.1, ?_⟩
    · omega
    · omega
    · simp only [Lay]; omega
  obtain ⟨g4, _⟩ := g3.retag hlay (by simp) false (by
      intro x hx hxm
      obtain ⟨b2, hb2, rfl⟩ := hxm
      simp only [List.mem_cons, List.mem_singleton, List.not_mem_nil, or_false] at hb2
      rcases hb2 with rfl | rfl | rfl
      · rfl
      · exact absurd (List.mem_of_mem_erase (List.mem_of_mem_erase hx)) hbn
      · exact absurd (List.mem_of_mem_erase hx) (List.Nodup.not_mem_erase hnd))
    (c.size + b.size + d.size + 0) (by rw [Blk.word_free]; congr 1; omega)
  have e2 : d.bp + d.size - c.bp = c.size + b.size + d.size := by omega
  rw [e2] at g4
  have g5 : HInv { remove_free_bp (remove_free_bp s d.bp) c.bp with
        mem := PUT (PUT (remove_free_bp (remove_free_bp s d.bp) c.bp).mem (c.bp - 4)
            (c.size + b.size + d.size + 0))
          (d.bp + d.size - 8) (c.size + b.size + d.size + 0) }
      (l ++ ⟨c.bp, c.size + b.size + d.size, false⟩ :: r) [] ((fl.erase d.bp).erase c.bp) := by
    simpa using g4
  have hcn2 : c.bp ∉ (fl.erase d.bp).erase c.bp := List.Nodup.not_mem_erase (hnd.erase _)
  obtain ⟨i1, i2⟩ := g5.insert hcn2 ⟨⟨c.bp, c.size + b.size + d.size, false⟩, by simp, rfl⟩
  refine ⟨rfl, i1, ?_⟩
  have hown : ∀ y ∈ c.bp :: (s.heap_listp + 8) :: fl,
      y = s.heap_listp + 8 ∨ ∃ c2 ∈ l ++ c :: b :: d :: r, c2.bp = y ∧ c2.alloc = false := by
    intro y hy
    rcases List.mem_cons.1 hy with hy | hy
    · exact Or.inr ⟨c, by simp, hy.symm, hcf⟩
    · rcases List.mem_cons.1 hy with hy | hy
      · exact Or.inl hy
      · exact Or.inr (hfree y hy)
  have m1 := h.remove_owned hfree hd
  have m1b : Mod (Owned s (l ++ c :: b :: d :: r)) (remove_free_bp s d.bp).mem
      (remove_free_bp (remove_free_bp s d.bp) c.bp).mem := by
    refine g2b.mono (fun a ha => links_owned h hown a ?_)
    obtain ⟨y, hy, hya⟩ := ha
    refine ⟨y, ?_, hya⟩
    rcases List.mem_cons.1 hy with hy | hy
    · simp at hy; simp [hy]
    · exact List.mem_cons_of_mem _ (List.mem_cons_of_mem _
        (List.mem_of_mem_erase (List.mem_of_mem_erase hy)))
  have m2 : Mod (Owned s (l ++ c :: b :: d :: r))
      (remove_free_bp (remove_free_bp s d.bp) c.bp).mem
      (PUT (PUT (remove_free_bp (remove_free_bp s d.bp) c.bp).mem (c.bp - 4)
            (c.size + b.size + d.size + 0))
          (d.bp + d.size - 8) (c.size + b.size + d.size + 0)) := by
    refine (Mod_put2 _ _ (d.bp + d.size) _ (by omega)).mono (fun a ha => ?_)
    right; left
    by_cases hab : a < c.bp + c.size - 4
    · exact ⟨c, by simp, hcf, by omega, hab⟩
    · by_cases hab2 : a < b.bp + b.size - 4
      · exact ⟨b, by simp, hbf, by omega, hab2⟩
      · exact ⟨d, by simp, hdf, by omega, by omega⟩
  have m3 : Mod (Owned s (l ++ c :: b :: d :: r))
      (PUT (PUT (remove_free_bp (remove_free_bp s d.bp) c.bp).mem (c.bp - 4)
            (c.size + b.size + d.size + 0))
          (d.bp + d.size - 8) (c.size + b.size + d.size + 0)) (insert_free_block
      { remove_free_bp (remove_free_bp s d.bp) c.bp with
        mem := PUT (PUT (remove_free_bp (remove_free_bp s d.bp) c.bp).mem (c.bp - 4)
            (c.size + b.size + d.size + 0))
          (d.bp + d.size - 8) (c.size + b.size + d.size + 0) } c.bp).mem := by
    refine i2.mono (fun a ha => links_owned h hown a ?_)
    obtain ⟨y, hy, hya⟩ := ha
    refine ⟨y, ?_, hya⟩
    rcases List.mem_cons.1 hy with hy | hy
    · simp [hy]
    · rcases List.mem_cons.1 hy with hy | hy
      · simp at hy; simp [hy]
      · exact List.mem_cons_of_mem _ (List.mem_cons_of_mem _
          (List.mem_of_mem_erase (List.mem_of_mem_erase hy)))
  exact ((m1.trans m1b).trans m2).trans m3


theorem prevFree_nil : prevFree [] = none := rfl

theorem prevFree_snoc (l : List Blk) (c : Blk) :
    prevFree (l ++ [c]) = if c.alloc then none else some c := by
  simp [prevFree]

theorem nextFree_nil : nextFree [] = none := rfl

theorem nextFree_cons (d : Blk) (r : List Blk) :
    nextFree (d :: r) = if d.alloc then none else some d := by
  simp [nextFree]

/-- `coalesce` on a free block `b` that is off the free list, in a well-formed heap whose
free list holds free blocks, among them the free neighbours of `b`. -/
theorem coalesce_spec {s : State} {l1 l2 : List Blk} {b : Blk} {fl : List Nat}
    (h : HInv s (l1 ++ b :: l2) [] fl) (hbf : b.alloc = false) (hbn : b.bp ∉ fl)
    (hfree : ∀ x ∈ fl, ∃ c ∈ l1 ++ b :: l2, c.bp = x ∧ c.alloc = false)
    (hprev : ∀ c, prevFree l1 = some c → c.bp ∈ fl)
    (hnext : ∀ d, nextFree l2 = some d → d.bp ∈ fl) :
    (coalesce s b.bp).1 = (merged l1 b l2).bp
    ∧ HInv (coalesce s b.bp).2 (mergedChain l1 b l2) [] (mergedList fl l1 b l2)
    ∧ Mod (Owned s (l1 ++ b :: l2)) s.mem (coalesce s b.bp).2.mem := by
  by_cases hl1 : l1 = []
  · subst hl1
    have hpa : ∀ l c, ([] : List Blk) = l ++ [c] → c.alloc = true := by
      intro l c hh; simp at hh
    cases l2 with
    | nil =>
      simpa [merged, mergedChain, mergedList, prevFree_nil, nextFree_nil] using
        coalesce_A h hbf hbn hfree hpa (by intro d r hh; simp at hh)
    | cons d r =>
      by_cases hda : d.alloc = true
      · simpa [merged, mergedChain, mergedList, prevFree_nil, nextFree_cons, hda] using
          coalesce_A h hbf hbn hfree hpa (by
            intro d2 r2 hh
            obtain ⟨rfl, _⟩ := List.cons.inj hh
            exact hda)
      · have hdf : d.alloc = false := by simpa using hda
        have hd := hnext d (by simp [nextFree_cons, hdf])
        simpa [merged, mergedChain, mergedList, prevFree_nil, nextFree_cons, hdf] using
          coalesce_B h hbf hbn hfree hpa hdf hd
  · obtain ⟨l, c, rfl⟩ := exists_snoc l1 hl1
    by_cases hca : c.alloc = true
    · have hpa : ∀ l3 c3, l ++ [c] = l3 ++ [c3] → c3.alloc = true := by
        intro l3 c3 hh
        have := List.append_inj_right' hh rfl
        simp only [List.cons.injEq, and_true] at this
        rw [← this]; exact hca
      cases l2 with
      | nil =>
        simpa [merged, mergedChain, mergedList, prevFree_snoc, nextFree_nil, hca] using
          coalesce_A h hbf hbn hfree hpa (by intro d r hh; simp at hh)
      | cons d r =>
        by_cases hda : d.alloc = true
        · simpa [merged, mergedChain, mergedList, prevFree_snoc, nextFree_cons, hda, hca] using
            coalesce_A h hbf hbn hfree hpa (by
              intro d2 r2 hh
              obtain ⟨rfl, _⟩ := List.cons.inj hh
              exact hda)
        · have hdf : d.alloc = false := by simpa using hda
          have hd := hnext d (by simp [nextFree_cons, hdf])
          simpa [merged, mergedChain, mergedList, prevFree_snoc, nextFree_cons, hdf, hca] using
            coalesce_B h hbf hbn hfree hpa hdf hd
    · have hcf : c.alloc = false := by simpa using hca
      have hc := hprev c (by simp [prevFree_snoc, hcf])
      have h2 : HInv s (l ++ c :: b :: l2) [] fl := by simpa using h
      have hfree2 : ∀ x ∈ fl, ∃ c2 ∈ l ++ c :: b :: l2, c2.bp = x ∧ c2.alloc = false := by
        simpa using hfree
      cases l2 with
      | nil =>
        have := coalesce_C h2 hbf hbn hfree2 hcf hc (by intro d r hh; simp at hh)
        simpa [merged, mergedChain, mergedList, prevFree_snoc, nextFree_nil, hcf] using this
      | cons d r =>
        by_cases hda : d.alloc = true
        · have := coalesce_C h2 hbf hbn hfree2 hcf hc (by
              intro d2 r2 hh
              obtain ⟨rfl, _⟩ := List.cons.inj hh
              exact hda)
          simpa [merged, mergedChain, mergedList, prevFree_snoc, nextFree_cons, hda, hcf]
            using this
        · have hdf : d.alloc = false := by simpa using hda
          have hd := hnext d (by simp [nextFree_cons, hdf])
          have := coalesce_D h2 hbf hbn hfree2 hcf hc hdf hd
          simpa [merged, mergedChain, mergedList, prevFree_snoc, nextFree_cons, hdf, hcf]
            using this


/-! ## Re-establishing the valid-heap invariant after a merge -/

theorem Lay_lt {a e : Nat} {A B : List Blk} (h : Lay a (A ++ B) e) {x y : Blk} (hx : x ∈ A)
    (hy : y ∈ B) : x.bp < y.bp := by
  obtain ⟨mid, h1, h2⟩ := Lay_append.1 h
  have := Lay_mem h1 hx
  have := Lay_mem h2 hy
  omega

theorem prevFree_cases (l1 : List Blk) :
    (prevFree l1 = none ∧ ∀ x ∈ l1.getLast?, x.alloc = true)
    ∨ (∃ l c, l1 = l ++ [c] ∧ c.alloc = false ∧ prevFree l1 = some c) := by
  by_cases hl1 : l1 = []
  · subst hl1; left; simp [prevFree]
  · obtain ⟨l, c, rfl⟩ := exists_snoc l1 hl1
    by_cases hc : c.alloc = true
    · left; simp [prevFree_snoc, hc]
    · right
      have hcf : c.alloc = false := by simpa using hc
      exact ⟨l, c, rfl, hcf, by simp [prevFree_snoc, hcf]⟩

theorem nextFree_cases (l2 : List Blk) :
    (nextFree l2 = none ∧ ∀ x ∈ l2.head?, x.alloc = true)
    ∨ (∃ d r, l2 = d :: r ∧ d.alloc = false ∧ nextFree l2 = some d) := by
  cases l2 with
  | nil => left; simp [nextFree]
  | cons d r =>
    by_cases hd : d.alloc = true
    · left; simp [nextFree_cons, hd]
    · right
      have hdf : d.alloc = false := by simpa using hd
      exact ⟨d, r, rfl, hdf, by simp [nextFree_cons, hdf]⟩

/-- The valid-heap invariant of a chain `A ++ m :: B` got from `A ++ A2 ++ b :: B2 ++ B` by
merging the free blocks `A2`, `b`, `B2` into the free block `m`. -/
theorem inv_of_merge {s s2 : State} {live : List Nat} {A A2 B2 B : List Blk} {b m : Blk}
    {fl fl2 : List Nat}
    (hold : Lay (s.heap_listp + 8) (pro s :: (A ++ (A2 ++ b :: (B2 ++ B)))) s.mem_brk)
    (hnew : HInv s2 (A ++ m :: B) [] fl2) (hpro : pro s2 = pro s)
    (hbf : b.alloc = false) (hmf : m.alloc = false)
    (hA2 : ∀ x ∈ A2, x.alloc = false) (hB2 : ∀ x ∈ B2, x.alloc = false)
    (hfl2 : ∀ y, y ∈ fl2 ↔ y = m.bp ∨ (y ∈ fl ∧ ∀ x ∈ A2 ++ B2, y ≠ x.bp))
    (hfi : ∀ x ∈ A ++ (A2 ++ (B2 ++ B)), x.bp ∈ fl ↔ x.alloc = false)
    (hAl : ∀ x ∈ (pro s :: A).getLast?, x.alloc = true)
    (hBh : ∀ y ∈ B.head?, y.alloc = true)
    (hna1 : NoAdj (pro s :: A)) (hna2 : NoAdj B)
    (hlive : ∀ p, p ∈ live ↔ ∃ c ∈ A ++ (A2 ++ b :: (B2 ++ B)), c.bp = p ∧ c.alloc = true)
    (hlnd : live.Nodup) :
    Inv s2 live (A ++ m :: B) fl2 := by
  have hnl : Lay (s2.heap_listp + 8) (pro s2 :: (A ++ m :: B)) s2.mem_brk := hnew.lay
  refine ⟨hnew, ?_, ?_, ?_, hlnd⟩
  · intro x hx
    rcases List.mem_append.1 hx with hxA | hxB
    · have h1 : x.bp < m.bp := by
        have e : pro s2 :: (A ++ m :: B) = (pro s2 :: A) ++ m :: B := by simp
        rw [e] at hnl
        exact Lay_lt hnl (List.mem_cons_of_mem _ hxA) (List.mem_cons_self _ _)
      have h2 : ∀ z ∈ A2 ++ B2, x.bp ≠ z.bp := by
        intro z hz
        have e : pro s :: (A ++ (A2 ++ b :: (B2 ++ B))) = (pro s :: A) ++ (A2 ++ b :: (B2 ++ B)) := by
          simp
        rw [e] at hold
        have := Lay_lt hold (List.mem_cons_of_mem _ hxA) (y := z) (by
          rcases List.mem_append.1 hz with hz | hz
          · simp [hz]
          · simp [hz])
        omega
      rw [hfl2, ← hfi x (by simp [hxA])]
      constructor
      · rintro (h3 | h3)
        · omega
        · exact h3.1
      · intro h3
        exact Or.inr ⟨h3, h2⟩
    · rcases List.mem_cons.1 hxB with rfl | hxB
      · simp [hfl2, hmf]
      · have h1 : m.bp < x.bp := by
          have e : pro s2 :: (A ++ m :: B) = (pro s2 :: A ++ [m]) ++ B := by simp
          rw [e] at hnl
          exact Lay_lt hnl (by simp) hxB
        have h2 : ∀ z ∈ A2 ++ B2, x.bp ≠ z.bp := by
          intro z hz
          have e : pro s :: (A ++ (A2 ++ b :: (B2 ++ B)))
              = (pro s :: A ++ A2 ++ b :: B2) ++ B := by simp
          rw [e] at hold
          have := Lay_lt hold (x := z) (by
            rcases List.mem_append.1 hz with hz | hz
            · simp [hz]
            · simp [hz]) hxB
          omega
        rw [hfl2, ← hfi x (by simp [hxB])]
        constructor
        · rintro (h3 | h3)
          · omega
          · exact h3.1
        · intro h3
          exact Or.inr ⟨h3, h2⟩
  · rw [hpro]
    have e : pro s :: (A ++ m :: B) = (pro s :: A) ++ m :: B := by simp
    unfold NoAdj
    rw [e, List.chain'_append]
    refine ⟨hna1, List.chain'_cons'.2 ⟨fun y hy => Or.inr (hBh y hy), hna2⟩, ?_⟩
    intro x hx y _
    exact Or.inl (hAl x hx)
  · intro p
    rw [hlive]
    constructor
    · rintro ⟨c, hc, hcp, hca⟩
      refine ⟨c, ?_, hcp, hca⟩
      simp only [List.mem_append, List.mem_cons] at hc ⊢
      rcases hc with hc | hc | hc | hc | hc
      · exact Or.inl hc
      · rw [hA2 c hc] at hca; exact absurd hca (by simp)
      · rw [hc, hbf] at hca; exact absurd hca (by simp)
      · rw [hB2 c hc] at hca; exact absurd hca (by simp)
      · exact Or.inr (Or.inr hc)
    · rintro ⟨c, hc, hcp, hca⟩
      refine ⟨c, ?_, hcp, hca⟩
      simp only [List.mem_append, List.mem_cons] at hc ⊢
      rcases hc with hc | hc | hc
      · exact Or.inl hc
      · rw [hc, hmf] at hca; exact absurd hca (by simp)
      · exact Or.inr (Or.inr (Or.inr (Or.inr hc)))

theorem last_alloc_of_none {s : State} {l1 : List Blk}
    (h : ∀ x ∈ l1.getLast?, x.alloc = true) : ∀ x ∈ (pro s :: l1).getLast?, x.alloc = true := by
  intro x hx
  rw [List.getLast?_cons] at hx
  cases hl : l1.getLast? with
  | none =>
    rw [hl] at hx
    simp at hx
    rw [← hx]; rfl
  | some c =>
    rw [hl] at hx
    simp at hx
    subst hx
    exact h c (by rw [hl]; rfl)

theorem last_alloc_of_free {s : State} {l : List Blk} {c : Blk} (hcf : c.alloc = false)
    (hna : NoAdj (pro s :: (l ++ [c]))) : ∀ x ∈ (pro s :: l).getLast?, x.alloc = true := by
  intro x hx
  have e : pro s :: (l ++ [c]) = (pro s :: l) ++ [c] := by simp
  unfold NoAdj at hna
  rw [e, List.chain'_append] at hna
  have := hna.2.2 x hx c (by simp)
  rcases this with h1 | h1
  · exact h1
  · rw [hcf] at h1; exact absurd h1 (by simp)

theorem head_alloc_of_free {d : Blk} {r : List Blk} (hdf : d.alloc = false)
    (hna : NoAdj (d :: r)) : ∀ y ∈ r.head?, y.alloc = true := by
  intro y hy
  have := (List.chain'_cons'.1 hna).1 y hy
  rcases this with h1 | h1
  · rw [hdf] at h1; exact absurd h1 (by simp)
  · exact h1

/-- `coalesce` re-establishes the valid-heap invariant. -/
theorem coalesce_inv {s : State} {l1 l2 : List Blk} {b : Blk} {fl live : List Nat}
    (h : HInv s (l1 ++ b :: l2) [] fl) (hbf : b.alloc = false) (hbn : b.bp ∉ fl)
    (hfi : ∀ x ∈ l1 ++ l2, x.bp ∈ fl ↔ x.alloc = false)
    (hna1 : NoAdj (pro s :: l1)) (hna2 : NoAdj l2)
    (hlive : ∀ p, p ∈ live ↔ ∃ c ∈ l1 ++ b :: l2, c.bp = p ∧ c.alloc = true)
    (hlnd : live.Nodup) :
    Inv (coalesce s b.bp).2 live (mergedChain l1 b l2) (mergedList fl l1 b l2)
    ∧ (coalesce s b.bp).1 = (merged l1 b l2).bp
    ∧ Mod (Owned s (l1 ++ b :: l2)) s.mem (coalesce s b.bp).2.mem := by
  have hfree : ∀ x ∈ fl, ∃ c ∈ l1 ++ b :: l2, c.bp = x ∧ c.alloc = false := by
    intro x hx
    obtain ⟨c, hc, hcx⟩ := h.sub x hx
    refine ⟨c, hc, hcx, ?_⟩
    simp only [List.mem_append, List.mem_cons] at hc
    rcases hc with hc | hc | hc
    · exact (hfi c (by simp [hc])).1 (hcx ▸ hx)
    · rw [hc] at hcx; rw [← hcx] at hx; exact absurd hx hbn
    · exact (hfi c (by simp [hc])).1 (hcx ▸ hx)
  have hprev : ∀ c, prevFree l1 = some c → c.bp ∈ fl := by
    intro c hc
    rcases prevFree_cases l1 with ⟨h1, _⟩ | ⟨l, c2, hl, hcf, h2⟩
    · rw [h1] at hc; exact absurd hc (by simp)
    · rw [h2] at hc
      obtain rfl := Option.some.inj hc
      exact (hfi c2 (by simp [hl])).2 hcf
  have hnext : ∀ d, nextFree l2 = some d → d.bp ∈ fl := by
    intro d hd
    rcases nextFree_cases l2 with ⟨h1, _⟩ | ⟨d2, r, hl, hdf, h2⟩
    · rw [h1] at hd; exact absurd hd (by simp)
    · rw [h2] at hd
      obtain rfl := Option.some.inj hd
      exact (hfi d2 (by simp [hl])).2 hdf
  obtain ⟨c1, c2, c3⟩ := coalesce_spec h hbf hbn hfree hprev hnext
  refine ⟨?_, c1, c3⟩
  have hpro : pro (coalesce s b.bp).2 = pro s := pro_congr (coalesce_fields s b.bp).1
  have hnd := h.nodup
  rcases prevFree_cases l1 with ⟨hp, hpl⟩ | ⟨l, c, hl, hcf, hp⟩ <;>
    rcases nextFree_cases l2 with ⟨hn, hnh⟩ | ⟨d, r, hr, hdf, hn⟩
  · simp only [mergedChain, mergedList, merged, hp, hn] at c2 ⊢
    refine @inv_of_merge s _ _ _ [] [] _ b _ fl _ (by simpa using h.lay)
      c2 hpro hbf hbf (by simp) (by simp) ?_ (by simpa using hfi) (last_alloc_of_none hpl) hnh
      hna1 hna2 (by simpa using hlive) hlnd
    intro y; simp
  · subst hr
    simp only [mergedChain, mergedList, merged, hp, hn, List.tail_cons] at c2 ⊢
    refine @inv_of_merge s _ _ _ [] [d] _ b _ fl _
      (by simpa using h.lay) c2 hpro hbf rfl (by simp) (by simpa using hdf) ?_
      (by simpa using hfi) (last_alloc_of_none hpl) (head_alloc_of_free hdf hna2)
      hna1 hna2.tail (by simpa using hlive) hlnd
    intro y
    simp [hnd.mem_erase_iff]
    tauto
  · subst hl
    simp only [mergedChain, mergedList, merged, hp, hn, List.dropLast_concat] at c2 ⊢
    refine @inv_of_merge s _ _ _ [c] [] _ b _ fl _
      (by simpa using h.lay) c2 hpro hbf rfl (by simpa using hcf) (by simp) ?_
      (by simpa using hfi) (last_alloc_of_free hcf hna1) hnh
      (by
        have e : pro s :: (l ++ [c]) = (pro s :: l) ++ [c] := by simp
        unfold NoAdj at hna1 ⊢
        rw [e] at hna1
        exact hna1.left_of_append)
      hna2 (by simpa using hlive) hlnd
    intro y
    simp [hnd.mem_erase_iff]
    tauto
  · subst hl hr
    simp only [mergedChain, mergedList, merged, hp, hn, List.dropLast_concat,
      List.tail_cons] at c2 ⊢
    refine @inv_of_merge s _ _ _ [c] [d] _ b _ fl _
      (by simpa using h.lay) c2 hpro hbf rfl (by simpa using hcf) (by simpa using hdf) ?_
      (by simpa using hfi) (last_alloc_of_free hcf hna1) (head_alloc_of_free hdf hna2)
      (by
        have e : pro s :: (l ++ [c]) = (pro s :: l) ++ [c] := by simp
        unfold NoAdj at hna1 ⊢
        rw [e] at hna1
        exact hna1.left_of_append)
      hna2.tail (by simpa using hlive) hlnd
    intro y
    simp [hnd.mem_erase_iff, (hnd.erase d.bp).mem_erase_iff]
    tauto


/-! ## `mm_free` -/

theorem NoAdj_split {P : List Blk} {l1 l2 : List Blk} {b : Blk} (h : NoAdj (P ++ (l1 ++ b :: l2))) :
    NoAdj (P ++ l1) ∧ NoAdj l2 := by
  unfold NoAdj at h ⊢
  have e : P ++ (l1 ++ b :: l2) = (P ++ l1) ++ ([b] ++ l2) := by simp
  rw [e] at h
  exact ⟨h.left_of_append, h.right_of_append.right_of_append⟩

theorem mm_free_fields (s : State) (p : Nat) : SameArena s (mm_free s p) := by
  unfold mm_free
  exact coalesce_fields _ _

/-- `mm_free` on the allocated block `b` of a valid heap. -/
theorem mm_free_spec {s : State} {live : List Nat} {l1 l2 : List Blk} {b : Blk} {fl : List Nat}
    (h : Inv s live (l1 ++ b :: l2) fl) (hba : b.alloc = true) :
    Inv (mm_free s b.bp) (live.erase b.bp) (mergedChain l1 ⟨b.bp, b.size, false⟩ l2)
      (mergedList fl l1 ⟨b.bp, b.size, false⟩ l2)
    ∧ Mod (Owned s (l1 ++ ⟨b.bp, b.size, false⟩ :: l2)) s.mem (mm_free s b.bp).mem := by
  have hw := h.wf
  have hbm : b ∈ pro s :: (l1 ++ b :: l2) := by simp
  have hbl := Lay_mem hw.lay hbm
  have hbt := hw.tags b hbm (List.not_mem_nil _)
  have hbr := hbt.reads hbl.2.2.1
  have hsm := hw.small
  have hlo := hw.lo_le
  have hbnf : b.bp ∉ fl := by
    intro hh
    have := (h.free_iff b (by simp)).1 hh
    rw [hba] at this
    exact absurd this (by simp)
  -- the two tag writes
  have g0 : HInv s (l1 ++ [b] ++ l2) [b] fl := by
    have := hw.open_ [b]
    simpa using this
  have hlay : Lay b.bp [b] (b.bp + b.size) := ⟨rfl, hbl.2.2.1, hbl.2.2.2.1, rfl⟩
  obtain ⟨g1, _⟩ := g0.retag hlay (by simp) false (by
      intro x hx hxm
      obtain ⟨b2, hb2, rfl⟩ := hxm
      rw [List.mem_singleton.1 hb2]) (b.size + 0) (by rw [Blk.word_free]; congr 1; omega)
  have e2 : b.bp + b.size - b.bp = b.size := by omega
  rw [e2] at g1
  have g2 : HInv
      { s with
        mem := PUT (PUT s.mem (b.bp - 4) (b.size + 0)) (b.bp + b.size - 8) (b.size + 0) }
      (l1 ++ (⟨b.bp, b.size, false⟩ : Blk) :: l2) [] fl := by
    simpa using g1
  have hfr : mm_free s b.bp = (coalesce
      { s with
        mem := PUT (PUT s.mem (b.bp - 4) (b.size + 0)) (b.bp + b.size - 8) (b.size + 0) }
      b.bp).2 := by
    unfold mm_free
    simp only [hbr.1]
    rw [put_tags _ b.bp b.size 0 hbl.2.2.1 (by omega) (by omega)]
  rw [hfr]
  have hna := NoAdj_split (P := [pro s]) (by simpa using h.noadj)
  have hlive : ∀ p, p ∈ live.erase b.bp ↔
      ∃ c ∈ l1 ++ (⟨b.bp, b.size, false⟩ : Blk) :: l2, c.bp = p ∧ c.alloc = true := by
    intro p
    rw [h.live_nodup.mem_erase_iff, h.live_iff]
    constructor
    · rintro ⟨hne, c, hc, hcp, hca⟩
      refine ⟨c, ?_, hcp, hca⟩
      simp only [List.mem_append, List.mem_cons] at hc ⊢
      rcases hc with hc | hc | hc
      · exact Or.inl hc
      · rw [hc] at hcp; exact absurd hcp.symm hne
      · exact Or.inr (Or.inr hc)
    · rintro ⟨c, hc, hcp, hca⟩
      simp only [List.mem_append, List.mem_cons] at hc
      have hcm : c ∈ l1 ++ b :: l2 ∧ c ≠ b := by
        rcases hc with hc | hc | hc
        · refine ⟨by simp [hc], fun hh => ?_⟩
          have hl : Lay (s.heap_listp + 8) ((pro s :: l1) ++ b :: l2) s.mem_brk := by
            simpa using hw.lay
          exact Lay_append_notin hl (List.mem_cons_of_mem _ hc) (hh ▸ List.mem_cons_self _ _)
        · rw [hc] at hca; exact absurd hca (by simp)
        · refine ⟨by simp [hc], fun hh => ?_⟩
          have hl : Lay (s.heap_listp + 8) ((pro s :: l1 ++ [b]) ++ l2) s.mem_brk := by
            simpa using hw.lay
          exact Lay_append_notin hl (by simp) (hh ▸ hc)
      refine ⟨fun hh => hcm.2 ?_, c, hcm.1, hcp, hca⟩
      exact Lay_bp_inj hw.lay (List.mem_cons_of_mem _ hcm.1) hbm (hcp.trans hh)
  obtain ⟨c1, _, c3⟩ := @coalesce_inv _ _ _ _ _ (live.erase b.bp) g2 rfl hbnf
    (fun x hx => h.free_iff x (by
      simp only [List.mem_append, List.mem_cons] at hx ⊢
      tauto))
    hna.1 hna.2 hlive (h.live_nodup.erase _)
  refine ⟨c1, ?_⟩
  have m1 : Mod (Owned s (l1 ++ (⟨b.bp, b.size, false⟩ : Blk) :: l2)) s.mem
      (PUT (PUT s.mem (b.bp - 4) (b.size + 0)) (b.bp + b.size - 8) (b.size + 0)) := by
    refine (Mod_put2 _ _ (b.bp + b.size) _ (by omega)).mono (fun a ha => ?_)
    right; left
    exact ⟨⟨b.bp, b.size, false⟩, by simp, rfl, ha.1, ha.2⟩
  exact m1.trans c3


/-! ## `place` -/

theorem NEXT_BLKP_put2 (m : Mem) (bp sz al : Nat) (h8 : sz % 8 = 0) (hlt : sz < 4294967296)
    (hal : al ≤ 1) (h24 : 8 ≤ sz) (hbp : 4 ≤ bp) :
    NEXT_BLKP (PUT (PUT m (bp - 4) (sz + al)) (bp + sz - 8) (sz + al)) bp = bp + sz := by
  unfold NEXT_BLKP
  rw [GET_SIZE_eq]
  simp only [HDRP, WSIZE]
  rw [GET_PUT_disj _ _ _ _ (by omega), GET_PUT_same]
  omega

/-- A change confined to link areas of other blocks keeps the words of the extent of `b`. -/
theorem HInv.frame_block {s : State} {bs mid : List Blk} {fl : List Nat} (h : HInv s bs mid fl)
    {S : List Nat} (hS : ∀ x ∈ S, ∃ c ∈ pro s :: bs, c.bp = x) {m m2 : Mem}
    (hm : Mod (fun a => ∃ y ∈ S, y ≤ a ∧ a < y + 16) m m2) {b : Blk} (hb : b ∈ pro s :: bs)
    (hbS : b.bp ∉ S) {w : Nat} (hw : b.bp - 4 ≤ w ∧ w + 4 ≤ b.bp + b.size - 4) :
    GET m2 w = GET m w := by
  refine hm.get (fun a h1 h2 => ?_)
  rintro ⟨y, hy, h3, h4⟩
  obtain ⟨c, hc, rfl⟩ := hS y hy
  have hne : b.bp ≠ c.bp := fun hh => hbS (hh ▸ hy)
  exact ext_clear h.lay hb hc hne ⟨by omega, by omega⟩ ⟨h3, h4⟩

theorem Owned_mono {s s2 : State} {bs bs2 : List Blk} (e1 : s2.heap_listp = s.heap_listp)
    (e2 : s.mem_brk ≤ s2.mem_brk)
    (hf : ∀ c ∈ bs2, c.alloc = false → ∀ a, c.bp - 4 ≤ a → a < c.bp + c.size - 4 →
      Owned s bs a) :
    ∀ a, Owned s2 bs2 a → Owned s bs a := by
  intro a ha
  rcases ha with h1 | ⟨c, hc, hcf, h2, h3⟩ | h1
  · left; omega
  · exact hf c hc hcf a h2 h3
  · right; right; omega

@[simp] theorem coalesce_heap_listp (s : State) (x : Nat) :
    (coalesce s x).2.heap_listp = s.heap_listp := (coalesce_fields s x).1

@[simp] theorem coalesce_mem_brk (s : State) (x : Nat) :
    (coalesce s x).2.mem_brk = s.mem_brk := (coalesce_fields s x).2.1

@[simp] theorem coalesce_mem_start_brk (s : State) (x : Nat) :
    (coalesce s x).2.mem_start_brk = s.mem_start_brk := (coalesce_fields s x).2.2.1

@[simp] theorem coalesce_mem_max_addr (s : State) (x : Nat) :
    (coalesce s x).2.mem_max_addr = s.mem_max_addr := (coalesce_fields s x).2.2.2.1

@[simp] theorem coalesce_sbrk_log (s : State) (x : Nat) :
    (coalesce s x).2.sbrk_log = s.sbrk_log := (coalesce_fields s x).2.2.2.2.1

@[simp] theorem coalesce_full_count (s : State) (x : Nat) :
    (coalesce s x).2.full_count = s.full_count := (coalesce_fields s x).2.2.2.2.2

theorem place_fields (s : State) (bp asize : Nat) :
    (place s bp asize).heap_listp = s.heap_listp
    ∧ (place s bp asize).mem_brk = s.mem_brk
    ∧ (place s bp asize).mem_start_brk = s.mem_start_brk
    ∧ (place s bp asize).mem_max_addr = s.mem_max_addr
    ∧ (place s bp asize).sbrk_log = s.sbrk_log := by
  unfold place
  simp only []
  split_ifs <;> simp

theorem place_split_eq {s : State} {b : Blk} {asize : Nat}
    (hr : GET_SIZE s.mem (HDRP b.bp) = b.size) (hlt : b.size + 8 < 4294967296)
    (hbp : 4 ≤ b.bp) (h8b : b.size % 8 = 0)
    (h24 : 24 ≤ asize) (h8 : asize % 8 = 0) (hle : asize + 24 ≤ b.size) :
    place s b.bp asize = (coalesce
      { remove_free_bp
          { s with
            mem := PUT (PUT s.mem (b.bp - 4) (asize + 1)) (b.bp + asize - 8) (asize + 1) }
          b.bp with
        full_count := (s.full_count + 1) % 4294967296
        mem := PUT (PUT (remove_free_bp
          { s with
            mem := PUT (PUT s.mem (b.bp - 4) (asize + 1)) (b.bp + asize - 8) (asize + 1) }
          b.bp).mem (b.bp + asize - 4) (b.size - asize + 0)) (b.bp + b.size - 8)
            (b.size - asize + 0) }
      (b.bp + asize)).2 := by
  have hcond : (b.size + 4294967296 - asize) % 4294967296 = b.size - asize := by omega
  unfold place
  simp only [hr, hcond, MINSIZE]
  rw [if_pos (by omega)]
  simp only [put_tags _ b.bp asize 1 h8 (by omega) (by omega),
    NEXT_BLKP_put2 _ b.bp asize 1 h8 (by omega) (by omega) (by omega) hbp,
    put_tags _ (b.bp + asize) (b.size - asize) 0 (by omega) (by omega) (by omega)]
  have e : b.bp + asize + (b.size - asize) - 8 = b.bp + b.size - 8 := by omega
  have e2 : b.bp + asize - 4 = b.bp + asize - 4 := rfl
  rw [e]
  simp
theorem NoAdj_around {P l2 : List Blk} {b : Blk} (hbf : b.alloc = false)
    (h : NoAdj (P ++ b :: l2)) :
    NoAdj P ∧ NoAdj l2 ∧ (∀ x ∈ P.getLast?, x.alloc = true) ∧ (∀ y ∈ l2.head?, y.alloc = true) := by
  unfold NoAdj at h ⊢
  rw [List.chain'_append] at h
  obtain ⟨h1, h2, h3⟩ := h
  rw [List.chain'_cons'] at h2
  refine ⟨h1, h2.2, ?_, ?_⟩
  · intro x hx
    rcases h3 x hx b (by simp) with h4 | h4
    · exact h4
    · rw [hbf] at h4; exact absurd h4 (by simp)
  · intro y hy
    rcases h2.1 y hy with h4 | h4
    · rw [hbf] at h4; exact absurd h4 (by simp)
    · exact h4

theorem NoAdj_snoc_alloc {P : List Blk} {b : Blk} (hba : b.alloc = true) (h : NoAdj P) :
    NoAdj (P ++ [b]) := by
  unfold NoAdj at h ⊢
  rw [List.chain'_append]
  exact ⟨h, List.chain'_singleton _, fun x _ y hy => by
    simp at hy
    subst hy
    exact Or.inr hba⟩

theorem nextFree_none_of_head {l2 : List Blk} (h : ∀ y ∈ l2.head?, y.alloc = true) :
    nextFree l2 = none := by
  cases l2 with
  | nil => rfl
  | cons d r =>
    have := h d (by simp)
    simp [nextFree_cons, this]

/-- `place` when the block is split. -/
theorem place_split {s : State} {live : List Nat} {l1 l2 : List Blk} {b : Blk} {fl : List Nat}
    {asize : Nat} (h : Inv s live (l1 ++ b :: l2) fl) (hbf : b.alloc = false)
    (h24 : 24 ≤ asize) (h8 : asize % 8 = 0) (hle : asize + 24 ≤ b.size) :
    Inv (place s b.bp asize) (b.bp :: live)
      (l1 ++ ⟨b.bp, asize, true⟩ :: ⟨b.bp + asize, b.size - asize, false⟩ :: l2)
      ((b.bp + asize) :: fl.erase b.bp)
    ∧ Mod (Owned s (l1 ++ b :: l2)) s.mem (place s b.bp asize).mem := by
  have hw := h.wf
  have hbm : b ∈ pro s :: (l1 ++ b :: l2) := by simp
  have hbb : b ∈ l1 ++ b :: l2 := by simp
  have hbl := Lay_mem hw.lay hbm
  have hbt := hw.tags b hbm (List.not_mem_nil _)
  have hbr := hbt.reads hbl.2.2.1
  have hsm := hw.small
  have hlo := hw.lo_le
  have hbp := hw.bp_ne_pro hbb
  have hnd := hw.nodup
  have hbfl : b.bp ∈ fl := (h.free_iff b hbb).2 hbf
  rw [place_split_eq hbr.1 (by omega) (by omega) hbl.2.2.1 h24 h8 hle]
  -- the first two writes
  obtain ⟨M2, hM2⟩ : ∃ M2, M2 = PUT (PUT s.mem (b.bp - 4) (asize + 1)) (b.bp + asize - 8)
    (asize + 1) := ⟨_, rfl⟩
  rw [← hM2]
  have g0 : HInv s (l1 ++ b :: l2) [b] fl := hw.open_ [b]
  have g1 := g0.put (List.mem_singleton.2 rfl) hbb (asize + 1) (w := b.bp - 4) (by omega)
    (fun _ => Or.inr (by omega))
  have g2 := g1.put (List.mem_singleton.2 rfl) hbb (asize + 1) (w := b.bp + asize - 8)
    (by omega) (fun _ => Or.inl (by omega))
  have g2b : HInv { s with mem := M2 } (l1 ++ b :: l2) [b] fl := by rw [hM2]; exact g2
  have t1 : GET M2 (b.bp - 4) = asize + 1 ∧ GET M2 (b.bp + asize - 8) = asize + 1 := by
    rw [hM2]
    refine ⟨?_, ?_⟩
    · rw [GET_PUT_disj _ _ _ _ (by omega), GET_PUT_same]; omega
    · rw [GET_PUT_same]; omega
  -- the removal from the free list
  obtain ⟨g3, m3, _⟩ := g2b.remove hbfl
  obtain ⟨s3, hs3⟩ : ∃ s3, s3 = remove_free_bp { s with mem := M2 } b.bp := ⟨_, rfl⟩
  rw [← hs3] at g3 m3 ⊢
  have e1 : s3.heap_listp = s.heap_listp := by rw [hs3]; simp
  have e2 : s3.mem_brk = s.mem_brk := by rw [hs3]; simp
  have e3 : s3.mem_start_brk = s.mem_start_brk := by rw [hs3]; simp
  have e4 : s3.mem_max_addr = s.mem_max_addr := by rw [hs3]; simp
  have hS : ∀ x ∈ (s.heap_listp + 8) :: fl.erase b.bp, ∃ c ∈ pro s :: (l1 ++ b :: l2), c.bp = x := by
    intro x hx
    apply hw.sub_pro
    rcases List.mem_cons.1 hx with hx | hx
    · simp [hx]
    · exact List.mem_cons_of_mem _ (List.mem_of_mem_erase hx)
  have hbS : b.bp ∉ (s.heap_listp + 8) :: fl.erase b.bp := by
    intro hh
    rcases List.mem_cons.1 hh with hh | hh
    · omega
    · exact List.Nodup.not_mem_erase hnd hh
  have t3 : GET s3.mem (b.bp - 4) = asize + 1 ∧ GET s3.mem (b.bp + asize - 8) = asize + 1 := by
    refine ⟨?_, ?_⟩
    · rw [hw.frame_block hS m3 hbm hbS (by omega)]; exact t1.1
    · rw [hw.frame_block hS m3 hbm hbS (by omega)]; exact t1.2
  -- the tags of the remainder
  have g5 := g3.put (List.mem_singleton.2 rfl) hbb (b.size - asize + 0) (w := b.bp + asize - 4)
    (by omega) (fun hh => absurd hh (List.Nodup.not_mem_erase hnd))
  have g6 := g5.put (List.mem_singleton.2 rfl) hbb (b.size - asize + 0) (w := b.bp + b.size - 8)
    (by omega) (fun hh => absurd hh (List.Nodup.not_mem_erase hnd))
  obtain ⟨M6, hM6⟩ : ∃ M6, M6 = PUT (PUT s3.mem (b.bp + asize - 4) (b.size - asize + 0))
    (b.bp + b.size - 8) (b.size - asize + 0) := ⟨_, rfl⟩
  rw [← hM6]
  have g6b : HInv { s3 with full_count := (s.full_count + 1) % 4294967296, mem := M6 }
      (l1 ++ b :: l2) [b] (fl.erase b.bp) := by
    rw [hM6]
    exact g6.transfer rfl rfl rfl rfl (fun _ _ _ => ⟨rfl, rfl⟩) rfl g6.list g6.sub g6.nodup g6.cnt
  have t6 : GET M6 (b.bp - 4) = asize + 1 ∧ GET M6 (b.bp + asize - 8) = asize + 1
      ∧ GET M6 (b.bp + asize - 4) = b.size - asize ∧ GET M6 (b.bp + b.size - 8) = b.size - asize := by
    rw [hM6]
    refine ⟨?_, ?_, ?_, ?_⟩
    · rw [GET_PUT_disj _ _ _ _ (by omega), GET_PUT_disj _ _ _ _ (by omega)]; exact t3.1
    · rw [GET_PUT_disj _ _ _ _ (by omega), GET_PUT_disj _ _ _ _ (by omega)]; exact t3.2
    · rw [GET_PUT_disj _ _ _ _ (by omega), GET_PUT_same]; omega
    · rw [GET_PUT_same]; omega
  -- the block becomes two blocks
  have g6c : HInv { s3 with full_count := (s.full_count + 1) % 4294967296, mem := M6 }
      (l1 ++ [b] ++ l2) [b] (fl.erase b.bp) := by simpa using g6b
  have g7 := @HInv.reshape _ _ _
    [⟨b.bp, asize, true⟩, ⟨b.bp + asize, b.size - asize, false⟩] _ _ g6c (by
      intro a e hae
      obtain ⟨ha, _, _, he⟩ := hae
      simp only [Lay] at he
      subst ha
      refine ⟨rfl, h8, h24, rfl, ?_, ?_, ?_⟩
      · show (b.size - asize) % 8 = 0
        omega
      · show 24 ≤ b.size - asize
        omega
      · show b.bp + asize + (b.size - asize) = e
        omega)
    (by
      intro x hx hxm
      obtain ⟨b2, hb2, rfl⟩ := hxm
      rw [List.mem_singleton.1 hb2] at hx
      exact absurd hx (List.Nodup.not_mem_erase hnd))
  have g8 := g7.close (by
    intro c hc
    simp only [List.mem_cons, List.mem_singleton, List.not_mem_nil, or_false] at hc
    rcases hc with rfl | rfl
    · exact ⟨t6.1, t6.2.1⟩
    · refine ⟨t6.2.2.1, ?_⟩
      show GET M6 (b.bp + asize + (b.size - asize) - 8) = _
      have e : b.bp + asize + (b.size - asize) - 8 = b.bp + b.size - 8 := by omega
      rw [e]
      exact t6.2.2.2)
  have g9 : HInv { s3 with full_count := (s.full_count + 1) % 4294967296, mem := M6 }
      ((l1 ++ [⟨b.bp, asize, true⟩]) ++ (⟨b.bp + asize, b.size - asize, false⟩ : Blk) :: l2) []
      (fl.erase b.bp) := by simpa using g8
  -- the remainder goes to `coalesce`
  obtain ⟨na1, na2, na3, na4⟩ := NoAdj_around (P := pro s :: l1) hbf (by simpa using h.noadj)
  have hlayP : Lay (s.heap_listp + 8) ((pro s :: l1) ++ b :: l2) s.mem_brk := by
    simpa using hw.lay
  have hlayS : Lay (s.heap_listp + 8) ((pro s :: l1 ++ [b]) ++ l2) s.mem_brk := by
    simpa using hw.lay
  have hl1 : ∀ x ∈ l1, x.bp < b.bp :=
    fun x hx => Lay_lt hlayP (List.mem_cons_of_mem _ hx) (List.mem_cons_self _ _)
  have hl2 : ∀ x ∈ l2, b.bp + b.size ≤ x.bp := by
    intro x hx
    have h1 : b.bp < x.bp := Lay_lt hlayS (by simp) hx
    have hxm : x ∈ pro s :: (l1 ++ b :: l2) := by simp [hx]
    have := Lay_mem hw.lay hxm
    rcases Lay_disj hw.lay hbm hxm with h2 | h2 | h2
    · rw [← h2] at h1; omega
    · exact h2
    · omega
  have hp6 : pro { s3 with full_count := (s.full_count + 1) % 4294967296, mem := M6 } = pro s :=
    pro_congr e1
  have hbn : (b.bp + asize) ∉ fl.erase b.bp := by
    intro hh
    obtain ⟨c, hc, hcx⟩ := hw.sub _ (List.mem_of_mem_erase hh)
    simp only [List.mem_append, List.mem_cons] at hc
    rcases hc with hc | hc | hc
    · have := hl1 c hc; omega
    · rw [hc] at hcx; omega
    · have := hl2 c hc; omega
  have hfi : ∀ x ∈ (l1 ++ [(⟨b.bp, asize, true⟩ : Blk)]) ++ l2,
      x.bp ∈ fl.erase b.bp ↔ x.alloc = false := by
    intro x hx
    simp only [List.mem_append, List.mem_singleton] at hx
    rcases hx with (hx | hx) | hx
    · have := hl1 x hx
      rw [List.mem_erase_of_ne (by omega)]
      exact h.free_iff x (by simp [hx])
    · subst hx
      simp only [Bool.true_eq_false, iff_false]
      exact List.Nodup.not_mem_erase hnd
    · have := hl2 x hx
      rw [List.mem_erase_of_ne (by omega)]
      exact h.free_iff x (by simp [hx])
  have hbnl : b.bp ∉ live := by
    intro hh
    obtain ⟨c, hc, hcp, hca⟩ := (h.live_iff b.bp).1 hh
    have := Lay_bp_inj hw.lay (List.mem_cons_of_mem _ hc) hbm hcp
    rw [this, hbf] at hca
    exact absurd hca (by simp)
  have hlive : ∀ p, p ∈ b.bp :: live ↔
      ∃ c ∈ (l1 ++ [(⟨b.bp, asize, true⟩ : Blk)])
        ++ (⟨b.bp + asize, b.size - asize, false⟩ : Blk) :: l2, c.bp = p ∧ c.alloc = true := by
    intro p
    rw [List.mem_cons, h.live_iff]
    constructor
    · rintro (hp | ⟨c, hc, hcp, hca⟩)
      · exact ⟨⟨b.bp, asize, true⟩, by simp, hp.symm, rfl⟩
      · refine ⟨c, ?_, hcp, hca⟩
        simp only [List.mem_append, List.mem_cons] at hc ⊢
        rcases hc with hc | hc | hc
        · exact Or.inl (Or.inl hc)
        · rw [hc, hbf] at hca; exact absurd hca (by simp)
        · exact Or.inr (Or.inr hc)
    · rintro ⟨c, hc, hcp, hca⟩
      simp only [List.mem_append, List.mem_cons, List.mem_singleton, List.not_mem_nil,
        or_false] at hc
      rcases hc with (hc | hc) | hc | hc
      · exact Or.inr ⟨c, by simp [hc], hcp, hca⟩
      · left; rw [← hcp, hc]
      · rw [hc] at hca; exact absurd hca (by simp)
      · exact Or.inr ⟨c, by simp [hc], hcp, hca⟩
  obtain ⟨c1, _, c3⟩ := @coalesce_inv _ _ _ _ _ (b.bp :: live) g9 rfl hbn hfi
    (by rw [hp6]; exact NoAdj_snoc_alloc (P := pro s :: l1) rfl na1)
    na2 hlive (List.nodup_cons.2 ⟨hbnl, h.live_nodup⟩)
  have hpf : prevFree (l1 ++ [(⟨b.bp, asize, true⟩ : Blk)]) = none := by
    simp [prevFree_snoc]
  have hnf : nextFree l2 = none := nextFree_none_of_head na4
  simp only [mergedChain, mergedList, merged, hpf, hnf, List.append_assoc,
    List.singleton_append] at c1
  refine ⟨c1, ?_⟩
  -- the frame
  have hown : ∀ a, b.bp - 4 ≤ a → a < b.bp + b.size - 4 → Owned s (l1 ++ b :: l2) a :=
    fun a h1 h2 => Or.inr (Or.inl ⟨b, hbb, hbf, h1, h2⟩)
  have m_a : Mod (Owned s (l1 ++ b :: l2)) s.mem M2 := by
    rw [hM2]
    exact (Mod_put2 _ _ (b.bp + asize) _ (by omega)).mono
      (fun a ha => hown a ha.1 (by omega))
  have m_b : Mod (Owned s (l1 ++ b :: l2)) M2 s3.mem := by
    refine m3.mono (links_owned (S := (s.heap_listp + 8) :: fl.erase b.bp) hw ?_)
    intro y hy
    rcases List.mem_cons.1 hy with hy | hy
    · exact Or.inl hy
    · obtain ⟨c, hc, hcy⟩ := hw.sub y (List.mem_of_mem_erase hy)
      exact Or.inr ⟨c, hc, hcy, (h.free_iff c hc).1 (hcy ▸ List.mem_of_mem_erase hy)⟩
  have m_c : Mod (Owned s (l1 ++ b :: l2)) s3.mem M6 := by
    rw [hM6]
    have := Mod_put2 s3.mem (b.bp + asize) (b.bp + b.size) (b.size - asize + 0) (by omega)
    exact this.mono (fun a ha => hown a (by omega) ha.2)
  have m_d : Mod (Owned s (l1 ++ b :: l2)) M6 (coalesce
      { s3 with full_count := (s.full_count + 1) % 4294967296, mem := M6 }
        (b.bp + asize)).2.mem := by
    refine c3.mono (Owned_mono e1 (by rw [e2]) ?_)
    intro c hc hcf a h1 h2
    simp only [List.mem_append, List.mem_cons, List.mem_singleton, List.not_mem_nil,
      or_false] at hc
    rcases hc with (hc | hc) | hc | hc
    · exact Or.inr (Or.inl ⟨c, by simp [hc], hcf, h1, h2⟩)
    · rw [hc] at hcf; exact absurd hcf (by simp)
    · subst hc
      simp only at h1 h2
      exact hown a (by omega) (by omega)
    · exact Or.inr (Or.inl ⟨c, by simp [hc], hcf, h1, h2⟩)
  exact ((m_a.trans m_b).trans m_c).trans m_d

theorem place_fill_eq {s : State} {b : Blk} {asize : Nat}
    (hr : GET_SIZE s.mem (HDRP b.bp) = b.size) (hlt : b.size + 8 < 4294967296)
    (h8b : b.size % 8 = 0) (hle : asize ≤ b.size) (hlt2 : b.size < asize + 24) :
    place s b.bp asize = remove_free_bp
      { s with
        mem := PUT (PUT s.mem (b.bp - 4) (b.size + 1)) (b.bp + b.size - 8) (b.size + 1) }
      b.bp := by
  have hcond : (b.size + 4294967296 - asize) % 4294967296 = b.size - asize := by omega
  unfold place
  simp only [hr, hcond, MINSIZE]
  rw [if_neg (by omega)]
  simp only [put_tags _ b.bp b.size 1 h8b (by omega) (by omega)]

/-- `place` when the whole block is taken. -/
theorem place_fill {s : State} {live : List Nat} {l1 l2 : List Blk} {b : Blk} {fl : List Nat}
    {asize : Nat} (h : Inv s live (l1 ++ b :: l2) fl) (hbf : b.alloc = false)
    (hle : asize ≤ b.size) (hlt2 : b.size < asize + 24) :
    Inv (place s b.bp asize) (b.bp :: live) (l1 ++ ⟨b.bp, b.size, true⟩ :: l2) (fl.erase b.bp)
    ∧ Mod (Owned s (l1 ++ b :: l2)) s.mem (place s b.bp asize).mem := by
  have hw := h.wf
  have hbm : b ∈ pro s :: (l1 ++ b :: l2) := by simp
  have hbb : b ∈ l1 ++ b :: l2 := by simp
  have hbl := Lay_mem hw.lay hbm
  have hbt := hw.tags b hbm (List.not_mem_nil _)
  have hbr := hbt.reads hbl.2.2.1
  have hsm := hw.small
  have hlo := hw.lo_le
  have hbp := hw.bp_ne_pro hbb
  have hnd := hw.nodup
  have hbfl : b.bp ∈ fl := (h.free_iff b hbb).2 hbf
  rw [place_fill_eq hbr.1 (by omega) hbl.2.2.1 hle hlt2]
  have g0 : HInv s (l1 ++ [b] ++ l2) [b] fl := by
    have := hw.open_ [b]
    simpa using this
  have hlay : Lay b.bp [b] (b.bp + b.size) := ⟨rfl, hbl.2.2.1, hbl.2.2.2.1, rfl⟩
  obtain ⟨g1, _⟩ := g0.retag hlay (by simp) true (by
      intro x hx hxm
      obtain ⟨b2, hb2, rfl⟩ := hxm
      rw [List.mem_singleton.1 hb2]) (b.size + 1) (by rw [Blk.word_alloc]; congr 1; omega)
  have e2 : b.bp + b.size - b.bp = b.size := by omega
  rw [e2] at g1
  have g2 : HInv
      { s with
        mem := PUT (PUT s.mem (b.bp - 4) (b.size + 1)) (b.bp + b.size - 8) (b.size + 1) }
      (l1 ++ (⟨b.bp, b.size, true⟩ : Blk) :: l2) [] fl := by
    simpa using g1
  obtain ⟨g3, m3, _⟩ := g2.remove hbfl
  obtain ⟨na1, na2, na3, na4⟩ := NoAdj_around (P := pro s :: l1) hbf (by simpa using h.noadj)
  have hlayP : Lay (s.heap_listp + 8) ((pro s :: l1) ++ b :: l2) s.mem_brk := by
    simpa using hw.lay
  have hlayS : Lay (s.heap_listp + 8) ((pro s :: l1 ++ [b]) ++ l2) s.mem_brk := by
    simpa using hw.lay
  have hl1 : ∀ x ∈ l1, x.bp < b.bp :=
    fun x hx => Lay_lt hlayP (List.mem_cons_of_mem _ hx) (List.mem_cons_self _ _)
  have hl2 : ∀ x ∈ l2, b.bp < x.bp := fun x hx => Lay_lt hlayS (by simp) hx
  have hbnl : b.bp ∉ live := by
    intro hh
    obtain ⟨c, hc, hcp, hca⟩ := (h.live_iff b.bp).1 hh
    have := Lay_bp_inj hw.lay (List.mem_cons_of_mem _ hc) hbm hcp
    rw [this, hbf] at hca
    exact absurd hca (by simp)
  refine ⟨⟨g3, ?_, ?_, ?_, List.nodup_cons.2 ⟨hbnl, h.live_nodup⟩⟩, ?_⟩
  · intro x hx
    simp only [List.mem_append, List.mem_cons] at hx
    rcases hx with hx | hx | hx
    · have := hl1 x hx
      rw [List.mem_erase_of_ne (by omega)]
      exact h.free_iff x (by simp [hx])
    · subst hx
      simp only [Bool.true_eq_false, iff_false]
      exact List.Nodup.not_mem_erase hnd
    · have := hl2 x hx
      rw [List.mem_erase_of_ne (by omega)]
      exact h.free_iff x (by simp [hx])
  · have hp : pro (remove_free_bp
      { s with
        mem := PUT (PUT s.mem (b.bp - 4) (b.size + 1)) (b.bp + b.size - 8) (b.size + 1) }
      b.bp) = pro s := pro_congr (by simp)
    rw [hp]
    have e : pro s :: (l1 ++ (⟨b.bp, b.size, true⟩ : Blk) :: l2)
        = (pro s :: l1) ++ (⟨b.bp, b.size, true⟩ : Blk) :: l2 := by simp
    unfold NoAdj at na1 na2 ⊢
    rw [e, List.chain'_append]
    refine ⟨na1, List.chain'_cons'.2 ⟨fun y _ => Or.inl rfl, na2⟩, ?_⟩
    intro x _ y hy
    simp at hy
    subst hy
    exact Or.inr rfl
  · intro p
    rw [List.mem_cons, h.live_iff]
    constructor
    · rintro (hp | ⟨c, hc, hcp, hca⟩)
      · exact ⟨⟨b.bp, b.size, true⟩, by simp, hp.symm, rfl⟩
      · refine ⟨c, ?_, hcp, hca⟩
        simp only [List.mem_append, List.mem_cons] at hc ⊢
        rcases hc with hc | hc | hc
        · exact Or.inl hc
        · rw [hc, hbf] at hca; exact absurd hca (by simp)
        · exact Or.inr (Or.inr hc)
    · rintro ⟨c, hc, hcp, hca⟩
      simp only [List.mem_append, List.mem_cons] at hc
      rcases hc with hc | hc | hc
      · exact Or.inr ⟨c, by simp [hc], hcp, hca⟩
      · left; rw [← hcp, hc]
      · exact Or.inr ⟨c, by simp [hc], hcp, hca⟩
  · have hown : ∀ a, b.bp - 4 ≤ a → a < b.bp + b.size - 4 → Owned s (l1 ++ b :: l2) a :=
      fun a h1 h2 => Or.inr (Or.inl ⟨b, hbb, hbf, h1, h2⟩)
    have m_a : Mod (Owned s (l1 ++ b :: l2)) s.mem
        (PUT (PUT s.mem (b.bp - 4) (b.size + 1)) (b.bp + b.size - 8) (b.size + 1)) :=
      (Mod_put2 _ _ (b.bp + b.size) _ (by omega)).mono (fun a ha => hown a ha.1 ha.2)
    have m_b : Mod (Owned s (l1 ++ b :: l2))
        (PUT (PUT s.mem (b.bp - 4) (b.size + 1)) (b.bp + b.size - 8) (b.size + 1))
        (remove_free_bp
          { s with
            mem := PUT (PUT s.mem (b.bp - 4) (b.size + 1)) (b.bp + b.size - 8) (b.size + 1) }
          b.bp).mem := by
      refine m3.mono (links_owned (S := (s.heap_listp + 8) :: fl.erase b.bp) hw ?_)
      intro y hy
      rcases List.mem_cons.1 hy with hy | hy
      · exact Or.inl hy
      · obtain ⟨c, hc, hcy⟩ := hw.sub y (List.mem_of_mem_erase hy)
        exact Or.inr ⟨c, hc, hcy, (h.free_iff c hc).1 (hcy ▸ List.mem_of_mem_erase hy)⟩
    exact m_a.trans m_b

/-- `place` on a free block of a valid heap that is large enough. -/
theorem place_spec {s : State} {live : List Nat} {l1 l2 : List Blk} {b : Blk} {fl : List Nat}
    {asize : Nat} (h : Inv s live (l1 ++ b :: l2) fl) (hbf : b.alloc = false)
    (h24 : 24 ≤ asize) (h8 : asize % 8 = 0) (hle : asize ≤ b.size) :
    Inv (place s b.bp asize) (b.bp :: live) (placeChain l1 b l2 asize) (placeList fl b asize)
    ∧ Mod (Owned s (l1 ++ b :: l2)) s.mem (place s b.bp asize).mem := by
  unfold placeChain placeList
  by_cases hc : 24 ≤ b.size - asize
  · rw [if_pos hc, if_pos hc]
    exact place_split h hbf h24 h8 (by omega)
  · rw [if_neg hc, if_neg hc]
    exact place_fill h hbf hle (by omega)


/-! ## `extend_heap` -/

/-- The invariants do not read the block counter or the provider's log. -/
theorem Inv.congr {s s2 : State} {live : List Nat} {bs : List Blk} {fl : List Nat}
    (h : Inv s live bs fl) (e0 : s2.mem = s.mem) (e1 : s2.heap_listp = s.heap_listp)
    (e2 : s2.mem_brk = s.mem_brk) (e3 : s2.mem_start_brk = s.mem_start_brk)
    (e4 : s2.mem_max_addr = s.mem_max_addr) (e5 : s2.free_listp = s.free_listp)
    (e6 : s2.count = s.count) : Inv s2 live bs fl := by
  have hp := pro_congr e1
  refine ⟨?_, h.free_iff, by rw [hp]; exact h.noadj, h.live_iff, h.live_nodup⟩
  have hw := h.wf
  refine hw.transfer e1 e2 e3 e4 (fun _ _ _ => by rw [e0]; exact ⟨rfl, rfl⟩) (by rw [e0])
    (by rw [e0, e5]; exact hw.list) hw.sub hw.nodup (by rw [e6]; exact hw.cnt)

theorem extend_size (E : Nat) (hE8 : E % 8 = 0) (hE24 : 24 ≤ E) (hElt : E < 4294967296) :
    (if (if (E / WSIZE) % 2 ≠ 0 then (E / WSIZE + 1) * WSIZE else E / WSIZE * WSIZE) % 4294967296
        < MINSIZE then MINSIZE
      else (if (E / WSIZE) % 2 ≠ 0 then (E / WSIZE + 1) * WSIZE else E / WSIZE * WSIZE)
        % 4294967296) = E := by
  simp only [WSIZE, MINSIZE]
  have h1 : (E / 4) % 2 = 0 := by omega
  have h2 : E / 4 * 4 % 4294967296 = E := by omega
  simp only [h1, ne_eq, not_true_eq_false, if_false, h2]
  rw [if_neg (by omega)]

/-- `extend_heap` when the provider refuses. -/
theorem extend_heap_fail {s : State} {E : Nat} (hE8 : E % 8 = 0) (hE24 : 24 ≤ E)
    (hElt : E < 4294967296) (hfit : s.mem_brk + E > s.mem_max_addr) :
    extend_heap s (E / WSIZE) = (0,
      { s with
        full_count := (s.full_count + 1) % 4294967296
        sbrk_log := E :: s.sbrk_log }) := by
  unfold extend_heap
  simp only [extend_size E hE8 hE24 hElt, mem_sbrk]
  rw [if_pos hfit]

theorem extend_heap_ok_eq {s : State} {E : Nat} (hE8 : E % 8 = 0) (hE24 : 24 ≤ E)
    (hElt : E < 4294967296) (hfit : ¬ s.mem_brk + E > s.mem_max_addr) (hb : 4 ≤ s.mem_brk) :
    extend_heap s (E / WSIZE) = coalesce
      { s with
        full_count := (s.full_count + 1) % 4294967296
        sbrk_log := E :: s.sbrk_log
        mem_brk := s.mem_brk + E
        mem := PUT (PUT (PUT s.mem (s.mem_brk - 4) (E + 0)) (s.mem_brk + E - 8) (E + 0))
          (s.mem_brk + E - 4) 1 }
      s.mem_brk := by
  unfold extend_heap
  simp only [extend_size E hE8 hE24 (by omega), mem_sbrk]
  rw [if_neg hfit]
  simp only [put_tags _ s.mem_brk E 0 hE8 (by omega) (by omega),
    NEXT_BLKP_put2 _ s.mem_brk E 0 hE8 (by omega) (by omega) (by omega) hb]
  have e : HDRP (s.mem_brk + E) = s.mem_brk + E - 4 := rfl
  have e2 : PACK 0 1 = 1 := rfl
  rw [e, e2]

/-- `extend_heap` when the provider grants the bytes. -/
theorem extend_heap_ok {s : State} {live : List Nat} {bs : List Blk} {fl : List Nat} {E : Nat}
    (h : Inv s live bs fl) (hE8 : E % 8 = 0) (hE24 : 24 ≤ E) (hElt : E + 8 < 4294967296)
    (hfit : ¬ s.mem_brk + E > s.mem_max_addr)
    (hsmall : s.mem_brk + E - s.mem_start_brk < 4294967296) :
    Inv (extend_heap s (E / WSIZE)).2 live (mergedChain bs ⟨s.mem_brk, E, false⟩ [])
      (mergedList fl bs ⟨s.mem_brk, E, false⟩ [])
    ∧ (extend_heap s (E / WSIZE)).1 = (merged bs ⟨s.mem_brk, E, false⟩ []).bp
    ∧ Mod (Owned s bs) s.mem (extend_heap s (E / WSIZE)).2.mem
    ∧ (extend_heap s (E / WSIZE)).2.mem_brk = s.mem_brk + E
    ∧ (extend_heap s (E / WSIZE)).2.sbrk_log = E :: s.sbrk_log
    ∧ (extend_heap s (E / WSIZE)).2.heap_listp = s.heap_listp
    ∧ (extend_heap s (E / WSIZE)).2.mem_start_brk = s.mem_start_brk
    ∧ (extend_heap s (E / WSIZE)).2.mem_max_addr = s.mem_max_addr := by
  have hw := h.wf
  have hlo := hw.lo_le
  have hb32 : s.heap_listp + 32 ≤ s.mem_brk := by
    have := Lay_le hw.lay.2.2.2
    simp only [pro] at this
    omega
  rw [extend_heap_ok_eq hE8 hE24 (by omega) hfit (by omega)]
  refine (and_assoc.1 (and_assoc.1 ⟨?_, by simp, by simp, by simp, by simp, by simp⟩))
  obtain ⟨M, hM⟩ : ∃ M, M = PUT (PUT (PUT s.mem (s.mem_brk - 4) (E + 0)) (s.mem_brk + E - 8)
    (E + 0)) (s.mem_brk + E - 4) 1 := ⟨_, rfl⟩
  rw [← hM]
  obtain ⟨f1, f2, f3, f4⟩ := hw.fl_facts
  have g : HInv
      { s with
        full_count := (s.full_count + 1) % 4294967296
        sbrk_log := E :: s.sbrk_log
        mem_brk := s.mem_brk + E
        mem := M }
      (bs ++ (⟨s.mem_brk, E, false⟩ : Blk) :: []) [] fl := by
    constructor
    · have e : pro s :: (bs ++ [(⟨s.mem_brk, E, false⟩ : Blk)])
          = (pro s :: bs) ++ [(⟨s.mem_brk, E, false⟩ : Blk)] := by simp
      show Lay (s.heap_listp + 8) (pro s :: (bs ++ [(⟨s.mem_brk, E, false⟩ : Blk)]))
        (s.mem_brk + E)
      rw [e]
      exact Lay_append.2 ⟨s.mem_brk, hw.lay, rfl, hE8, hE24, rfl⟩
    · intro b hb _
      have hb2 : b ∈ pro s :: bs ∨ b = ⟨s.mem_brk, E, false⟩ := by
        rcases List.mem_cons.1 hb with hb | hb
        · left; rw [hb]; exact List.mem_cons_self _ _
        · rcases List.mem_append.1 hb with hb | hb
          · exact Or.inl (List.mem_cons_of_mem _ hb)
          · exact Or.inr (List.mem_singleton.1 hb)
      rcases hb2 with hb2 | hb2
      · have hbl := Lay_mem hw.lay hb2
        have hbt := hw.tags b hb2 (List.not_mem_nil _)
        refine ⟨?_, ?_⟩
        · show GET M _ = _
          rw [hM, GET_PUT_disj _ _ _ _ (by omega), GET_PUT_disj _ _ _ _ (by omega),
            GET_PUT_disj _ _ _ _ (by omega)]
          exact hbt.1
        · show GET M _ = _
          rw [hM, GET_PUT_disj _ _ _ _ (by omega), GET_PUT_disj _ _ _ _ (by omega),
            GET_PUT_disj _ _ _ _ (by omega)]
          exact hbt.2
      · subst hb2
        refine ⟨?_, ?_⟩
        · show GET M (s.mem_brk - 4) = E + 0
          rw [hM, GET_PUT_disj _ _ _ _ (by omega), GET_PUT_disj _ _ _ _ (by omega),
            GET_PUT_same]
          omega
        · show GET M (s.mem_brk + E - 8) = E + 0
          rw [hM, GET_PUT_disj _ _ _ _ (by omega), GET_PUT_same]
          omega
    · show GET M (s.mem_brk + E - 4) = 1
      rw [hM, GET_PUT_same]
    · exact hw.lo_le
    · exact hw.al8
    · exact hsmall
    · exact ⟨by show s.mem_brk + E ≤ s.mem_max_addr; omega, hw.addr.2⟩
    · show Seg M 0 s.free_listp fl (s.heap_listp + 8)
      rw [hM]
      refine Seg_frame_PUT (fun x hx => ?_) (Seg_frame_PUT (fun x hx => ?_)
        (Seg_frame_PUT (fun x hx => ?_) hw.list))
      · have := f1 x hx; omega
      · have := f1 x hx; omega
      · have := f1 x hx; omega
    · intro x hx
      obtain ⟨b, hb, hbx⟩ := hw.sub x hx
      exact ⟨b, by simp [hb], hbx⟩
    · exact hw.nodup
    · exact hw.cnt
  have hbn : s.mem_brk ∉ fl := by
    intro hh
    have := f1 _ hh
    omega
  have hlive : ∀ p, p ∈ live ↔
      ∃ c ∈ bs ++ (⟨s.mem_brk, E, false⟩ : Blk) :: [], c.bp = p ∧ c.alloc = true := by
    intro p
    rw [h.live_iff]
    constructor
    · rintro ⟨c, hc, hcp, hca⟩
      exact ⟨c, by simp [hc], hcp, hca⟩
    · rintro ⟨c, hc, hcp, hca⟩
      simp only [List.mem_append, List.mem_singleton] at hc
      rcases hc with hc | hc
      · exact ⟨c, hc, hcp, hca⟩
      · rw [hc] at hca; exact absurd hca (by simp)
  obtain ⟨c1, c2, c3⟩ := @coalesce_inv _ _ _ ⟨s.mem_brk, E, false⟩ _ live g rfl hbn
    (fun x hx => h.free_iff x (by simpa using hx)) h.noadj List.chain'_nil hlive h.live_nodup
  refine ⟨⟨c1, c2⟩, ?_⟩
  have m1 : Mod (Owned s bs) s.mem M := by
    intro a ha
    have h1 : ¬ s.mem_brk - 4 ≤ a := fun hh => ha (Or.inr (Or.inr hh))
    rw [hM, PUT_byte _ _ _ _ (by omega), PUT_byte _ _ _ _ (by omega),
      PUT_byte _ _ _ _ (by omega)]
  refine m1.trans (c3.mono (Owned_mono rfl (by show s.mem_brk ≤ s.mem_brk + E; omega) ?_))
  intro c hc hcf a h1 h2
  simp only [List.mem_append, List.mem_singleton] at hc
  rcases hc with hc | hc
  · exact Or.inr (Or.inl ⟨c, hc, hcf, h1, h2⟩)
  · subst hc
    exact Or.inr (Or.inr h1)

/-! ## `find_fit` -/

theorem find_fit_loop_spec {m : Mem} {e asize : Nat} (he : GET_ALLOC m (HDRP e) ≠ 0) :
    ∀ (l : List Nat) (fuel prev cur : Nat), Seg m prev cur l e →
      (∀ x ∈ l, GET_ALLOC m (HDRP x) = 0) → l.length < fuel →
      find_fit_loop m asize fuel cur = some (firstFit m asize l) := by
  intro l
  induction l with
  | nil =>
    intro fuel prev cur hs _ hf
    obtain ⟨f, rfl⟩ : ∃ f, fuel = f + 1 := ⟨fuel - 1, by simp at hf; omega⟩
    simp only [Seg] at hs
    subst hs
    simp only [find_fit_loop, firstFit]
    rw [if_neg he]
  | cons x r ih =>
    intro fuel prev cur hs ha hf
    obtain ⟨f, rfl⟩ : ∃ f, fuel = f + 1 := ⟨fuel - 1, by simp at hf; omega⟩
    obtain ⟨h1, _, h3⟩ := hs
    subst h1
    simp only [find_fit_loop, firstFit]
    rw [if_pos (ha cur (List.mem_cons_self _ _))]
    by_cases hc : asize ≤ GET_SIZE m (HDRP cur)
    · rw [if_pos hc, if_pos hc]
    · rw [if_neg hc, if_neg hc]
      exact ih f cur _ h3 (fun y hy => ha y (List.mem_cons_of_mem _ hy))
        (by simp at hf; omega)

theorem firstFit_mem (m : Mem) (asize : Nat) (l : List Nat) :
    firstFit m asize l = 0 ∨
      (firstFit m asize l ∈ l ∧ asize ≤ GET_SIZE m (HDRP (firstFit m asize l))) := by
  induction l with
  | nil => left; rfl
  | cons x r ih =>
    simp only [firstFit]
    by_cases hc : asize ≤ GET_SIZE m (HDRP x)
    · rw [if_pos hc]; right; exact ⟨List.mem_cons_self _ _, hc⟩
    · rw [if_neg hc]
      rcases ih with h | h
      · left; exact h
      · right; exact ⟨List.mem_cons_of_mem _ h.1, h.2⟩

theorem firstFit_zero {m : Mem} {asize : Nat} {l : List Nat} (hnz : ∀ x ∈ l, x ≠ 0) :
    firstFit m asize l = 0 ↔ ∀ x ∈ l, GET_SIZE m (HDRP x) < asize := by
  induction l with
  | nil => simp [firstFit]
  | cons x r ih =>
    simp only [firstFit]
    by_cases hc : asize ≤ GET_SIZE m (HDRP x)
    · rw [if_pos hc]
      constructor
      · intro h; exact absurd h (hnz x (List.mem_cons_self _ _))
      · intro h
        have := h x (List.mem_cons_self _ _)
        omega
    · rw [if_neg hc, ih (fun y hy => hnz y (List.mem_cons_of_mem _ hy))]
      constructor
      · intro h y hy
        rcases List.mem_cons.1 hy with hy | hy
        · rw [hy]; omega
        · exact h y hy
      · intro h y hy
        exact h y (List.mem_cons_of_mem _ hy)

/-- `find_fit` terminates on a valid heap and returns the first fit. -/
theorem find_fit_spec {s : State} {live : List Nat} {bs : List Blk} {fl : List Nat}
    (h : Inv s live bs fl) (asize : Nat) :
    find_fit s asize = some (firstFit s.mem asize fl) := by
  have hw := h.wf
  obtain ⟨f1, f2, f3, f4⟩ := hw.fl_facts
  unfold find_fit
  refine find_fit_loop_spec ?_ fl _ 0 _ hw.list ?_ ?_
  · have hp := hw.tags (pro s) (pro_mem s bs) (List.not_mem_nil _)
    have := (hp.reads (by simp [pro])).2.1
    simp only [pro] at this
    rw [this]
    simp
  · intro x hx
    obtain ⟨b, hb, hbx⟩ := hw.sub x hx
    have hbm : b ∈ pro s :: bs := List.mem_cons_of_mem _ hb
    have hbt := hw.tags b hbm (List.not_mem_nil _)
    have hbl := Lay_mem hw.lay hbm
    have hbf : b.alloc = false := (h.free_iff b hb).1 (hbx ▸ hx)
    have := (hbt.reads hbl.2.2.1).2.1
    rw [hbx, hbf] at this
    simpa using this
  · have := hw.addr
    have := hw.lo_le
    omega

/-! ## `mm_malloc` -/

/-- For requests between 1 and `2^32 - 16` the adjusted size is exact. -/
theorem adjust_eq {n : Nat} (h1 : 1 ≤ n) (h2 : n ≤ 4294967280) :
    adjust n = max (8 * ((n + 7) / 8) + 8) 24 ∧ 24 ≤ adjust n ∧ adjust n % 8 = 0
    ∧ n + 8 ≤ adjust n ∧ adjust n < 4294967296 := by
  have e : adjust n = max (8 * ((n + 7) / 8) + 8) 24 := by
    unfold adjust MAX
    rw [ALIGN_eq]
    simp only [ALIGNMENT, MINSIZE]
    have a1 : (n + 7) % 18446744073709551616 = n + 7 := Nat.mod_eq_of_lt (by omega)
    rw [a1]
    have a2 : (n + 7 - (n + 7) % 8 + 8) % 18446744073709551616 = 8 * ((n + 7) / 8) + 8 := by
      omega
    rw [a2]
    split
    · rw [max_eq_left (by omega)]; omega
    · rw [max_eq_right (by omega)]
  rw [e]
  refine ⟨rfl, le_max_right _ _, ?_, ?_, ?_⟩
  · rcases max_cases (8 * ((n + 7) / 8) + 8) 24 with h | h
    · rw [h.1]; omega
    · rw [h.1]
  · have := le_max_left (8 * ((n + 7) / 8) + 8) 24
    omega
  · rcases max_cases (8 * ((n + 7) / 8) + 8) 24 with h | h
    · rw [h.1]; omega
    · rw [h.1]; omega

/-- The adjusted size is a multiple of 8 below `2^32`, whatever the request. -/
theorem adjust_gen (n : Nat) : adjust n % 8 = 0 ∧ adjust n < 4294967296 := by
  unfold adjust MAX
  rw [ALIGN_eq]
  simp only [ALIGNMENT, MINSIZE]
  refine ⟨?_, Nat.mod_lt _ (by decide)⟩
  split <;> omega

theorem MAX_chunk {A : Nat} (h8 : A % 8 = 0) (hlt : A < 4294967296) :
    MAX A CHUNKSIZE % 8 = 0 ∧ 24 ≤ MAX A CHUNKSIZE ∧ MAX A CHUNKSIZE < 4294967296
    ∧ A ≤ MAX A CHUNKSIZE := by
  unfold MAX CHUNKSIZE
  split <;> omega

theorem merged_facts {s : State} {bs mid : List Blk} {fl : List Nat} (hw : HInv s bs mid fl)
    (E : Nat) :
    (merged bs ⟨s.mem_brk, E, false⟩ []).alloc = false
    ∧ E ≤ (merged bs ⟨s.mem_brk, E, false⟩ []).size
    ∧ (∀ a, (merged bs ⟨s.mem_brk, E, false⟩ []).bp - 4 ≤ a → Owned s bs a)
    ∧ s.heap_listp + 32 ≤ (merged bs ⟨s.mem_brk, E, false⟩ []).bp := by
  have hb32 : s.heap_listp + 32 ≤ s.mem_brk := by
    have := Lay_le hw.lay.2.2.2
    simp only [pro] at this
    omega
  rcases prevFree_cases bs with ⟨hp, _⟩ | ⟨l, c, hl, hcf, hp⟩
  · simp only [merged, hp, nextFree_nil]
    exact ⟨trivial, le_refl _, fun a ha => Or.inr (Or.inr (by omega)), hb32⟩
  · simp only [merged, hp, nextFree_nil]
    have hcm : c ∈ bs := by rw [hl]; simp
    have hlay : Lay (s.heap_listp + 8) ((pro s :: l) ++ [c]) s.mem_brk := by
      have := hw.lay
      rw [hl] at this
      simpa using this
    have hlast := Lay_last hlay
    have hcl := Lay_mem hw.lay (List.mem_cons_of_mem _ hcm)
    refine ⟨trivial, by simp, fun a ha => ?_, hw.bp_ne_pro hcm⟩
    simp only at ha
    by_cases h1 : a < c.bp + c.size - 4
    · exact Or.inr (Or.inl ⟨c, hcm, hcf, by omega, h1⟩)
    · exact Or.inr (Or.inr (by omega))

theorem mm_malloc_zero (s : State) : mm_malloc s 0 = some (0, s) := by
  unfold mm_malloc
  rw [if_pos (le_refl 0)]

/-- `mm_malloc` when the free list has a fit: the first fit is placed and returned. -/
theorem mm_malloc_found {s : State} {live : List Nat} {bs : List Blk} {fl : List Nat} {n : Nat}
    (h : Inv s live bs fl) (h1 : 1 ≤ n) (hff : firstFit s.mem (adjust n) fl ≠ 0) :
    mm_malloc s n = some (firstFit s.mem (adjust n) fl,
      place s (firstFit s.mem (adjust n) fl) (adjust n))
    ∧ ∃ l1 c l2, bs = l1 ++ c :: l2 ∧ c.bp = firstFit s.mem (adjust n) fl
        ∧ c.alloc = false ∧ adjust n ≤ c.size := by
  constructor
  · unfold mm_malloc
    rw [if_neg (by omega)]
    simp only [find_fit_spec h]
    rw [if_pos hff]
  · have hw := h.wf
    rcases firstFit_mem s.mem (adjust n) fl with h0 | ⟨hm, hs⟩
    · exact absurd h0 hff
    · obtain ⟨c, hc, hcx⟩ := hw.sub _ hm
      have hcm : c ∈ pro s :: bs := List.mem_cons_of_mem _ hc
      have hct := hw.tags c hcm (List.not_mem_nil _)
      have hcl := Lay_mem hw.lay hcm
      have hcf : c.alloc = false := (h.free_iff c hc).1 (hcx ▸ hm)
      obtain ⟨l1, l2, hl⟩ := List.append_of_mem hc
      refine ⟨l1, c, l2, hl, hcx, hcf, ?_⟩
      rw [← hcx, (hct.reads hcl.2.2.1).1] at hs
      exact hs

/-- `mm_malloc` when the free list has no fit: the heap is extended. -/
theorem mm_malloc_notfound {s : State} {live : List Nat} {bs : List Blk} {fl : List Nat}
    {n : Nat} (h : Inv s live bs fl) (h1 : 1 ≤ n) (hff : firstFit s.mem (adjust n) fl = 0) :
    mm_malloc s n =
      if (extend_heap s (MAX (adjust n) CHUNKSIZE / WSIZE)).1 = 0 then
        some (0, (extend_heap s (MAX (adjust n) CHUNKSIZE / WSIZE)).2)
      else some ((extend_heap s (MAX (adjust n) CHUNKSIZE / WSIZE)).1,
        place (extend_heap s (MAX (adjust n) CHUNKSIZE / WSIZE)).2
          (extend_heap s (MAX (adjust n) CHUNKSIZE / WSIZE)).1 (adjust n)) := by
  unfold mm_malloc
  rw [if_neg (by omega)]
  simp only [find_fit_spec h, hff]
  simp

/-- The arena bounds after `mm_malloc`. -/
theorem mm_malloc_brk {s : State} {live : List Nat} {bs : List Blk} {fl : List Nat} {n : Nat}
    (h : Inv s live bs fl) (h1 : 1 ≤ n) {p : Nat} {s2 : State}
    (hm : mm_malloc s n = some (p, s2)) :
    s2.mem_start_brk = s.mem_start_brk ∧ s2.heap_listp = s.heap_listp
    ∧ s2.mem_max_addr = s.mem_max_addr
    ∧ ((firstFit s.mem (adjust n) fl ≠ 0 ∧ s2.mem_brk = s.mem_brk ∧ s2.sbrk_log = s.sbrk_log)
      ∨ (firstFit s.mem (adjust n) fl = 0
          ∧ s.mem_brk + MAX (adjust n) CHUNKSIZE > s.mem_max_addr ∧ p = 0
          ∧ s2.mem_brk = s.mem_brk
          ∧ s2.sbrk_log = MAX (adjust n) CHUNKSIZE :: s.sbrk_log)
      ∨ (firstFit s.mem (adjust n) fl = 0
          ∧ ¬ s.mem_brk + MAX (adjust n) CHUNKSIZE > s.mem_max_addr
          ∧ s2.mem_brk = s.mem_brk + MAX (adjust n) CHUNKSIZE
          ∧ s2.sbrk_log = MAX (adjust n) CHUNKSIZE :: s.sbrk_log)) := by
  obtain ⟨a3, a5⟩ := adjust_gen n
  obtain ⟨b1, b2, b3, b4⟩ := MAX_chunk a3 a5
  have hw := h.wf
  have hb32 : s.heap_listp + 32 ≤ s.mem_brk := by
    have := Lay_le hw.lay.2.2.2
    simp only [pro] at this
    omega
  by_cases hff : firstFit s.mem (adjust n) fl = 0
  · rw [mm_malloc_notfound h h1 hff] at hm
    by_cases hfit : s.mem_brk + MAX (adjust n) CHUNKSIZE > s.mem_max_addr
    · rw [extend_heap_fail b1 b2 b3 hfit] at hm
      simp only [if_true, Option.some.injEq, Prod.mk.injEq] at hm
      obtain ⟨rfl, rfl⟩ := hm
      exact ⟨rfl, rfl, rfl, Or.inr (Or.inl ⟨hff, hfit, rfl, rfl, rfl⟩)⟩
    · have he := extend_heap_ok_eq b1 b2 b3 hfit (by omega)
      have f1 : (extend_heap s (MAX (adjust n) CHUNKSIZE / WSIZE)).2.mem_brk
          = s.mem_brk + MAX (adjust n) CHUNKSIZE := by rw [he]; simp
      have f2 : (extend_heap s (MAX (adjust n) CHUNKSIZE / WSIZE)).2.mem_start_brk
          = s.mem_start_brk := by rw [he]; simp
      have f3 : (extend_heap s (MAX (adjust n) CHUNKSIZE / WSIZE)).2.heap_listp
          = s.heap_listp := by rw [he]; simp
      have f4 : (extend_heap s (MAX (adjust n) CHUNKSIZE / WSIZE)).2.mem_max_addr
          = s.mem_max_addr := by rw [he]; simp
      have f5 : (extend_heap s (MAX (adjust n) CHUNKSIZE / WSIZE)).2.sbrk_log
          = MAX (adjust n) CHUNKSIZE :: s.sbrk_log := by rw [he]; simp
      split at hm
      · simp only [Option.some.injEq, Prod.mk.injEq] at hm
        obtain ⟨_, rfl⟩ := hm
        exact ⟨f2, f3, f4, Or.inr (Or.inr ⟨hff, hfit, f1, f5⟩)⟩
      · simp only [Option.some.injEq, Prod.mk.injEq] at hm
        obtain ⟨_, rfl⟩ := hm
        obtain ⟨p1, p2, p3, p4, p5⟩ := place_fields
          (extend_heap s (MAX (adjust n) CHUNKSIZE / WSIZE)).2
          (extend_heap s (MAX (adjust n) CHUNKSIZE / WSIZE)).1 (adjust n)
        exact ⟨p3.trans f2, p1.trans f3, p4.trans f4,
          Or.inr (Or.inr ⟨hff, hfit, p2.trans f1, p5.trans f5⟩)⟩
  · rw [(mm_malloc_found h h1 hff).1] at hm
    simp only [Option.some.injEq, Prod.mk.injEq] at hm
    obtain ⟨_, rfl⟩ := hm
    obtain ⟨p1, p2, p3, p4, p5⟩ := place_fields s (firstFit s.mem (adjust n) fl) (adjust n)
    exact ⟨p3, p1, p4, Or.inl ⟨hff, p2, p5⟩⟩

theorem mergedChain_nil_mem {bs : List Blk} {x : Blk}
    (hx : x ∈ (match prevFree bs with
      | none => bs
      | some _ => bs.dropLast)) : x ∈ bs := by
  cases h : prevFree bs with
  | none => rw [h] at hx; exact hx
  | some c => rw [h] at hx; exact List.mem_of_mem_dropLast hx

/-- What `place` leaves at the placed block. -/
theorem placeChain_block (l1 : List Blk) (b : Blk) (l2 : List Blk) (asize : Nat)
    (hle : asize ≤ b.size) :
    ∃ b2 ∈ placeChain l1 b l2 asize, b2.bp = b.bp ∧ b2.alloc = true ∧ asize ≤ b2.size
      ∧ b2.size < asize + 24 ∧ b2.size ≤ b.size := by
  unfold placeChain
  by_cases hc : 24 ≤ b.size - asize
  · rw [if_pos hc]
    exact ⟨⟨b.bp, asize, true⟩, by simp, rfl, rfl, le_refl _, by simp, hle⟩
  · rw [if_neg hc]
    exact ⟨⟨b.bp, b.size, true⟩, by simp, rfl, rfl, hle, by simp; omega, le_refl _⟩

/-- `mm_malloc` keeps a valid heap valid; the block it returns is allocated, it has between
the adjusted size and 23 bytes more, and it is taken from bytes the allocator owned. -/
theorem mm_malloc_inv {s : State} {live : List Nat} {bs : List Blk} {fl : List Nat} {n : Nat}
    (h : Inv s live bs fl) (h1 : 1 ≤ n) (h2 : n ≤ 4294967280) {p : Nat} {s2 : State}
    (hm : mm_malloc s n = some (p, s2))
    (hsmall : s2.mem_brk - s2.mem_start_brk < 4294967296) :
    ∃ bs2 fl2, Inv s2 (if p = 0 then live else p :: live) bs2 fl2
      ∧ Mod (Owned s bs) s.mem s2.mem
      ∧ (p ≠ 0 → p ∉ live ∧ ∃ b2 ∈ bs2, b2.bp = p ∧ b2.alloc = true ∧ adjust n ≤ b2.size
          ∧ b2.size < adjust n + 24
          ∧ (∀ a, p - 4 ≤ a → a < p + b2.size - 4 → Owned s bs a)) := by
  obtain ⟨a1, a2, a3, a4, a5⟩ := adjust_eq h1 h2
  obtain ⟨b1, b2, b3, b4⟩ := MAX_chunk a3 a5
  have hw := h.wf
  obtain ⟨k1, k2, k3, k4⟩ := mm_malloc_brk h h1 hm
  by_cases hff : firstFit s.mem (adjust n) fl = 0
  · rw [mm_malloc_notfound h h1 hff] at hm
    by_cases hfit : s.mem_brk + MAX (adjust n) CHUNKSIZE > s.mem_max_addr
    · rw [extend_heap_fail b1 b2 b3 hfit] at hm
      simp only [if_true, Option.some.injEq, Prod.mk.injEq] at hm
      obtain ⟨rfl, rfl⟩ := hm
      refine ⟨bs, fl, ?_, fun _ _ => rfl, fun hh => absurd rfl hh⟩
      rw [if_pos rfl]
      exact h.congr rfl rfl rfl rfl rfl rfl rfl
    · have hbrk : s2.mem_brk = s.mem_brk + MAX (adjust n) CHUNKSIZE := by
        rcases k4 with k | k | k
        · exact absurd hff k.1
        · exact absurd k.2.1 hfit
        · exact k.2.2.1
      have hsm2 : s.mem_brk + MAX (adjust n) CHUNKSIZE - s.mem_start_brk < 4294967296 := by
        rw [← hbrk, ← k1]; exact hsmall
      have hlo := hw.lo_le
      have hb32 : s.heap_listp + 32 ≤ s.mem_brk := by
        have := Lay_le hw.lay.2.2.2
        simp only [pro] at this
        omega
      obtain ⟨e1, e2, e3, e4, e5, e6, e7, e8⟩ := extend_heap_ok h b1 b2 (by omega) hfit hsm2
      obtain ⟨mf1, mf2, mf3, mf4⟩ := merged_facts hw (MAX (adjust n) CHUNKSIZE)
      rw [if_neg (by rw [e2]; omega)] at hm
      simp only [Option.some.injEq, Prod.mk.injEq] at hm
      obtain ⟨hp, hs2⟩ := hm
      rw [e2] at hp hs2
      have e1b : Inv (extend_heap s (MAX (adjust n) CHUNKSIZE / WSIZE)).2 live
          ((match prevFree bs with
            | none => bs
            | some _ => bs.dropLast)
            ++ merged bs ⟨s.mem_brk, MAX (adjust n) CHUNKSIZE, false⟩ [] :: [])
          (mergedList fl bs ⟨s.mem_brk, MAX (adjust n) CHUNKSIZE, false⟩ []) := e1
      obtain ⟨q1, q2⟩ := @place_spec _ _ _ _ _ _ (adjust n) e1b mf1 a2 a3 (by omega)
      rw [hs2] at q1 q2
      rw [hp] at q1
      have hpn : p ≠ 0 := by rw [← hp]; omega
      obtain ⟨c2, hc2, hc3, hc4, hc5, hc6, hc7⟩ := placeChain_block
        (match prevFree bs with
          | none => bs
          | some _ => bs.dropLast)
        (merged bs ⟨s.mem_brk, MAX (adjust n) CHUNKSIZE, false⟩ []) [] (adjust n) (by omega)
      refine ⟨_, _, by rw [if_neg hpn]; exact q1, ?_, fun _ => ⟨?_, c2, hc2, hc3.trans hp, hc4, hc5,
        hc6, ?_⟩⟩
      · refine e3.trans (q2.mono (Owned_mono e6 (by rw [e4]; omega) ?_))
        intro c hc hcf a h3 h4
        rcases List.mem_append.1 hc with hc | hc
        · exact Or.inr (Or.inl ⟨c, mergedChain_nil_mem hc, hcf, h3, h4⟩)
        · rw [List.mem_singleton.1 hc] at h3
          exact mf3 a h3
      · exact (List.nodup_cons.1 q1.live_nodup).1
      · intro a h3 _
        rw [← hp] at h3
        exact mf3 a h3
  · obtain ⟨f1, l1, c, l2, hl, hcx, hcf, hcs⟩ := mm_malloc_found h h1 hff
    rw [f1] at hm
    simp only [Option.some.injEq, Prod.mk.injEq] at hm
    obtain ⟨hp, hs2⟩ := hm
    rw [← hcx] at hp hs2
    subst hl
    obtain ⟨q1, q2⟩ := @place_spec _ _ _ _ _ _ (adjust n) h hcf a2 a3 hcs
    rw [hs2] at q1 q2
    rw [hp] at q1
    have hcb : c ∈ l1 ++ c :: l2 := by simp
    have hcge := hw.bp_ne_pro hcb
    have hpn : p ≠ 0 := by rw [← hp]; omega
    obtain ⟨c2, hc2, hc3, hc4, hc5, hc6, hc7⟩ := placeChain_block l1 c l2 (adjust n) hcs
    refine ⟨_, _, by rw [if_neg hpn]; exact q1, q2, fun _ => ⟨?_, c2, hc2, hc3.trans hp, hc4,
      hc5, hc6, ?_⟩⟩
    · exact (List.nodup_cons.1 q1.live_nodup).1
    · intro a h3 h4
      rw [← hp] at h3 h4
      exact Or.inr (Or.inl ⟨c, hcb, hcf, h3, by omega⟩)

/-- `mm_malloc` returns on a valid heap. -/
theorem mm_malloc_total {s : State} {live : List Nat} {bs : List Blk} {fl : List Nat}
    (h : Inv s live bs fl) (n : Nat) : ∃ p s2, mm_malloc s n = some (p, s2) := by
  by_cases h0 : n = 0
  · subst h0; exact ⟨_, _, mm_malloc_zero s⟩
  · by_cases hff : firstFit s.mem (adjust n) fl = 0
    · rw [mm_malloc_notfound h (by omega) hff]
      split
      · exact ⟨_, _, rfl⟩
      · exact ⟨_, _, rfl⟩
    · exact ⟨_, _, (mm_malloc_found h (by omega) hff).1⟩


/-! ## `mm_init` -/

theorem mm_init_first_fail {s0 : State} (h : s0.mem_brk + 32 > s0.mem_max_addr) :
    (mm_init s0).1 = -1 := by
  unfold mm_init
  simp only [mem_sbrk, MINSIZE, ALIGNMENT]
  rw [if_pos h]

theorem mm_init_eq {s0 : State} (h : ¬ s0.mem_brk + 32 > s0.mem_max_addr) :
    mm_init s0 = (if (extend_heap (initState s0) (4096 / WSIZE)).1 = 0 then -1 else 0,
      (extend_heap (initState s0) (4096 / WSIZE)).2) := by
  unfold mm_init
  simp only [mem_sbrk, MINSIZE, ALIGNMENT]
  rw [if_neg h]
  simp only [initState, WSIZE, DSIZE, CHUNKSIZE]
  have e : PACK 24 1 = 25 := by decide
  have e2 : PACK 0 1 = 1 := by decide
  rw [e, e2]
  split <;> rfl

/-- The heap is valid when `mm_init` calls `extend_heap`. -/
theorem initState_inv {s0 : State} (h64 : s0.mem_max_addr < 18446744073709551616)
    (hlo : s0.mem_start_brk ≤ s0.mem_brk) (hal : (s0.mem_brk - s0.mem_start_brk) % 8 = 0)
    (hfit : ¬ s0.mem_brk + 32 > s0.mem_max_addr)
    (hsmall : s0.mem_brk + 32 - s0.mem_start_brk < 4294967296) :
    Inv (initState s0) [] [] [] := by
  refine ⟨⟨?_, ?_, ?_, hlo, hal, hsmall, ⟨by show s0.mem_brk + 32 ≤ s0.mem_max_addr; omega, h64⟩,
    rfl, ?_, List.nodup_nil, rfl⟩, ?_, List.chain'_singleton _, ?_, List.nodup_nil⟩
  · refine ⟨rfl, ?_, ?_, ?_⟩
    · show 24 % 8 = 0
      decide
    · show 24 ≤ 24
      decide
    · show s0.mem_brk + 8 + 24 = s0.mem_brk + 32
      omega
  · intro b hb _
    rw [List.mem_singleton.1 hb]
    constructor
    · show GET (PUT (PUT (PUT (PUT s0.mem s0.mem_brk 0) (s0.mem_brk + 4) 25) (s0.mem_brk + 24) 25)
        (s0.mem_brk + 28) 1) (s0.mem_brk + 8 - 4) = 25
      have e : s0.mem_brk + 8 - 4 = s0.mem_brk + 4 := by omega
      rw [e, GET_PUT_disj _ _ _ _ (by omega), GET_PUT_disj _ _ _ _ (by omega), GET_PUT_same]
    · show GET (PUT (PUT (PUT (PUT s0.mem s0.mem_brk 0) (s0.mem_brk + 4) 25) (s0.mem_brk + 24) 25)
        (s0.mem_brk + 28) 1) (s0.mem_brk + 8 + 24 - 8) = 25
      have e : s0.mem_brk + 8 + 24 - 8 = s0.mem_brk + 24 := by omega
      rw [e, GET_PUT_disj _ _ _ _ (by omega), GET_PUT_same]
  · show GET (PUT (PUT (PUT (PUT s0.mem s0.mem_brk 0) (s0.mem_brk + 4) 25) (s0.mem_brk + 24) 25)
      (s0.mem_brk + 28) 1) (s0.mem_brk + 32 - 4) = 1
    have e : s0.mem_brk + 32 - 4 = s0.mem_brk + 28 := by omega
    rw [e, GET_PUT_same]
  · intro x hx; simp at hx
  · intro b hb; simp at hb
  · intro p; simp

/-- A successful `mm_init` leaves a valid heap: one free block of 4096 bytes. -/
theorem mm_init_inv {s0 : State} (h64 : s0.mem_max_addr < 18446744073709551616)
    (hlo : s0.mem_start_brk ≤ s0.mem_brk) (hal : (s0.mem_brk - s0.mem_start_brk) % 8 = 0)
    (hok : (mm_init s0).1 = 0)
    (hsmall : (mm_init s0).2.mem_brk - (mm_init s0).2.mem_start_brk < 4294967296) :
    Inv (mm_init s0).2 [] [⟨s0.mem_brk + 32, 4096, false⟩] [s0.mem_brk + 32]
    ∧ (mm_init s0).2.heap_listp = s0.mem_brk
    ∧ (mm_init s0).2.mem_brk = s0.mem_brk + 32 + 4096 := by
  have hfit : ¬ s0.mem_brk + 32 > s0.mem_max_addr := by
    intro hh
    rw [mm_init_first_fail hh] at hok
    exact absurd hok (by decide)
  rw [mm_init_eq hfit] at hok hsmall ⊢
  simp only at hok hsmall ⊢
  have hfit2 : ¬ (initState s0).mem_brk + 4096 > (initState s0).mem_max_addr := by
    intro hh
    rw [extend_heap_fail (by decide) (by decide) (by decide) hh] at hok
    simp at hok
  have hbrk : (extend_heap (initState s0) (4096 / WSIZE)).2.mem_brk = s0.mem_brk + 32 + 4096 := by
    rw [extend_heap_ok_eq (by decide) (by decide) (by decide) hfit2
      (by show 4 ≤ s0.mem_brk + 32; omega)]
    simp [initState]
  have hst : (extend_heap (initState s0) (4096 / WSIZE)).2.mem_start_brk = s0.mem_start_brk := by
    rw [extend_heap_ok_eq (by decide) (by decide) (by decide) hfit2
      (by show 4 ≤ s0.mem_brk + 32; omega)]
    simp [initState]
  rw [hbrk, hst] at hsmall
  have hi := initState_inv h64 hlo hal hfit (by omega)
  obtain ⟨e1, e2, e3, e4, e5, e6, e7, e8⟩ := extend_heap_ok (E := 4096) hi (by decide) (by decide)
    (by decide) hfit2 (by show s0.mem_brk + 32 + 4096 - s0.mem_start_brk < 4294967296; omega)
  exact ⟨e1, e6, hbrk⟩


/-! ## Every reachable state is valid -/

theorem reach_inv {s : State} {live : List Nat} (h : Reach s live) :
    ∃ bs fl, Inv s live bs fl := by
  induction h with
  | init s0 h64 hlo hal hok hsmall =>
    exact ⟨_, _, (mm_init_inv h64 hlo hal hok hsmall).1⟩
  | malloc s live n p s2 _ h1 h2 hm hsmall ih =>
    obtain ⟨bs, fl, hi⟩ := ih
    obtain ⟨bs2, fl2, h3, _⟩ := mm_malloc_inv hi h1 h2 hm hsmall
    exact ⟨bs2, fl2, h3⟩
  | free s live p _ hp ih =>
    obtain ⟨bs, fl, hi⟩ := ih
    obtain ⟨b, hb, hbp, hba⟩ := (hi.live_iff p).1 hp
    obtain ⟨l1, l2, rfl⟩ := List.append_of_mem hb
    subst hbp
    exact ⟨_, _, (mm_free_spec hi hba).1⟩


/-! ## The walks over the chain and over the free list -/

theorem chain_iter {m : Mem} {a e : Nat} {L : List Blk} (hl : Lay a L e)
    (ht : ∀ b ∈ L, TagOK m b) :
    (∀ k b, L[k]? = some b → (NEXT_BLKP m)^[k] a = b.bp)
    ∧ (NEXT_BLKP m)^[L.length] a = e := by
  induction L generalizing a with
  | nil =>
    simp only [Lay] at hl
    exact ⟨fun k b hk => by simp at hk, by simpa using hl⟩
  | cons c r ih =>
    obtain ⟨h1, h2, h3, h4⟩ := hl
    have hc := ht c (List.mem_cons_self _ _)
    have hn : NEXT_BLKP m a = a + c.size := by
      rw [← h1]; exact (hc.reads h2).2.2.2.1
    obtain ⟨i1, i2⟩ := ih h4 (fun b hb => ht b (List.mem_cons_of_mem _ hb))
    refine ⟨fun k b hk => ?_, ?_⟩
    · cases k with
      | zero =>
        simp only [List.getElem?_cons_zero, Option.some.injEq] at hk
        rw [← hk]; exact h1.symm
      | succ k =>
        rw [List.getElem?_cons_succ] at hk
        rw [Function.iterate_succ_apply, hn]
        exact i1 k b hk
    · rw [List.length_cons, Function.iterate_succ_apply, hn]
      exact i2

theorem seg_iter {m : Mem} {l : List Nat} {prev cur e : Nat} (h : Seg m prev cur l e) :
    (∀ k x, l[k]? = some x → (NEXT_FREE m)^[k] cur = x
      ∧ PREV_FREE m x = (if k = 0 then prev else (NEXT_FREE m)^[k - 1] cur))
    ∧ (NEXT_FREE m)^[l.length] cur = e := by
  induction l generalizing prev cur with
  | nil =>
    simp only [Seg] at h
    exact ⟨fun k x hk => by simp at hk, by simpa using h⟩
  | cons y r ih =>
    obtain ⟨h1, h2, h3⟩ := h
    subst h1
    obtain ⟨i1, i2⟩ := ih h3
    have hn : NEXT_FREE m cur = GETP m (cur + 8) := rfl
    refine ⟨fun k x hk => ?_, ?_⟩
    · cases k with
      | zero =>
        simp only [List.getElem?_cons_zero, Option.some.injEq] at hk
        subst hk
        exact ⟨rfl, h2⟩
      | succ k =>
        rw [List.getElem?_cons_succ] at hk
        obtain ⟨j1, j2⟩ := i1 k x hk
        rw [Function.iterate_succ_apply, hn]
        refine ⟨j1, ?_⟩
        rw [j2]
        cases k with
        | zero => simp
        | succ k =>
          simp only [Nat.add_one_ne_zero, if_false, Nat.add_sub_cancel]
          rw [Function.iterate_succ_apply, hn]
    · rw [List.length_cons, Function.iterate_succ_apply, hn]
      exact i2

/-- In a valid heap the walk from `free_listp` visits the nodes of `fl` and then the
prologue. -/
theorem Inv.nodes {s : State} {live : List Nat} {bs : List Blk} {fl : List Nat}
    (h : Inv s live bs fl) :
    (∀ k x, fl[k]? = some x → nodeAt s k = x ∧ GET_ALLOC s.mem (HDRP x) = 0
      ∧ PREV_FREE s.mem x = (if k = 0 then 0 else nodeAt s (k - 1)))
    ∧ nodeAt s fl.length = s.heap_listp + 8
    ∧ GET_ALLOC s.mem (HDRP (s.heap_listp + 8)) = 1 := by
  have hw := h.wf
  obtain ⟨i1, i2⟩ := seg_iter hw.list
  refine ⟨fun k x hk => ?_, i2, ?_⟩
  · obtain ⟨j1, j2⟩ := i1 k x hk
    refine ⟨j1, ?_, j2⟩
    have hx := List.getElem?_mem hk
    obtain ⟨b, hb, hbx⟩ := hw.sub x hx
    have hbm : b ∈ pro s :: bs := List.mem_cons_of_mem _ hb
    have hbt := hw.tags b hbm (List.not_mem_nil _)
    have hbl := Lay_mem hw.lay hbm
    have hbf : b.alloc = false := (h.free_iff b hb).1 (hbx ▸ hx)
    have := (hbt.reads hbl.2.2.1).2.1
    rw [hbx, hbf] at this
    simpa using this
  · have hp := hw.tags (pro s) (pro_mem s bs) (List.not_mem_nil _)
    have := (hp.reads (by simp [pro])).2.1
    simpa [pro] using this

theorem Inv.onFreeList {s : State} {live : List Nat} {bs : List Blk} {fl : List Nat}
    (h : Inv s live bs fl) (x : Nat) : OnFreeList s x ↔ x ∈ fl := by
  obtain ⟨n1, n2, n3⟩ := h.nodes
  constructor
  · rintro ⟨k, hk, hfree⟩
    by_cases hkl : k < fl.length
    · have := (n1 k fl[k] (List.getElem?_eq_getElem hkl)).1
      rw [← hk, this]
      exact List.getElem_mem _
    · have := hfree fl.length (by omega)
      rw [n2, n3] at this
      exact absurd this (by decide)
  · intro hx
    obtain ⟨k, hk⟩ := List.mem_iff_getElem?.1 hx
    refine ⟨k, (n1 k x hk).1, fun i hi => ?_⟩
    have hkl : k < fl.length := (List.getElem?_eq_some.1 hk).1
    have hil : i < fl.length := by omega
    obtain ⟨j1, j2, _⟩ := n1 i fl[i] (List.getElem?_eq_getElem hil)
    rw [j1]; exact j2

/-- In a valid heap the walk from the prologue visits the blocks of the chain and then the
epilogue. -/
theorem Inv.blocks {s : State} {live : List Nat} {bs : List Blk} {fl : List Nat}
    (h : Inv s live bs fl) :
    (∀ k b, (pro s :: bs)[k]? = some b → blockAt s k = b.bp)
    ∧ blockAt s (bs.length + 1) = s.mem_brk := by
  have hw := h.wf
  obtain ⟨i1, i2⟩ := chain_iter (m := s.mem) hw.lay (fun b hb => hw.tags b hb (List.not_mem_nil _))
  exact ⟨i1, i2⟩



/-! ## A concrete run -/

theorem reach_heap0 : Reach heap0 [] :=
  Reach.init fresh (by decide) (by decide) (by decide) (by decide) (by decide)

theorem reach_heapA : Reach heapA [4128] :=
  Reach.malloc heap0 [] 16 4128 heapA reach_heap0 (by decide) (by decide) rfl (by decide)

theorem reach_heapAB : Reach heapAB [4152, 4128] :=
  Reach.malloc heapA [4128] 16 4152 heapAB reach_heapA (by decide) (by decide) rfl (by decide)

theorem reach_heapABC : Reach heapABC [4176, 4152, 4128] :=
  Reach.malloc heapAB [4152, 4128] 16 4176 heapABC reach_heapAB (by decide) (by decide) rfl
    (by decide)

theorem reach_freeB : Reach heapFB [4176, 4128] :=
  Reach.free heapABC [4176, 4152, 4128] 4152 reach_heapABC (by decide)

theorem reach_heapT : Reach heapT [] :=
  Reach.init tiny (by decide) (by decide) (by decide) (by decide) (by decide)

/-! ## The claims about reachable states -/

theorem chain_getElem {R : Blk → Blk → Prop} {L : List Blk} (h : L.Chain' R) :
    ∀ k b c, L[k]? = some b → L[k + 1]? = some c → R b c := by
  induction L with
  | nil => intro k b c hb; simp at hb
  | cons x r ih =>
    intro k b c hb hc
    cases k with
    | zero =>
      simp only [List.getElem?_cons_zero, Option.some.injEq] at hb
      rw [List.getElem?_cons_succ] at hc
      subst hb
      cases r with
      | nil => simp at hc
      | cons y r2 =>
        simp only [List.getElem?_cons_zero, Option.some.injEq] at hc
        subst hc
        exact (List.chain'_cons.1 h).1
    | succ k =>
      rw [List.getElem?_cons_succ] at hb hc
      exact ih (List.chain'_cons'.1 h).2 k b c hb hc

/-- What the walk from the prologue reads at the blocks of a valid heap. -/
theorem Inv.walk {s : State} {live : List Nat} {bs : List Blk} {fl : List Nat}
    (h : Inv s live bs fl) :
    blockAt s (bs.length + 1) = s.mem_brk
    ∧ GET s.mem (HDRP (blockAt s (bs.length + 1))) = PACK 0 1
    ∧ HDRP (blockAt s (bs.length + 1)) + WSIZE = s.mem_brk
    ∧ ∀ k, k < bs.length + 1 → ∃ b, (pro s :: bs)[k]? = some b ∧ blockAt s k = b.bp
        ∧ GET_SIZE s.mem (HDRP b.bp) = b.size
        ∧ GET_ALLOC s.mem (HDRP b.bp) = (if b.alloc then 1 else 0)
        ∧ GET s.mem (FTRP s.mem b.bp) = GET s.mem (HDRP b.bp)
        ∧ b.size % 8 = 0 ∧ 24 ≤ b.size ∧ (b.bp - s.mem_start_brk) % 8 = 0
        ∧ s.mem_start_brk ≤ b.bp ∧ b.bp + b.size ≤ s.mem_brk := by
  have hw := h.wf
  obtain ⟨i1, i2⟩ := h.blocks
  have hb32 : s.heap_listp + 32 ≤ s.mem_brk := by
    have := Lay_le hw.lay.2.2.2
    simp only [pro] at this
    omega
  refine ⟨i2, ?_, ?_, fun k hk => ?_⟩
  · rw [i2]
    have : PACK 0 1 = 1 := rfl
    rw [this]
    exact hw.epi
  · rw [i2]; simp only [HDRP, WSIZE]; omega
  · have hk2 : k < (pro s :: bs).length := by simpa using hk
    refine ⟨(pro s :: bs)[k], List.getElem?_eq_getElem hk2, i1 k _ (List.getElem?_eq_getElem hk2),
      ?_⟩
    have hbm : (pro s :: bs)[k] ∈ pro s :: bs := List.getElem_mem _
    have hbt := hw.tags _ hbm (List.not_mem_nil _)
    have hbl := Lay_mem hw.lay hbm
    obtain ⟨r1, r2, r3, r4, r5⟩ := hbt.reads hbl.2.2.1
    have hlo := hw.lo_le
    have hal := hw.al8
    refine ⟨r1, r2, ?_, hbl.2.2.1, hbl.2.2.2.1, by omega, by omega, hbl.2.1⟩
    rw [r5, hbt.2]
    simp only [HDRP, WSIZE]
    rw [hbt.1]

/-- C3: in every state reached from a successful `mm_init` by valid `mm_malloc` and `mm_free`
calls, the walk by physical adjacency from the prologue reaches the epilogue header (the last
word of the arena) after some number `n` of blocks, and no two consecutive blocks of that
walk, the epilogue included, are both marked free. -/
theorem no_adjacent_free_blocks (s : State) (live : List Nat) (h : Reach s live) :
    ∃ n, blockAt s n = s.mem_brk ∧ GET s.mem (HDRP (blockAt s n)) = PACK 0 1
      ∧ ∀ k, k < n → ¬ (GET_ALLOC s.mem (HDRP (blockAt s k)) = 0
          ∧ GET_ALLOC s.mem (HDRP (blockAt s (k + 1))) = 0) := by
  obtain ⟨bs, fl, hi⟩ := reach_inv h
  obtain ⟨w1, w2, w3, w4⟩ := hi.walk
  refine ⟨bs.length + 1, w1, w2, fun k hk => ?_⟩
  obtain ⟨b, hb, hbk, _, hba, _⟩ := w4 k hk
  rintro ⟨h1, h2⟩
  rw [hbk, hba] at h1
  have hbf : b.alloc = false := by
    cases hb0 : b.alloc
    · rfl
    · rw [hb0] at h1; simp at h1
  by_cases hk2 : k + 1 < bs.length + 1
  · obtain ⟨c, hc, hck, _, hca, _⟩ := w4 (k + 1) hk2
    rw [hck, hca] at h2
    have hcf : c.alloc = false := by
      cases hc0 : c.alloc
      · rfl
      · rw [hc0] at h2; simp at h2
    have := chain_getElem hi.noadj k b c hb hc
    rw [hbf, hcf] at this
    simp at this
  · have e : k + 1 = bs.length + 1 := by omega
    rw [e, GET_ALLOC_eq, w2] at h2
    have : PACK 0 1 = 1 := rfl
    rw [this] at h2
    simp at h2

/-- C4: in every state reached from a successful `mm_init` by valid `mm_malloc` and `mm_free`
calls, following `NEXT_BLKP` from the prologue reaches the zero-size allocated epilogue header
in the last word of the arena, and every block on the way has a payload offset from the arena
base that is a multiple of 8, a size that is a multiple of 8 and at least `MINSIZE`, and a
footer word equal to its header word. -/
theorem blocks_well_formed (s : State) (live : List Nat) (h : Reach s live) :
    ∃ n, GET s.mem (HDRP (blockAt s n)) = PACK 0 1
      ∧ HDRP (blockAt s n) + WSIZE = s.mem_brk
      ∧ ∀ k, k < n →
          s.mem_start_brk ≤ blockAt s k
          ∧ (blockAt s k - s.mem_start_brk) % 8 = 0
          ∧ GET_SIZE s.mem (HDRP (blockAt s k)) % 8 = 0
          ∧ MINSIZE ≤ GET_SIZE s.mem (HDRP (blockAt s k))
          ∧ GET s.mem (FTRP s.mem (blockAt s k)) = GET s.mem (HDRP (blockAt s k)) := by
  obtain ⟨bs, fl, hi⟩ := reach_inv h
  obtain ⟨w1, w2, w3, w4⟩ := hi.walk
  refine ⟨bs.length + 1, w2, w3, fun k hk => ?_⟩
  obtain ⟨b, hb, hbk, h1, h2, h3, h4, h5, h6, h7, h8⟩ := w4 k hk
  rw [hbk, h1]
  exact ⟨h7, h6, h4, h5, h3⟩

/-- C5 (amended): in every state reached from a successful `mm_init` by valid `mm_malloc` and
`mm_free` calls (sizes between 1 and `2^32 - 16`, the arena staying below `2^32` bytes,
`mm_free` only on currently allocated addresses),
following `NEXT_FREE` from `free_listp` reaches the allocated prologue sentinel after
some number `k` of nodes; the nodes before it are marked free, pairwise distinct, each has
for `PREV_FREE` the node before it (`NULL` for the head), and they are exactly the free blocks
of the physical chain (the blocks before the epilogue, reached after `n` blocks). -/
theorem free_list_invariant (s : State) (live : List Nat) (h : Reach s live) :
    ∃ k n, nodeAt s k = s.heap_listp + DSIZE
      ∧ GET_ALLOC s.mem (HDRP (s.heap_listp + DSIZE)) = 1
      ∧ HDRP (blockAt s n) + WSIZE = s.mem_brk
      ∧ (∀ i, i < k → GET_ALLOC s.mem (HDRP (nodeAt s i)) = 0)
      ∧ (∀ i j, i < k → j < k → nodeAt s i = nodeAt s j → i = j)
      ∧ (∀ i, i < k → PREV_FREE s.mem (nodeAt s i) = if i = 0 then 0 else nodeAt s (i - 1))
      ∧ (∀ bp, (∃ i, i < k ∧ nodeAt s i = bp) ↔
          (∃ j, j < n ∧ blockAt s j = bp ∧ GET_ALLOC s.mem (HDRP bp) = 0)) := by
  obtain ⟨bs, fl, hi⟩ := reach_inv h
  obtain ⟨w1, w2, w3, w4⟩ := hi.walk
  obtain ⟨n1, n2, n3⟩ := hi.nodes
  have hw := hi.wf
  have hnode : ∀ i (hi2 : i < fl.length), nodeAt s i = fl[i] :=
    fun i hi2 => (n1 i fl[i] (List.getElem?_eq_getElem hi2)).1
  refine ⟨fl.length, bs.length + 1, n2, n3, w3, fun i hi2 => ?_, fun i j hi2 hj2 hij => ?_,
    fun i hi2 => ?_, fun bp => ?_⟩
  · obtain ⟨j1, j2, _⟩ := n1 i fl[i] (List.getElem?_eq_getElem hi2)
    rw [j1]; exact j2
  · rw [hnode i hi2, hnode j hj2] at hij
    exact (List.Nodup.getElem_inj_iff hw.nodup).1 hij
  · obtain ⟨j1, _, j3⟩ := n1 i fl[i] (List.getElem?_eq_getElem hi2)
    rw [j1]; exact j3
  · constructor
    · rintro ⟨i, hi2, hib⟩
      rw [hnode i hi2] at hib
      have hmem : bp ∈ fl := hib ▸ List.getElem_mem _
      obtain ⟨b, hb, hbx⟩ := hw.sub bp hmem
      have hbf : b.alloc = false := (hi.free_iff b hb).1 (hbx ▸ hmem)
      obtain ⟨j, hj⟩ := List.mem_iff_getElem?.1 (List.mem_cons_of_mem (pro s) hb)
      have hjl : j < bs.length + 1 := by
        have := (List.getElem?_eq_some.1 hj).1
        simpa using this
      obtain ⟨b2, hb2, hbk, _, hba, _⟩ := w4 j hjl
      rw [hj] at hb2
      obtain rfl := Option.some.inj hb2
      refine ⟨j, hjl, hbk.trans hbx, ?_⟩
      rw [← hbx, hba, hbf]
      simp
    · rintro ⟨j, hj, hjb, hjf⟩
      obtain ⟨b, hb, hbk, _, hba, _⟩ := w4 j hj
      rw [hjb] at hbk
      rw [hbk, hba] at hjf
      have hbf : b.alloc = false := by
        cases hb0 : b.alloc
        · rfl
        · rw [hb0] at hjf; simp at hjf
      have hbm := List.getElem?_mem hb
      have hbs : b ∈ bs := by
        rcases List.mem_cons.1 hbm with hh | hh
        · rw [hh] at hbf; simp [pro] at hbf
        · exact hh
      have hmem : b.bp ∈ fl := (hi.free_iff b hbs).2 hbf
      obtain ⟨i, hi3⟩ := List.mem_iff_getElem?.1 hmem
      have hil : i < fl.length := (List.getElem?_eq_some.1 hi3).1
      exact ⟨i, hil, by rw [(n1 i _ hi3).1, hbk]⟩


/-- A payload byte of a block of the chain is not owned by the allocator, as long as the
free blocks counted are other blocks of the chain. -/
theorem payload_not_owned {s : State} {bs mid : List Blk} {fl : List Nat} (hw : HInv s bs mid fl)
    {c : Blk} (hc : c ∈ bs) {bs2 : List Blk}
    (hbs2 : ∀ d ∈ bs2, d.alloc = false → ∃ d0 ∈ bs, d0.bp ≠ c.bp ∧ d0.bp = d.bp
      ∧ d0.size = d.size)
    {a : Nat} (h1 : c.bp ≤ a) (h2 : a < c.bp + c.size - 8) : ¬ Owned s bs2 a := by
  have hcm : c ∈ pro s :: bs := List.mem_cons_of_mem _ hc
  have hcl := Lay_mem hw.lay hcm
  have hcp := hw.bp_ne_pro hc
  rintro (h3 | ⟨d, hd, hdf, h4, h5⟩ | h3)
  · omega
  · obtain ⟨d0, hd0, hne, e1, e2⟩ := hbs2 d hd hdf
    have hdm : d0 ∈ pro s :: bs := List.mem_cons_of_mem _ hd0
    have hdl := Lay_mem hw.lay hdm
    rcases Lay_disj hw.lay hcm hdm with h6 | h6 | h6
    · exact hne (by rw [h6])
    · omega
    · omega
  · omega

/-- C2: in every state reached from a successful `mm_init` by valid `mm_malloc` and `mm_free`
calls, a call to `mm_malloc` (size between 1 and `2^32 - 16`, arena below `2^32` bytes after
it) or to `mm_free` (on a live address) changes no payload byte of a block that `mm_malloc`
returned and that is allocated before and after the call; and the payload range
`[p, p + size - 8)` of the block that `mm_malloc` returns lies inside the arena and contains
no payload byte of a block that was already allocated. -/
theorem payload_frame (s : State) (live : List Nat) (h : Reach s live) :
    (∀ n p s2, 1 ≤ n → n ≤ 4294967280 → mm_malloc s n = some (p, s2) →
      s2.mem_brk - s2.mem_start_brk < 4294967296 →
        (∀ q ∈ live, ∀ a, q ≤ a → a < q + GET_SIZE s.mem (HDRP q) - DSIZE → s2.mem a = s.mem a)
        ∧ (p ≠ 0 → s2.mem_start_brk ≤ p
            ∧ p + GET_SIZE s2.mem (HDRP p) - DSIZE ≤ s2.mem_brk
            ∧ ∀ q ∈ live, ∀ a, q ≤ a → a < q + GET_SIZE s.mem (HDRP q) - DSIZE →
                ¬ (p ≤ a ∧ a < p + GET_SIZE s2.mem (HDRP p) - DSIZE)))
    ∧ (∀ p ∈ live, ∀ q ∈ live, q ≠ p → ∀ a, q ≤ a →
        a < q + GET_SIZE s.mem (HDRP q) - DSIZE → (mm_free s p).mem a = s.mem a) := by
  obtain ⟨bs, fl, hi⟩ := reach_inv h
  have hw := hi.wf
  -- the payload of a live block
  have hlive : ∀ q ∈ live, ∃ c ∈ bs, c.bp = q ∧ c.alloc = true
      ∧ GET_SIZE s.mem (HDRP q) = c.size := by
    intro q hq
    obtain ⟨c, hc, hcq, hca⟩ := (hi.live_iff q).1 hq
    have hcm : c ∈ pro s :: bs := List.mem_cons_of_mem _ hc
    have hct := hw.tags c hcm (List.not_mem_nil _)
    have hcl := Lay_mem hw.lay hcm
    exact ⟨c, hc, hcq, hca, by rw [← hcq]; exact (hct.reads hcl.2.2.1).1⟩
  have hno : ∀ q ∈ live, ∀ a, q ≤ a → a < q + GET_SIZE s.mem (HDRP q) - DSIZE →
      ¬ Owned s bs a := by
    intro q hq a h1 h2
    obtain ⟨c, hc, hcq, hca, hcs⟩ := hlive q hq
    rw [hcs, ← hcq] at h2
    rw [← hcq] at h1
    refine payload_not_owned hw hc (fun d hd hdf => ⟨d, hd, fun hh => ?_, rfl, rfl⟩) h1 h2
    have := Lay_bp_inj hw.lay (List.mem_cons_of_mem _ hd) (List.mem_cons_of_mem _ hc) hh
    rw [this, hca] at hdf
    exact absurd hdf (by simp)
  refine ⟨fun n p s2 h1 h2 hm hsmall => ?_, fun p hp q hq hqp a h1 h2 => ?_⟩
  · obtain ⟨bs2, fl2, i2, m2, hp2⟩ := mm_malloc_inv hi h1 h2 hm hsmall
    refine ⟨fun q hq a h3 h4 => m2 a (hno q hq a h3 h4), fun hpn => ?_⟩
    obtain ⟨_, b2, hb2, hbp, hba, hs1, hs2, hown⟩ := hp2 hpn
    have hw2 := i2.wf
    have hbm : b2 ∈ pro s2 :: bs2 := List.mem_cons_of_mem _ hb2
    have hbt := hw2.tags b2 hbm (List.not_mem_nil _)
    have hbl := Lay_mem hw2.lay hbm
    have hsz : GET_SIZE s2.mem (HDRP p) = b2.size := by
      rw [← hbp]; exact (hbt.reads hbl.2.2.1).1
    have hge := hw2.bp_ne_pro hb2
    have hlo := hw2.lo_le
    rw [hsz]
    simp only [DSIZE]
    refine ⟨by omega, by omega, fun q hq a h3 h4 h5 => ?_⟩
    exact hno q hq a h3 h4 (hown a (by omega) (by omega))
  · obtain ⟨b, hb, hbp, hba⟩ := (hi.live_iff p).1 hp
    obtain ⟨l1, l2, hl⟩ := List.append_of_mem hb
    subst hl
    subst hbp
    obtain ⟨_, m2⟩ := mm_free_spec hi hba
    apply m2
    obtain ⟨c, hc, hcq, hca, hcs⟩ := hlive q hq
    rw [hcs, ← hcq] at h2
    rw [← hcq] at h1
    refine payload_not_owned hw hc (fun d hd hdf => ?_) h1 h2
    simp only [List.mem_append, List.mem_cons] at hd
    have hne : ∀ d0 ∈ l1 ++ b :: l2, d0.alloc = false → d0.bp ≠ c.bp := by
      intro d0 hd0 hf hh
      have := Lay_bp_inj hw.lay (List.mem_cons_of_mem _ hd0) (List.mem_cons_of_mem _ hc) hh
      rw [this, hca] at hf
      exact absurd hf (by simp)
    rcases hd with hd | hd | hd
    · exact ⟨d, by simp [hd], hne d (by simp [hd]) hdf, rfl, rfl⟩
    · subst hd
      exact ⟨b, by simp, fun hh => hqp (hcq ▸ hh.symm), rfl, rfl⟩
    · exact ⟨d, by simp [hd], hne d (by simp [hd]) hdf, rfl, rfl⟩

/-- Witness of C2 on the heap after two `mm_malloc(16)`: freeing the first block and a third
`mm_malloc(16)` leave the payload of the second block alone. -/
theorem payload_frame_witness :
    Reach heapAB [4152, 4128]
    ∧ (∀ a, 4152 ≤ a → a < 4152 + 16 → (mm_free heapAB 4128).mem a = heapAB.mem a)
    ∧ (∀ a, 4152 ≤ a → a < 4152 + 16 → heapABC.mem a = heapAB.mem a) :=
  ⟨reach_heapAB,
    fun a h1 h2 => (payload_frame heapAB [4152, 4128] reach_heapAB).2 4128 (by decide) 4152
      (by decide) (by decide) a h1 (by
        have e : GET_SIZE heapAB.mem (HDRP 4152) = 24 := by decide
        rw [e]; exact h2),
    fun a h1 h2 => ((payload_frame heapAB [4152, 4128] reach_heapAB).1 16 4176 heapABC
      (by decide) (by decide) rfl (by decide)).1 4152 (by decide) a h1 (by
        have e : GET_SIZE heapAB.mem (HDRP 4152) = 24 := by decide
        rw [e]; exact h2)⟩


/-- C6: `coalesce(bp)` on a block `b` that is marked free and not yet on the free list, in a
well-formed heap (chain `l1`, `b`, `l2`; free list `fl`, made of free blocks) whose free
physical neighbours of `b` are on the free list, returns `bp` when the previous block is
allocated and `PREV_BLKP(bp)` when it is free; the size of the returned block is the size of
`b` plus the sizes of its free neighbours; its header and footer are `PACK(size, 0)`; the heap
stays well formed, with the returned block as head of the free list, on which it appears
once, and a merged-away next block is no longer on the list. -/
theorem coalesce_correct (s : State) (l1 l2 : List Blk) (b : Blk) (fl : List Nat)
    (hwf : WInv s (l1 ++ b :: l2) fl) (hbf : b.alloc = false) (hbn : b.bp ∉ fl)
    (hfree : ∀ x ∈ fl, ∃ c ∈ l1 ++ b :: l2, c.bp = x ∧ c.alloc = false)
    (hprev : ∀ c, prevFree l1 = some c → c.bp ∈ fl)
    (hnext : ∀ d, nextFree l2 = some d → d.bp ∈ fl) :
    (GET_ALLOC s.mem (HDRP (PREV_BLKP s.mem b.bp)) ≠ 0 → (coalesce s b.bp).1 = b.bp)
    ∧ (GET_ALLOC s.mem (HDRP (PREV_BLKP s.mem b.bp)) = 0 →
        (coalesce s b.bp).1 = PREV_BLKP s.mem b.bp)
    ∧ GET_SIZE (coalesce s b.bp).2.mem (HDRP (coalesce s b.bp).1)
        = GET_SIZE s.mem (HDRP b.bp)
          + (if GET_ALLOC s.mem (HDRP (NEXT_BLKP s.mem b.bp)) = 0 then
              GET_SIZE s.mem (HDRP (NEXT_BLKP s.mem b.bp)) else 0)
          + (if GET_ALLOC s.mem (HDRP (PREV_BLKP s.mem b.bp)) = 0 then
              GET_SIZE s.mem (HDRP (PREV_BLKP s.mem b.bp)) else 0)
    ∧ GET (coalesce s b.bp).2.mem (HDRP (coalesce s b.bp).1)
        = PACK (GET_SIZE (coalesce s b.bp).2.mem (HDRP (coalesce s b.bp).1)) 0
    ∧ GET (coalesce s b.bp).2.mem (FTRP (coalesce s b.bp).2.mem (coalesce s b.bp).1)
        = PACK (GET_SIZE (coalesce s b.bp).2.mem (HDRP (coalesce s b.bp).1)) 0
    ∧ (coalesce s b.bp).2.free_listp = (coalesce s b.bp).1
    ∧ ∃ rest, WInv (coalesce s b.bp).2 (mergedChain l1 b l2) ((coalesce s b.bp).1 :: rest)
        ∧ (coalesce s b.bp).1 ∉ rest ∧ (∀ x ∈ rest, x ∈ fl)
        ∧ (GET_ALLOC s.mem (HDRP (NEXT_BLKP s.mem b.bp)) = 0 →
            NEXT_BLKP s.mem b.bp ∉ (coalesce s b.bp).1 :: rest) := by
  obtain ⟨r1, r2, ⟨c, hc1, hc2, hc3, hc4, hc5, hc6, hc7⟩, r4⟩ := reads_at hwf
  obtain ⟨k1, k2, _⟩ := coalesce_spec hwf hbf hbn hfree hprev hnext
  have hnd := hwf.nodup
  have hbm : b ∈ pro s :: (l1 ++ b :: l2) := by simp
  have hbl := Lay_mem hwf.lay hbm
  -- the previous block
  have hpf : prevFree l1 = if c.alloc then none else some c := by
    rcases hc2 with ⟨h1, h2⟩ | ⟨l, h1⟩
    · subst h1; subst h2; rfl
    · subst h1; exact prevFree_snoc l c
  -- the next block
  have hnf : (nextFree l2 = none ∧ GET_ALLOC s.mem (HDRP (b.bp + b.size)) ≠ 0)
      ∨ (∃ d, nextFree l2 = some d ∧ GET_ALLOC s.mem (HDRP (b.bp + b.size)) = 0
          ∧ GET_SIZE s.mem (HDRP (b.bp + b.size)) = d.size ∧ d.bp = b.bp + b.size) := by
    rcases r4 with ⟨h1, h2⟩ | ⟨d, r, h1, h2, h3, h4⟩
    · left; subst h1; exact ⟨rfl, by rw [h2]; decide⟩
    · subst h1
      rw [← h2, h3, h4, nextFree_cons]
      cases hd : d.alloc
      · right; exact ⟨d, by simp, by simp, rfl, rfl⟩
      · left; exact ⟨by simp, by simp⟩
  -- the tags of the merged block
  have hmm : merged l1 b l2 ∈ pro (coalesce s b.bp).2 :: mergedChain l1 b l2 := by
    unfold mergedChain; simp
  have hmt := k2.tags _ hmm (List.not_mem_nil _)
  have hml := Lay_mem k2.lay hmm
  obtain ⟨t1, t2, t3, t4, t5⟩ := hmt.reads hml.2.2.1
  have hmf : (merged l1 b l2).alloc = false := by
    unfold merged
    cases prevFree l1 <;> cases nextFree l2 <;> simp [hbf]
  have hword : (merged l1 b l2).word = PACK (merged l1 b l2).size 0 := by
    rw [PACK_eq _ 0 hml.2.2.1 (by decide)]
    unfold Blk.word
    rw [hmf]; rfl
  have hh1 : GET (coalesce s b.bp).2.mem (HDRP (merged l1 b l2).bp) = (merged l1 b l2).word :=
    hmt.1
  rw [k1, hc4, hc5, r1, r2, t1, t5, hmt.2, hh1, hword]
  have hlist : mergedList fl l1 b l2 = (merged l1 b l2).bp :: (mergedList fl l1 b l2).tail := rfl
  have hhead : (coalesce s b.bp).2.free_listp = (merged l1 b l2).bp := by
    have := k2.list
    rw [hlist] at this
    exact this.1
  have hnd2 := k2.nodup
  rw [hlist] at hnd2 k2
  have hrest : ∀ x ∈ (mergedList fl l1 b l2).tail, x ∈ fl := by
    intro x hx
    unfold mergedList at hx
    simp only [List.tail_cons] at hx
    cases hp : prevFree l1 <;> cases hn : nextFree l2 <;> rw [hp, hn] at hx <;> simp only at hx
    · exact hx
    · exact List.mem_of_mem_erase hx
    · exact List.mem_of_mem_erase hx
    · exact List.mem_of_mem_erase (List.mem_of_mem_erase hx)
  refine ⟨?_, ?_, ?_, rfl, rfl, hhead, (mergedList fl l1 b l2).tail, k2,
    (List.nodup_cons.1 hnd2).1, hrest, ?_⟩
  · intro hh
    have hca : c.alloc = true := by
      cases hc0 : c.alloc
      · rw [hc0] at hh; simp at hh
      · rfl
    rw [hca] at hpf
    unfold merged
    rw [hpf]
    cases nextFree l2 <;> rfl
  · intro hh
    have hca : c.alloc = false := by
      cases hc0 : c.alloc
      · rfl
      · rw [hc0] at hh; simp at hh
    rw [hca] at hpf
    unfold merged
    simp only [Bool.false_eq_true, if_false] at hpf
    rw [hpf]
    cases nextFree l2 <;> rfl
  · unfold merged
    rw [hpf]
    rcases hnf with ⟨n1, n2⟩ | ⟨d, n1, n2, n3, _⟩
    · rw [n1, if_neg n2]
      cases hc0 : c.alloc <;> simp
      omega
    · rw [n1, if_pos n2, n3]
      cases hc0 : c.alloc <;> simp
      omega
  · intro hh
    rcases hnf with ⟨n1, n2⟩ | ⟨d, n1, n2, n3, n5⟩
    · exact absurd hh n2
    · rw [← n5]
      intro hmem
      rcases List.mem_cons.1 hmem with h1 | h1
      · -- the merged block starts at `b` or before it
        have : (merged l1 b l2).bp ≤ b.bp := by
          unfold merged
          rw [hpf, n1]
          cases hc0 : c.alloc
          · simp; omega
          · simp
        omega
      · unfold mergedList at h1
        simp only [List.tail_cons] at h1
        rw [n1] at h1
        cases hp : prevFree l1 <;> rw [hp] at h1 <;> simp only at h1
        · exact List.Nodup.not_mem_erase hnd h1
        · exact List.Nodup.not_mem_erase hnd (List.mem_of_mem_erase h1)



/-- C7: in every state reached from a successful `mm_init` by valid `mm_malloc` and `mm_free`
calls, if `p` is a currently allocated address whose previous physical block is marked
allocated, then after `mm_free(p)` the call `mm_malloc(n)`, for every `n ≥ 1` whose adjusted
size `max(8 * ceil(n / 8) + 8, 24)` is at most the size of the free block at `p` that
`mm_free(p)` produced, returns `p`. -/
theorem lifo_reuse (s : State) (live : List Nat) (h : Reach s live) (p : Nat) (hp : p ∈ live)
    (hprev : GET_ALLOC s.mem (HDRP (PREV_BLKP s.mem p)) ≠ 0) (n : Nat) (h1 : 1 ≤ n)
    (hfit : max (8 * ((n + 7) / 8) + 8) 24 ≤ GET_SIZE (mm_free s p).mem (HDRP p)) :
    ∃ s2, mm_malloc (mm_free s p) n = some (p, s2) := by
  obtain ⟨bs, fl, hi⟩ := reach_inv h
  obtain ⟨b, hb, hbp, hba⟩ := (hi.live_iff p).1 hp
  obtain ⟨l1, l2, hl⟩ := List.append_of_mem hb
  subst hl
  subst hbp
  obtain ⟨r1, r2, ⟨c, hc1, hc2, hc3, hc4, hc5, hc6, hc7⟩, r4⟩ := reads_at hi.wf
  rw [hc4, hc5] at hprev
  have hca : c.alloc = true := by
    cases hc0 : c.alloc
    · rw [hc0] at hprev; simp at hprev
    · rfl
  have hpf : prevFree l1 = none := by
    rcases hc2 with ⟨rfl, _⟩ | ⟨l, rfl⟩
    · rfl
    · rw [prevFree_snoc, if_pos hca]
  obtain ⟨hi2, _⟩ := mm_free_spec hi hba
  have hbp0 : (merged l1 ⟨b.bp, b.size, false⟩ l2).bp = b.bp := by
    unfold merged
    rw [hpf]
    cases nextFree l2 <;> rfl
  have hlt : GET_SIZE (mm_free s b.bp).mem (HDRP b.bp) ≤ 4294967288 := by
    rw [GET_SIZE_eq]
    have := GET_lt (mm_free s b.bp).mem (HDRP b.bp)
    omega
  have hn : n ≤ 4294967280 := by
    have : 8 * ((n + 7) / 8) + 8 ≤ 4294967288 := le_trans (le_max_left _ _) (le_trans hfit hlt)
    omega
  have hadj := (adjust_eq h1 hn).1
  have hff : firstFit (mm_free s b.bp).mem (adjust n)
      (mergedList fl l1 ⟨b.bp, b.size, false⟩ l2) = b.bp := by
    unfold mergedList
    rw [hbp0]
    simp only [firstFit]
    rw [if_pos (by rw [hadj]; exact hfit)]
  have hne : b.bp ≠ 0 := by
    have := hi.wf.bp_ne_pro hb
    omega
  have := (mm_malloc_found hi2 h1 (by rw [hff]; exact hne)).1
  rw [hff] at this
  exact ⟨_, this⟩



/-- `extend_heap` returns a block pointer, never `NULL`, when the provider grants the bytes:
the new block ends at the new epilogue, so `coalesce` returns it or the block before it. -/
theorem extend_heap_ne_zero {s : State} {live : List Nat} {bs : List Blk} {fl : List Nat}
    {E : Nat} (h : Inv s live bs fl) (hE8 : E % 8 = 0) (hE24 : 24 ≤ E)
    (hElt : E < 4294967296) (hfit : ¬ s.mem_brk + E > s.mem_max_addr) :
    (extend_heap s (E / WSIZE)).1 ≠ 0 := by
  have hw := h.wf
  have hb32 : s.heap_listp + 32 ≤ s.mem_brk := by
    have := Lay_le hw.lay.2.2.2
    simp only [pro] at this
    omega
  rw [extend_heap_ok_eq hE8 hE24 hElt hfit (by omega)]
  obtain ⟨M, hM⟩ : ∃ M, M = PUT (PUT (PUT s.mem (s.mem_brk - 4) (E + 0)) (s.mem_brk + E - 8)
    (E + 0)) (s.mem_brk + E - 4) 1 := ⟨_, rfl⟩
  rw [← hM]
  have g1 : GET M (s.mem_brk - 4) = E := by
    rw [hM, GET_PUT_disj _ _ _ _ (by omega), GET_PUT_disj _ _ _ _ (by omega), GET_PUT_same]
    omega
  have g2 : GET M (s.mem_brk + E - 4) = 1 := by
    rw [hM, GET_PUT_same]
  have g3 : GET M (s.mem_brk - 8) = GET s.mem (s.mem_brk - 8) := by
    rw [hM, GET_PUT_disj _ _ _ _ (by omega), GET_PUT_disj _ _ _ _ (by omega),
      GET_PUT_disj _ _ _ _ (by omega)]
  have g4 : NEXT_BLKP M s.mem_brk = s.mem_brk + E := by
    unfold NEXT_BLKP
    rw [GET_SIZE_eq]
    simp only [HDRP, WSIZE]
    rw [g1]
    omega
  have g5 : GET_ALLOC M (HDRP (NEXT_BLKP M s.mem_brk)) = 1 := by
    rw [g4, GET_ALLOC_eq]
    simp only [HDRP, WSIZE]
    rw [g2]
  obtain ⟨P, c, hP, _⟩ := prev_exists s bs
  have hcm : c ∈ pro s :: bs := by rw [hP]; simp
  have hct := hw.tags c hcm (List.not_mem_nil _)
  have hcl := Lay_mem hw.lay hcm
  have hlast : c.bp + c.size = s.mem_brk := by
    have := hw.lay
    rw [hP] at this
    exact Lay_last this
  have g6 : PREV_BLKP M s.mem_brk = c.bp := by
    unfold PREV_BLKP
    simp only [HDRP, WSIZE]
    have e : s.mem_brk - 4 - 4 = s.mem_brk - 8 := by omega
    rw [e, GET_SIZE_eq, g3]
    have e2 : s.mem_brk - 8 = c.bp + c.size - 8 := by omega
    rw [e2, hct.2]
    unfold Blk.word
    split <;> omega
  unfold coalesce
  simp only [g5, g6]
  split_ifs <;> simp_all <;> omega

/-- On a valid heap the first-fit search fails exactly when no free-list block is large
enough. -/
theorem firstFit_zero_iff {s : State} {live : List Nat} {bs : List Blk} {fl : List Nat}
    (h : Inv s live bs fl) (a : Nat) :
    firstFit s.mem a fl = 0 ↔ ¬ ∃ x, OnFreeList s x ∧ a ≤ GET_SIZE s.mem (HDRP x) := by
  have hnz : ∀ x ∈ fl, x ≠ 0 := fun x hx => by
    have := (h.wf.fl_facts.1 x hx).1
    omega
  rw [firstFit_zero hnz]
  constructor
  · rintro h1 ⟨x, hx, hxs⟩
    have := h1 x ((h.onFreeList x).1 hx)
    omega
  · intro h1 x hx
    by_contra hc
    exact h1 ⟨x, (h.onFreeList x).2 hx, by omega⟩

/-- The result of `mm_malloc` on a valid heap, by cases. -/
theorem mm_malloc_cases {s : State} {live : List Nat} {bs : List Blk} {fl : List Nat}
    (h : Inv s live bs fl) {n : Nat} (h1 : 1 ≤ n) :
    ∃ p s2, mm_malloc s n = some (p, s2)
      ∧ ((firstFit s.mem (adjust n) fl ≠ 0 ∧ p ≠ 0 ∧ s2.mem_brk = s.mem_brk
            ∧ s2.sbrk_log = s.sbrk_log)
        ∨ (firstFit s.mem (adjust n) fl = 0
            ∧ (mem_sbrk s (MAX (adjust n) CHUNKSIZE)).1 = none ∧ p = 0
            ∧ s2.mem_brk = s.mem_brk
            ∧ s2.sbrk_log = MAX (adjust n) CHUNKSIZE :: s.sbrk_log)
        ∨ (firstFit s.mem (adjust n) fl = 0
            ∧ (mem_sbrk s (MAX (adjust n) CHUNKSIZE)).1 ≠ none ∧ p ≠ 0
            ∧ s2.mem_brk = s.mem_brk + MAX (adjust n) CHUNKSIZE
            ∧ s2.sbrk_log = MAX (adjust n) CHUNKSIZE :: s.sbrk_log)) := by
  obtain ⟨p, s2, hm⟩ := mm_malloc_total h n
  obtain ⟨a3, a5⟩ := adjust_gen n
  obtain ⟨b1, b2, b3, b4⟩ := MAX_chunk a3 a5
  obtain ⟨_, _, _, k⟩ := mm_malloc_brk h h1 hm
  refine ⟨p, s2, hm, ?_⟩
  rcases k with ⟨k1, k2, k3⟩ | ⟨k1, k2, k3, k4, k5⟩ | ⟨k1, k2, k3, k4⟩
  · left
    rw [(mm_malloc_found h h1 k1).1] at hm
    simp only [Option.some.injEq, Prod.mk.injEq] at hm
    exact ⟨k1, by rw [← hm.1]; exact k1, k2, k3⟩
  · right; left
    refine ⟨k1, ?_, k3, k4, k5⟩
    unfold mem_sbrk
    rw [if_pos k2]
  · right; right
    refine ⟨k1, ?_, ?_, k3, k4⟩
    · unfold mem_sbrk
      rw [if_neg k2]
      simp
    · have hne := extend_heap_ne_zero h b1 b2 b3 k2
      rw [mm_malloc_notfound h h1 k1, if_neg hne] at hm
      simp only [Option.some.injEq, Prod.mk.injEq] at hm
      rw [← hm.1]; exact hne

/-- `mm_malloc` and `NULL`, in terms of the size `asize` that the code computes (`adjust`):
in every state reached from a successful `mm_init` by valid `mm_malloc` and `mm_free` calls,
`mm_malloc(n)` returns, and it returns `NULL` if and only if `n = 0`, or no block on the free
list has a size of at least `asize` and `mem_sbrk` refuses the growth request of
`MAX(asize, CHUNKSIZE)` bytes; `asize` is `max(8 * ceil(n / 8) + 8, 24)` for `n` between 1
and `2^32 - 16`. -/
theorem malloc_null_iff (s : State) (live : List Nat) (h : Reach s live) (n : Nat) :
    (∃ p s2, mm_malloc s n = some (p, s2)
      ∧ (p = 0 ↔ n = 0 ∨ ((¬ ∃ x, OnFreeList s x ∧ adjust n ≤ GET_SIZE s.mem (HDRP x))
          ∧ (mem_sbrk s (MAX (adjust n) CHUNKSIZE)).1 = none)))
    ∧ (1 ≤ n → n ≤ 4294967280 → adjust n = max (8 * ((n + 7) / 8) + 8) 24) := by
  obtain ⟨bs, fl, hi⟩ := reach_inv h
  refine ⟨?_, fun h1 h2 => (adjust_eq h1 h2).1⟩
  by_cases h0 : n = 0
  · subst h0
    exact ⟨0, s, mm_malloc_zero s, by simp⟩
  · obtain ⟨p, s2, hm, k⟩ := mm_malloc_cases hi (n := n) (by omega)
    refine ⟨p, s2, hm, ?_⟩
    rw [← firstFit_zero_iff hi]
    rcases k with ⟨k1, k2, _⟩ | ⟨k1, k2, k3, _⟩ | ⟨k1, k2, k3, _⟩
    · constructor
      · intro hp; exact absurd hp k2
      · rintro (hn | ⟨hf, _⟩)
        · exact absurd hn h0
        · exact absurd hf k1
    · constructor
      · intro _; exact Or.inr ⟨k1, k2⟩
      · intro _; exact k3
    · constructor
      · intro hp; exact absurd hp k3
      · rintro (hn | ⟨_, hr⟩)
        · exact absurd hn h0
        · exact absurd hr k2

/-- `mm_malloc` and the provider, in terms of the size `asize` that the code computes
(`adjust`): in every state reached from a successful `mm_init` by valid `mm_malloc` and
`mm_free` calls, `mm_malloc(n)` returns; when some block on the free list has a size of at
least `asize`, the provider is not called (the log of `mem_sbrk` calls and the upper bound
of the arena are unchanged); when `n ≥ 1` and no block fits, the provider is called exactly
once, with `MAX(asize, CHUNKSIZE)` bytes. -/
theorem growth_only_when_needed (s : State) (live : List Nat) (h : Reach s live) (n : Nat) :
    ∃ p s2, mm_malloc s n = some (p, s2)
      ∧ ((∃ x, OnFreeList s x ∧ adjust n ≤ GET_SIZE s.mem (HDRP x)) →
          s2.sbrk_log = s.sbrk_log ∧ s2.mem_brk = s.mem_brk)
      ∧ (1 ≤ n → (¬ ∃ x, OnFreeList s x ∧ adjust n ≤ GET_SIZE s.mem (HDRP x)) →
          s2.sbrk_log = MAX (adjust n) CHUNKSIZE :: s.sbrk_log) := by
  obtain ⟨bs, fl, hi⟩ := reach_inv h
  by_cases h0 : n = 0
  · subst h0
    exact ⟨0, s, mm_malloc_zero s, fun _ => ⟨rfl, rfl⟩, fun h1 => absurd h1 (by omega)⟩
  · obtain ⟨p, s2, hm, k⟩ := mm_malloc_cases hi (n := n) (by omega)
    refine ⟨p, s2, hm, ?_, ?_⟩
    · intro hex
      rcases k with ⟨_, _, k3, k4⟩ | ⟨k1, _⟩ | ⟨k1, _⟩
      · exact ⟨k4, k3⟩
      · exact absurd hex ((firstFit_zero_iff hi _).1 k1)
      · exact absurd hex ((firstFit_zero_iff hi _).1 k1)
    · intro _ hne
      rcases k with ⟨k1, _⟩ | ⟨_, _, _, _, k5⟩ | ⟨_, _, _, _, k5⟩
      · exact absurd ((firstFit_zero_iff hi _).2 hne) k1
      · exact k5
      · exact k5

/-! ## Requests of `2^32 - 8` bytes and more -/

/-- The size field of a header is below `2^32`. -/
theorem GET_SIZE_lt (m : Mem) (p : Nat) : GET_SIZE m p < 4294967296 := by
  rw [GET_SIZE_eq]
  have := GET_lt m p
  omega

/-- C8: evaluation at a request of `2^32 - 8` bytes on the heap right after `mm_init` (1 MB
arena limit). The adjusted size `max(8 * ceil(n / 8) + 8, 24)` is `2^32`; no block on the
free list is that large and `mem_sbrk` refuses a growth of `2^32` bytes; yet `mm_malloc`
does not return `NULL`: it returns 4128. -/
theorem malloc_huge_not_null :
    Reach heap0 []
    ∧ max (8 * ((4294967288 + 7) / 8) + 8) 24 = 4294967296
    ∧ (¬ ∃ x, OnFreeList heap0 x ∧ 4294967296 ≤ GET_SIZE heap0.mem (HDRP x))
    ∧ (mem_sbrk heap0 (MAX 4294967296 CHUNKSIZE)).1 = none
    ∧ ∃ s2, mm_malloc heap0 4294967288 = some (4128, s2) ∧ (4128 : Nat) ≠ 0 := by
  refine ⟨reach_heap0, by decide, ?_, by decide, _, rfl, by decide⟩
  rintro ⟨x, _, hx⟩
  have := GET_SIZE_lt heap0.mem (HDRP x)
  omega

/-- C9: evaluation at a request of `2^32 - 8` bytes on the heap right after `mm_init`. No
block on the free list has the adjusted size `2^32`, so the provider should be called once
with `max(2^32, 4096)` bytes; `mm_malloc` returns 4128 without calling it: the log of
`mem_sbrk` requests still holds the two requests of `mm_init` and the end of the arena has
not moved. -/
theorem malloc_huge_no_growth :
    Reach heap0 []
    ∧ max (8 * ((4294967288 + 7) / 8) + 8) 24 = 4294967296
    ∧ (¬ ∃ x, OnFreeList heap0 x ∧ 4294967296 ≤ GET_SIZE heap0.mem (HDRP x))
    ∧ heap0.sbrk_log = [4096, 32]
    ∧ ∃ s2, mm_malloc heap0 4294967288 = some (4128, s2)
        ∧ s2.sbrk_log = [4096, 32] ∧ s2.mem_brk = heap0.mem_brk := by
  refine ⟨reach_heap0, by decide, ?_, by decide, _, rfl, by decide, by decide⟩
  rintro ⟨x, _, hx⟩
  have := GET_SIZE_lt heap0.mem (HDRP x)
  omega


/-! ## The claims on concrete heaps -/

/-- Evaluation of C1 at a request of `2^32 - 8` bytes on the heap right after `mm_init`: the
adjusted size wraps to 0 in `unsigned int`, and `mm_malloc` returns the payload address 4128
of a block that is still marked free and is 4096 bytes long. -/
theorem malloc_huge_returns_free_block :
    Reach heap0 []
    ∧ adjust 4294967288 = 0
    ∧ ∃ s2, mm_malloc heap0 4294967288 = some (4128, s2)
        ∧ GET_ALLOC s2.mem (HDRP 4128) = 0
        ∧ GET_SIZE s2.mem (HDRP 4128) = 4096
        ∧ ¬ max (8 * ((4294967288 + 7) / 8) + 8) 24 ≤ GET_SIZE s2.mem (HDRP 4128) :=
  ⟨reach_heap0, by decide, _, rfl, by decide, by decide, by decide⟩

/-- Witness of C3 on the heap after three `mm_malloc(16)` and the release of the second
block. -/
theorem no_adjacent_free_blocks_witness :
    Reach heapFB [4176, 4128]
    ∧ ∃ n, blockAt heapFB n = heapFB.mem_brk
      ∧ GET heapFB.mem (HDRP (blockAt heapFB n)) = PACK 0 1
      ∧ ∀ k, k < n → ¬ (GET_ALLOC heapFB.mem (HDRP (blockAt heapFB k)) = 0
          ∧ GET_ALLOC heapFB.mem (HDRP (blockAt heapFB (k + 1))) = 0) :=
  ⟨reach_freeB, no_adjacent_free_blocks heapFB [4176, 4128] reach_freeB⟩

/-- Witness of C4 on the heap after three `mm_malloc(16)`. -/
theorem blocks_well_formed_witness :
    Reach heapABC [4176, 4152, 4128]
    ∧ ∃ n, GET heapABC.mem (HDRP (blockAt heapABC n)) = PACK 0 1
      ∧ HDRP (blockAt heapABC n) + WSIZE = heapABC.mem_brk
      ∧ ∀ k, k < n →
          heapABC.mem_start_brk ≤ blockAt heapABC k
          ∧ (blockAt heapABC k - heapABC.mem_start_brk) % 8 = 0
          ∧ GET_SIZE heapABC.mem (HDRP (blockAt heapABC k)) % 8 = 0
          ∧ MINSIZE ≤ GET_SIZE heapABC.mem (HDRP (blockAt heapABC k))
          ∧ GET heapABC.mem (FTRP heapABC.mem (blockAt heapABC k))
              = GET heapABC.mem (HDRP (blockAt heapABC k)) :=
  ⟨reach_heapABC, blocks_well_formed heapABC [4176, 4152, 4128] reach_heapABC⟩

/-- Witness of C5 (amended) on the heap after two `mm_malloc(16)` and the release of the first
block. -/
theorem free_list_invariant_witness :
    Reach (mm_free heapAB 4128) [4152]
    ∧ ∃ k n, nodeAt (mm_free heapAB 4128) k = (mm_free heapAB 4128).heap_listp + DSIZE
      ∧ GET_ALLOC (mm_free heapAB 4128).mem (HDRP ((mm_free heapAB 4128).heap_listp + DSIZE)) = 1
      ∧ HDRP (blockAt (mm_free heapAB 4128) n) + WSIZE = (mm_free heapAB 4128).mem_brk
      ∧ (∀ i, i < k → GET_ALLOC (mm_free heapAB 4128).mem
            (HDRP (nodeAt (mm_free heapAB 4128) i)) = 0)
      ∧ (∀ i j, i < k → j < k →
            nodeAt (mm_free heapAB 4128) i = nodeAt (mm_free heapAB 4128) j → i = j)
      ∧ (∀ i, i < k → PREV_FREE (mm_free heapAB 4128).mem (nodeAt (mm_free heapAB 4128) i)
            = if i = 0 then 0 else nodeAt (mm_free heapAB 4128) (i - 1))
      ∧ (∀ bp, (∃ i, i < k ∧ nodeAt (mm_free heapAB 4128) i = bp) ↔
          (∃ j, j < n ∧ blockAt (mm_free heapAB 4128) j = bp
            ∧ GET_ALLOC (mm_free heapAB 4128).mem (HDRP bp) = 0)) :=
  ⟨Reach.free heapAB [4152, 4128] 4128 reach_heapAB (by decide),
    free_list_invariant (mm_free heapAB 4128) [4152]
      (Reach.free heapAB [4152, 4128] 4128 reach_heapAB (by decide))⟩

/-- The state in which `mm_free(4128)` calls `coalesce` on `heapFB` is well formed: the chain
holds the block at 4128, the free block at 4152, the allocated block at 4176 and the free
remainder at 4200; the free list is 4152, 4200. -/
theorem heapW_wf : WInv heapW
    ([] ++ (⟨4128, 24, false⟩ : Blk) ::
      [⟨4152, 24, false⟩, ⟨4176, 24, true⟩, ⟨4200, 4024, false⟩])
    [4152, 4200] := by
  constructor
  · decide
  · intro b hb _
    simp only [List.nil_append, List.mem_cons, List.mem_singleton, List.not_mem_nil,
      or_false] at hb
    rcases hb with rfl | rfl | rfl | rfl | rfl <;> decide
  · decide
  · decide
  · decide
  · decide
  · decide
  · decide
  · decide
  · decide
  · decide

/-- Witness of C6: `mm_init`, three `mm_malloc(16)` returning 4128, 4152 and 4176, then
`mm_free(4152)` and `mm_free(4128)`. The second `mm_free` calls `coalesce` in the state
`heapW`; it returns 4128, a free block of 48 bytes, and the free list is 4128, 4200 and then
the prologue sentinel: one entry for the merged block, none for 4152. -/
theorem coalesce_correct_witness :
    WInv heapW
      ([] ++ (⟨4128, 24, false⟩ : Blk) ::
        [⟨4152, 24, false⟩, ⟨4176, 24, true⟩, ⟨4200, 4024, false⟩])
      [4152, 4200]
    ∧ mm_free heapFB 4128 = (coalesce heapW 4128).2
    ∧ (coalesce heapW 4128).1 = 4128
    ∧ GET_SIZE (coalesce heapW 4128).2.mem (HDRP (coalesce heapW 4128).1) = 48
    ∧ GET (coalesce heapW 4128).2.mem (HDRP (coalesce heapW 4128).1) = PACK 48 0
    ∧ GET (coalesce heapW 4128).2.mem (FTRP (coalesce heapW 4128).2.mem (coalesce heapW 4128).1)
        = PACK 48 0
    ∧ nodeAt (mm_free heapFB 4128) 0 = 4128
    ∧ nodeAt (mm_free heapFB 4128) 1 = 4200
    ∧ nodeAt (mm_free heapFB 4128) 2 = (mm_free heapFB 4128).heap_listp + DSIZE
    ∧ (mm_free heapFB 4128).count = 2 := by
  have hc := coalesce_correct heapW []
    [⟨4152, 24, false⟩, ⟨4176, 24, true⟩, ⟨4200, 4024, false⟩] ⟨4128, 24, false⟩ [4152, 4200]
    heapW_wf rfl (by decide) (by decide) (fun c hc => by cases hc)
    (fun d hd => by cases hd; decide)
  obtain ⟨c1, _, c3, c4, c5, _⟩ := hc
  have e1 := c1 (by decide)
  have e3 : GET_SIZE (coalesce heapW 4128).2.mem (HDRP (coalesce heapW 4128).1) = 48 :=
    c3.trans (by decide)
  refine ⟨heapW_wf, rfl, e1, e3, ?_, ?_, by decide, by decide, by decide, by decide⟩
  · rw [← e3]; exact c4
  · rw [← e3]; exact c5

/-- Witness of C7: `mm_init`, `A = mm_malloc(16)`, `B = mm_malloc(16)`, `mm_free(A)`; then
`mm_malloc(n)` returns `A = 4128` for every `n` between 1 and 16. -/
theorem lifo_reuse_witness :
    Reach heapAB [4152, 4128]
    ∧ (4128 : Nat) ≠ 4152
    ∧ ∀ n, 1 ≤ n → n ≤ 16 → ∃ s2, mm_malloc (mm_free heapAB 4128) n = some (4128, s2) :=
  ⟨reach_heapAB, by decide, fun n h1 h2 =>
    lifo_reuse heapAB [4152, 4128] reach_heapAB 4128 (by decide) (by decide) n h1 (by
      have e : GET_SIZE (mm_free heapAB 4128).mem (HDRP 4128) = 24 := by decide
      rw [e]
      omega)⟩

/-- The result on `NULL` on an arena that cannot grow: a request of 5000 bytes finds no fit in the
4096-byte free block and the provider refuses, so `mm_malloc` returns `NULL`. -/
theorem malloc_null_iff_witness :
    Reach heapT []
    ∧ ((∃ p s2, mm_malloc heapT 5000 = some (p, s2)
        ∧ (p = 0 ↔ 5000 = 0
          ∨ ((¬ ∃ x, OnFreeList heapT x ∧ adjust 5000 ≤ GET_SIZE heapT.mem (HDRP x))
            ∧ (mem_sbrk heapT (MAX (adjust 5000) CHUNKSIZE)).1 = none)))
      ∧ (1 ≤ 5000 → 5000 ≤ 4294967280 → adjust 5000 = max (8 * ((5000 + 7) / 8) + 8) 24))
    ∧ (mm_malloc heapT 5000).map Prod.fst = some 0 :=
  ⟨reach_heapT, malloc_null_iff heapT [] reach_heapT 5000, by decide⟩

/-- The result on the provider on the heap after one `mm_malloc(16)`. -/
theorem growth_only_when_needed_witness :
    Reach heapA [4128]
    ∧ ∃ p s2, mm_malloc heapA 16 = some (p, s2)
      ∧ ((∃ x, OnFreeList heapA x ∧ adjust 16 ≤ GET_SIZE heapA.mem (HDRP x)) →
          s2.sbrk_log = heapA.sbrk_log ∧ s2.mem_brk = heapA.mem_brk)
      ∧ (1 ≤ 16 → (¬ ∃ x, OnFreeList heapA x ∧ adjust 16 ≤ GET_SIZE heapA.mem (HDRP x)) →
          s2.sbrk_log = MAX (adjust 16) CHUNKSIZE :: heapA.sbrk_log) :=
  ⟨reach_heapA, growth_only_when_needed heapA [4128] reach_heapA 16⟩

/-- C10: evaluation at the requests `2^64 - 1` and `2^63`, the conversions of `-1` and of
`-2^63` to `size_t`, on the heap right after `mm_init`. Neither is ignored: `mm_malloc`
returns the address 4128 and moves `free_listp`; for `2^64 - 1` the block has 24 bytes, for
`2^63` the adjusted size is cut to 8 and `free_listp` ends at 4136. -/
theorem malloc_negative_not_ignored :
    Reach heap0 []
    ∧ 9223372036854775808 ≤ 18446744073709551615
    ∧ heap0.free_listp = 4128
    ∧ (∃ s2, mm_malloc heap0 18446744073709551615 = some (4128, s2)
        ∧ (4128 : Nat) ≠ 0 ∧ s2.free_listp ≠ heap0.free_listp
        ∧ GET s2.mem (HDRP 4128) = PACK 24 1)
    ∧ (∃ s3, mm_malloc heap0 9223372036854775808 = some (4128, s3)
        ∧ s3.free_listp = 4136 ∧ s3.mem ≠ heap0.mem) :=
  ⟨reach_heap0, by decide, by decide, ⟨_, rfl, by decide, by decide, by decide⟩,
    ⟨_, rfl, by decide, fun h => absurd (congrFun h 4124) (by decide)⟩⟩

/-- A request of size 0 is ignored in every state: `mm_malloc(0)` returns `NULL` and leaves
the whole state unchanged, in particular the arena contents and bounds, `free_listp` and
`count`. -/
theorem malloc_zero_ignored (s : State) :
    ∃ s2, mm_malloc s 0 = some (0, s2) ∧ s2.mem = s.mem ∧ s2.mem_start_brk = s.mem_start_brk
      ∧ s2.mem_brk = s.mem_brk ∧ s2.mem_max_addr = s.mem_max_addr
      ∧ s2.free_listp = s.free_listp ∧ s2.count = s.count :=
  ⟨s, mm_malloc_zero s, rfl, rfl, rfl, rfl, rfl, rfl⟩



/-! ## An arena longer than `2^32` bytes -/

/-- On `heapBigF` the walk by physical adjacency never leaves the blocks 4104, 4128, 8216:
the header of 4128 holds the merged size `2^32 - 8 + 4096` cut to 32 bits, 4088, and the word
before 8216 is not a header. -/
theorem blockAt_heapBigF (n : Nat) :
    blockAt heapBigF n = 4104 ∨ blockAt heapBigF n = 4128 ∨ blockAt heapBigF n = 8216 := by
  induction n with
  | zero => left; decide
  | succ n ih =>
    have e : blockAt heapBigF (n + 1) = NEXT_BLKP heapBigF.mem (blockAt heapBigF n) := by
      unfold blockAt
      rw [Function.iterate_succ_apply']
    rw [e]
    rcases ih with h | h | h
    · right; left; rw [h]; decide
    · right; right; rw [h]; decide
    · right; right; rw [h]; decide

/-- Counterexample to C5 as worded (no bound on the arena): on a provider that grants 8 GiB,
`mm_init`, `mm_malloc(2^32 - 16)` (which returns 4128) and `mm_free(4128)` are valid calls.
Afterwards the free list is the single node 4128 followed by the sentinel, while the walk by
physical adjacency meets at 8216 a block marked free that is not on the list and never
reaches the epilogue; so the free-list invariant fails. -/
theorem free_list_invariant_fails_large_arena :
    (mm_init big).1 = 0
    ∧ (1 ≤ 4294967280 ∧ 4294967280 ≤ 4294967280)
    ∧ mm_malloc heapBig 4294967280 = some (4128, heapBigM)
    ∧ heapBigF = mm_free heapBigM 4128
    ∧ 4294967296 < heapBigM.mem_brk - heapBigM.mem_start_brk
    ∧ nodeAt heapBigF 0 = 4128
    ∧ nodeAt heapBigF 1 = heapBigF.heap_listp + DSIZE
    ∧ blockAt heapBigF 2 = 8216
    ∧ GET_ALLOC heapBigF.mem (HDRP 8216) = 0
    ∧ ¬ (∃ k n, nodeAt heapBigF k = heapBigF.heap_listp + DSIZE
        ∧ GET_ALLOC heapBigF.mem (HDRP (heapBigF.heap_listp + DSIZE)) = 1
        ∧ HDRP (blockAt heapBigF n) + WSIZE = heapBigF.mem_brk
        ∧ (∀ i, i < k → GET_ALLOC heapBigF.mem (HDRP (nodeAt heapBigF i)) = 0)
        ∧ (∀ i j, i < k → j < k → nodeAt heapBigF i = nodeAt heapBigF j → i = j)
        ∧ (∀ i, i < k → PREV_FREE heapBigF.mem (nodeAt heapBigF i)
              = if i = 0 then 0 else nodeAt heapBigF (i - 1))
        ∧ (∀ bp, (∃ i, i < k ∧ nodeAt heapBigF i = bp) ↔
            (∃ j, j < n ∧ blockAt heapBigF j = bp ∧ GET_ALLOC heapBigF.mem (HDRP bp) = 0))) := by
  refine ⟨by decide, by decide, rfl, rfl, by decide, by decide, by decide, by decide,
    by decide, ?_⟩
  rintro ⟨k, n, _, _, h3, _⟩
  have hb : heapBigF.mem_brk = 4294975512 := by decide
  rw [hb] at h3
  simp only [HDRP, WSIZE] at h3
  rcases blockAt_heapBigF n with h | h | h <;> rw [h] at h3 <;> omega



/-! ## `mm_realloc` and `mm_init` -/

/-- C11: `mm_realloc(ptr, size)` returns `NULL` for every `ptr` and every `size` and leaves
the whole allocator state unchanged: the arena bytes, `free_listp`, `heap_listp`, `count` and
`full_count`. -/
theorem mm_realloc_null (s : State) (ptr size : Nat) :
    (mm_realloc s ptr size).1 = 0
    ∧ (mm_realloc s ptr size).2 = s
    ∧ (mm_realloc s ptr size).2.mem = s.mem
    ∧ (mm_realloc s ptr size).2.free_listp = s.free_listp
    ∧ (mm_realloc s ptr size).2.heap_listp = s.heap_listp
    ∧ (mm_realloc s ptr size).2.count = s.count
    ∧ (mm_realloc s ptr size).2.full_count = s.full_count :=
  ⟨rfl, rfl, rfl, rfl, rfl, rfl, rfl⟩

theorem mem_sbrk_none_iff (s : State) (incr : Nat) :
    (mem_sbrk s incr).1 = none ↔ s.mem_brk + incr > s.mem_max_addr := by
  unfold mem_sbrk
  split <;> simp_all

theorem mem_sbrk_second (s : State) (a b : Nat) (h : ¬ s.mem_brk + a > s.mem_max_addr) :
    (mem_sbrk (mem_sbrk s a).2 b).1 = none ↔ s.mem_brk + a + b > s.mem_max_addr := by
  rw [mem_sbrk_none_iff]
  unfold mem_sbrk
  rw [if_neg h]

/-- The first extension of `mm_init` returns its new block: the block before it is the
prologue and the block after it the epilogue, both allocated. -/
theorem init_extend_ne_zero (s0 : State)
    (hfit : ¬ (initState s0).mem_brk + 4096 > (initState s0).mem_max_addr) :
    (extend_heap (initState s0) (4096 / WSIZE)).1 = s0.mem_brk + 32 := by
  rw [extend_heap_ok_eq (by decide) (by decide) (by decide) hfit
    (by show 4 ≤ s0.mem_brk + 32; omega)]
  have hb : (initState s0).mem_brk = s0.mem_brk + 32 := rfl
  rw [hb]
  obtain ⟨M, hM⟩ : ∃ M, M = PUT (PUT (PUT (initState s0).mem (s0.mem_brk + 32 - 4) (4096 + 0))
    (s0.mem_brk + 32 + 4096 - 8) (4096 + 0)) (s0.mem_brk + 32 + 4096 - 4) 1 := ⟨_, rfl⟩
  rw [← hM]
  have g1 : GET M (s0.mem_brk + 28) = 4096 := by
    rw [hM, GET_PUT_disj _ _ _ _ (by omega), GET_PUT_disj _ _ _ _ (by omega)]
    have e : s0.mem_brk + 32 - 4 = s0.mem_brk + 28 := by omega
    rw [e, GET_PUT_same]
  have g2 : GET M (s0.mem_brk + 4124) = 1 := by
    have e : s0.mem_brk + 32 + 4096 - 4 = s0.mem_brk + 4124 := by omega
    rw [hM, e, GET_PUT_same]
  have g3 : GET M (s0.mem_brk + 24) = 25 := by
    rw [hM, GET_PUT_disj _ _ _ _ (by omega), GET_PUT_disj _ _ _ _ (by omega),
      GET_PUT_disj _ _ _ _ (by omega)]
    show GET (PUT (PUT (PUT (PUT s0.mem s0.mem_brk 0) (s0.mem_brk + 4) 25) (s0.mem_brk + 24) 25)
      (s0.mem_brk + 28) 1) (s0.mem_brk + 24) = 25
    rw [GET_PUT_disj _ _ _ _ (by omega), GET_PUT_same]
  have g4 : GET M (s0.mem_brk + 4) = 25 := by
    rw [hM, GET_PUT_disj _ _ _ _ (by omega), GET_PUT_disj _ _ _ _ (by omega),
      GET_PUT_disj _ _ _ _ (by omega)]
    show GET (PUT (PUT (PUT (PUT s0.mem s0.mem_brk 0) (s0.mem_brk + 4) 25) (s0.mem_brk + 24) 25)
      (s0.mem_brk + 28) 1) (s0.mem_brk + 4) = 25
    rw [GET_PUT_disj _ _ _ _ (by omega), GET_PUT_disj _ _ _ _ (by omega), GET_PUT_same]
  have g5 : NEXT_BLKP M (s0.mem_brk + 32) = s0.mem_brk + 4128 := by
    unfold NEXT_BLKP
    rw [GET_SIZE_eq]
    simp only [HDRP, WSIZE]
    have e : s0.mem_brk + 32 - 4 = s0.mem_brk + 28 := by omega
    rw [e, g1]
  have g6 : GET_ALLOC M (HDRP (NEXT_BLKP M (s0.mem_brk + 32))) = 1 := by
    rw [g5, GET_ALLOC_eq]
    simp only [HDRP, WSIZE]
    have e : s0.mem_brk + 4128 - 4 = s0.mem_brk + 4124 := by omega
    rw [e, g2]
  have g7 : PREV_BLKP M (s0.mem_brk + 32) = s0.mem_brk + 8 := by
    unfold PREV_BLKP
    simp only [HDRP, WSIZE]
    have e : s0.mem_brk + 32 - 4 - 4 = s0.mem_brk + 24 := by omega
    rw [e, GET_SIZE_eq, g3]
    omega
  have g8 : GET_ALLOC M (HDRP (s0.mem_brk + 8)) = 1 := by
    rw [GET_ALLOC_eq]
    simp only [HDRP, WSIZE]
    have e : s0.mem_brk + 8 - 4 = s0.mem_brk + 4 := by omega
    rw [e, g4]
  unfold coalesce
  simp only [g6, g7, g8]
  have hne : s0.mem_brk + 8 ≠ s0.mem_brk + 32 := by omega
  simp [hne]

/-- The return value of `mm_init`, by cases on the answers of the provider. -/
theorem mm_init_cases (s0 : State) :
    (s0.mem_brk + 32 > s0.mem_max_addr → (mm_init s0).1 = -1 ∧ (mm_init s0).2.mem = s0.mem)
    ∧ (¬ s0.mem_brk + 32 > s0.mem_max_addr → s0.mem_brk + 32 + 4096 > s0.mem_max_addr →
        (mm_init s0).1 = -1)
    ∧ (¬ s0.mem_brk + 32 > s0.mem_max_addr → ¬ s0.mem_brk + 32 + 4096 > s0.mem_max_addr →
        (mm_init s0).1 = 0) := by
  refine ⟨fun h => ⟨mm_init_first_fail h, ?_⟩, fun h1 h2 => ?_, fun h1 h2 => ?_⟩
  · unfold mm_init
    simp only [mem_sbrk, MINSIZE, ALIGNMENT]
    rw [if_pos h]
  · rw [mm_init_eq h1]
    have hh : (initState s0).mem_brk + 4096 > (initState s0).mem_max_addr := h2
    rw [extend_heap_fail (by decide) (by decide) (by decide) hh]
    simp
  · rw [mm_init_eq h1]
    have hh : ¬ (initState s0).mem_brk + 4096 > (initState s0).mem_max_addr := h2
    rw [init_extend_ne_zero s0 hh]
    simp

/-- C13: `mm_init` returns `-1` if and only if the provider refuses the initial request of
`MINSIZE + ALIGNMENT = 32` bytes or the following extension by `CHUNKSIZE = 4096` bytes, and
returns `0` otherwise; when the first request is refused the arena bytes are unchanged. -/
theorem mm_init_fails_iff (s0 : State) :
    ((mm_init s0).1 = -1 ↔
      (mem_sbrk s0 (MINSIZE + ALIGNMENT)).1 = none
      ∨ (mem_sbrk (mem_sbrk s0 (MINSIZE + ALIGNMENT)).2 CHUNKSIZE).1 = none)
    ∧ ((mm_init s0).1 ≠ -1 → (mm_init s0).1 = 0)
    ∧ ((mem_sbrk s0 (MINSIZE + ALIGNMENT)).1 = none → (mm_init s0).2.mem = s0.mem) := by
  obtain ⟨c1, c2, c3⟩ := mm_init_cases s0
  have e1 : MINSIZE + ALIGNMENT = 32 := rfl
  have e2 : CHUNKSIZE = 4096 := rfl
  rw [e1, e2, mem_sbrk_none_iff]
  by_cases h1 : s0.mem_brk + 32 > s0.mem_max_addr
  · refine ⟨⟨fun _ => Or.inl h1, fun _ => (c1 h1).1⟩, fun h => absurd (c1 h1).1 h,
      fun _ => (c1 h1).2⟩
  · rw [mem_sbrk_second s0 32 4096 h1]
    by_cases h2 : s0.mem_brk + 32 + 4096 > s0.mem_max_addr
    · exact ⟨⟨fun _ => Or.inr h2, fun _ => c2 h1 h2⟩, fun h => absurd (c2 h1 h2) h,
        fun h => absurd h h1⟩
    · refine ⟨⟨fun h => ?_, fun h => ?_⟩, fun _ => c3 h1 h2, fun h => absurd h h1⟩
      · rw [c3 h1 h2] at h
        exact absurd h (by decide)
      · rcases h with h | h
        · exact absurd h h1
        · exact absurd h h2

/-- C12: when the provider grants both requests on an empty arena (base `B`), `mm_init`
returns 0, whatever the globals and the memory held before, and leaves: an arena of
`32 + 4096` bytes; the prologue header at `B + 4` and footer at `B + 24`, both `PACK(24, 1)`;
one free block with payload at `B + 32`, header and footer `PACK(4096, 0)`, between the
prologue and the epilogue; the epilogue header `PACK(0, 1)` in the last word, at `B + 4124`;
`free_listp` at that free block, whose `PREV_FREE` is `NULL` and whose `NEXT_FREE` is the
prologue payload; and `count = 1`. -/
theorem mm_init_layout (s0 : State) (h64 : s0.mem_max_addr < 18446744073709551616)
    (hempty : s0.mem_brk = s0.mem_start_brk)
    (hg1 : (mem_sbrk s0 (MINSIZE + ALIGNMENT)).1 ≠ none)
    (hg2 : (mem_sbrk (mem_sbrk s0 (MINSIZE + ALIGNMENT)).2 CHUNKSIZE).1 ≠ none) :
    (mm_init s0).1 = 0
    ∧ (mm_init s0).2.mem_start_brk = s0.mem_start_brk
    ∧ (mm_init s0).2.mem_brk = s0.mem_start_brk + (32 + 4096)
    ∧ (mm_init s0).2.heap_listp = s0.mem_start_brk
    ∧ GET (mm_init s0).2.mem (s0.mem_start_brk + 4) = PACK 24 1
    ∧ GET (mm_init s0).2.mem (s0.mem_start_brk + 24) = PACK 24 1
    ∧ GET (mm_init s0).2.mem (HDRP (s0.mem_start_brk + 32)) = PACK 4096 0
    ∧ GET (mm_init s0).2.mem (FTRP (mm_init s0).2.mem (s0.mem_start_brk + 32)) = PACK 4096 0
    ∧ GET (mm_init s0).2.mem (s0.mem_start_brk + 4124) = PACK 0 1
    ∧ blockAt (mm_init s0).2 0 = s0.mem_start_brk + 8
    ∧ blockAt (mm_init s0).2 1 = s0.mem_start_brk + 32
    ∧ blockAt (mm_init s0).2 2 = (mm_init s0).2.mem_brk
    ∧ (mm_init s0).2.free_listp = s0.mem_start_brk + 32
    ∧ PREV_FREE (mm_init s0).2.mem (s0.mem_start_brk + 32) = 0
    ∧ NEXT_FREE (mm_init s0).2.mem (s0.mem_start_brk + 32) = s0.mem_start_brk + 8
    ∧ (mm_init s0).2.count = 1 := by
  have e1 : MINSIZE + ALIGNMENT = 32 := rfl
  have e2 : CHUNKSIZE = 4096 := rfl
  rw [e1] at hg1 hg2
  rw [e2] at hg2
  have h1 : ¬ s0.mem_brk + 32 > s0.mem_max_addr := fun hh =>
    hg1 ((mem_sbrk_none_iff s0 32).2 hh)
  have h2 : ¬ s0.mem_brk + 32 + 4096 > s0.mem_max_addr := fun hh =>
    hg2 ((mem_sbrk_second s0 32 4096 h1).2 hh)
  have hok := (mm_init_cases s0).2.2 h1 h2
  have hst : (mm_init s0).2.mem_start_brk = s0.mem_start_brk := by
    rw [mm_init_eq h1]
    exact (extend_heap_ok_eq (s := initState s0) (by decide) (by decide) (by decide) h2
      (by show 4 ≤ s0.mem_brk + 32; omega)) ▸ by simp [initState]
  have hbrk : (mm_init s0).2.mem_brk = s0.mem_brk + 32 + 4096 := by
    rw [mm_init_eq h1]
    exact (extend_heap_ok_eq (s := initState s0) (by decide) (by decide) (by decide) h2
      (by show 4 ≤ s0.mem_brk + 32; omega)) ▸ by simp [initState]
  obtain ⟨hi, hhl, _⟩ := mm_init_inv h64 (by omega) (by rw [hempty]; simp) hok
    (by rw [hbrk, hst]; omega)
  rw [hempty] at hi hhl hbrk
  have hw := hi.wf
  have hp := hw.tags (pro (mm_init s0).2) (pro_mem _ _) (List.not_mem_nil _)
  have hb := hw.tags ⟨s0.mem_start_brk + 32, 4096, false⟩ (by simp) (List.not_mem_nil _)
  have hbr := hb.reads (show (4096 : Nat) % 8 = 0 by decide)
  obtain ⟨w1, _, _, w4⟩ := hi.walk
  obtain ⟨n1, n2, _⟩ := hi.nodes
  have hseg := hw.list
  have hp1 : GET (mm_init s0).2.mem (s0.mem_start_brk + 4) = 25 := by
    have := hp.1
    have e : (pro (mm_init s0).2).bp - 4 = s0.mem_start_brk + 4 := by
      simp only [pro, hhl]; omega
    rw [e] at this
    exact this
  have hp2 : GET (mm_init s0).2.mem (s0.mem_start_brk + 24) = 25 := by
    have := hp.2
    have e : (pro (mm_init s0).2).bp + (pro (mm_init s0).2).size - 8
        = s0.mem_start_brk + 24 := by
      simp only [pro, hhl]; omega
    rw [e] at this
    exact this
  have k25 : PACK 24 1 = 25 := by decide
  have k4096 : PACK 4096 0 = 4096 := by decide
  have k1 : PACK 0 1 = 1 := by decide
  refine ⟨hok, hst, hbrk.trans (by omega), hhl, ?_, ?_, ?_, ?_, ?_, ?_, ?_, ?_, hseg.1, hseg.2.1,
    ?_, ?_⟩
  · rw [k25]; exact hp1
  · rw [k25]; exact hp2
  · rw [k4096]
    have := hb.1
    simp only [Blk.word] at this
    exact this
  · rw [k4096, hbr.2.2.2.2]
    have := hb.2
    simp only [Blk.word] at this
    exact this
  · rw [k1]
    have := hw.epi
    rw [hbrk] at this
    have e : s0.mem_start_brk + 32 + 4096 - 4 = s0.mem_start_brk + 4124 := by omega
    rw [e] at this
    exact this
  · show (mm_init s0).2.heap_listp + DSIZE = _
    rw [hhl]; rfl
  · obtain ⟨b, hb1, hb2, _⟩ := w4 1 (by simp)
    simp at hb1
    rw [hb2, ← hb1]
  · exact w1
  · have := hseg.2.2
    simp only [Seg] at this
    rw [hhl] at this
    exact this
  · exact hw.cnt

/-- Witness of C12 on the untouched arena `fresh` (base 4096). -/
theorem mm_init_layout_witness :
    fresh.mem_max_addr < 18446744073709551616
    ∧ fresh.mem_brk = fresh.mem_start_brk
    ∧ (mem_sbrk fresh (MINSIZE + ALIGNMENT)).1 ≠ none
    ∧ (mem_sbrk (mem_sbrk fresh (MINSIZE + ALIGNMENT)).2 CHUNKSIZE).1 ≠ none
    ∧ (mm_init fresh).1 = 0
    ∧ (mm_init fresh).2.mem_brk = fresh.mem_start_brk + (32 + 4096)
    ∧ (mm_init fresh).2.free_listp = fresh.mem_start_brk + 32
    ∧ (mm_init fresh).2.count = 1 :=
  ⟨by decide, rfl, by decide, by decide,
    (mm_init_layout fresh (by decide) rfl (by decide) (by decide)).1,
    (mm_init_layout fresh (by decide) rfl (by decide) (by decide)).2.2.1,
    (mm_init_layout fresh (by decide) rfl (by decide) (by decide)).2.2.2.2.2.2.2.2.2.2.2.2.1,
    (mm_init_layout fresh (by decide) rfl (by decide) (by decide)).2.2.2.2.2.2.2.2.2.2.2.2.2.2.2⟩



/-! ## The consistency checker -/

theorem check_blocks_no_error (s : State) :
    ∀ (t bp : Nat), ∀ r ∈ check_blocks s t bp, r.isError = false := by
  intro t
  induction t with
  | zero => intro bp r hr; simp [check_blocks] at hr
  | succ t ih =>
    intro bp r hr
    simp only [check_blocks, List.mem_cons] at hr
    rcases hr with rfl | hr
    · rfl
    · exact ih _ r hr

/-- C14: evaluation on the heap right after `mm_init` with the header of its only
free-list block (payload 4128) overwritten as allocated: `count` is 1, the guard
`if(count > 1)` skips the walk of the free list, and `mm_check_heap` reports no violation;
its reports are block lines only. -/
theorem check_heap_skips_single_block :
    corruptA.count = 1
    ∧ nodeAt corruptA 0 = 4128
    ∧ GET_ALLOC corruptA.mem (HDRP (nodeAt corruptA 0)) = 1
    ∧ ∀ r ∈ (mm_check_heap corruptA).2, r.isError = false := by
  refine ⟨by decide, by decide, by decide, ?_⟩
  intro r hr
  have e : (mm_check_heap corruptA).2
      = check_blocks corruptA corruptA.full_count corruptA.heap_listp := by
    unfold mm_check_heap
    rw [if_neg (by decide)]
    rfl
  rw [e] at hr
  exact check_blocks_no_error _ _ _ r hr

/-- C15: evaluation on a free list of two blocks whose first block is marked allocated:
`mm_check_heap` prints the violation and returns 0, as it does in every state. -/
theorem check_heap_returns_zero :
    corruptB.count = 2
    ∧ nodeAt corruptB 0 = 4152
    ∧ GET_ALLOC corruptB.mem (HDRP (nodeAt corruptB 0)) = 1
    ∧ Report.allocated_in_list ∈ (mm_check_heap corruptB).2
    ∧ (mm_check_heap corruptB).1 = 0
    ∧ ∀ s, (mm_check_heap s).1 = 0 :=
  ⟨by decide, by decide, by decide, by decide, rfl, fun _ => rfl⟩

/-- C16: evaluation on the heap right after `mm_init` (arena base 4096, prologue payload at
4104) and on the heap after three more `mm_malloc(16)`: the block walk starts at
`heap_listp`, not at the prologue, so its first report is a block located at 4092, below the
arena, with the size stored there and the status read from the padding word at 4096; the
prologue, of size 24 and allocated, is not reported. -/
theorem check_heap_walk_starts_below_arena :
    Reach heap0 []
    ∧ mem_heap_lo heap0 = 4096
    ∧ GET heap0.mem (HDRP (heap0.heap_listp + DSIZE)) = PACK 24 1
    ∧ (mm_check_heap heap0).2 = [Report.block false 4092 0]
    ∧ (mm_check_heap heapABC).2.filter (fun r => !r.isError)
        = [Report.block false 4092 0, Report.block false 4092 0,
            Report.block false 4092 0, Report.block false 4092 0] :=
  ⟨reach_heap0, by decide, by decide, by decide, by decide⟩



/-! ## `place` -/

theorem PACK_alloc (sz : Nat) (h8 : sz % 8 = 0) : PACK sz 1 = sz + 1 := PACK_eq sz 1 h8 (by omega)

theorem PACK_free (sz : Nat) (h8 : sz % 8 = 0) : PACK sz 0 = sz + 0 := PACK_eq sz 0 h8 (by omega)

/-- Header and footer of a block of a well-formed heap, as the macros read them. -/
theorem WInv.tags_at {s : State} {bs : List Blk} {fl : List Nat} (h : WInv s bs fl) {b : Blk}
    (hb : b ∈ bs) :
    GET s.mem (HDRP b.bp) = PACK b.size (if b.alloc then 1 else 0)
    ∧ GET s.mem (FTRP s.mem b.bp) = PACK b.size (if b.alloc then 1 else 0) := by
  have hbm : b ∈ pro s :: bs := List.mem_cons_of_mem _ hb
  have hbt := h.tags b hbm (List.not_mem_nil _)
  have hbl := Lay_mem h.lay hbm
  have hbr := hbt.reads hbl.2.2.1
  have e : PACK b.size (if b.alloc then 1 else 0) = b.word := by
    unfold Blk.word
    cases b.alloc
    · exact PACK_free _ hbl.2.2.1
    · exact PACK_alloc _ hbl.2.2.1
  rw [hbr.2.2.2.2, e]
  exact ⟨hbt.1, hbt.2⟩

/-- C17: `place(bp, asize)` on a valid heap, for a block `bp` on the free list whose size
`csize` is at least `asize`, with `asize ≥ 24` a multiple of 8. If `csize - asize ≥ 24`, the
block at `bp` becomes allocated with size `asize` (header and footer `PACK(asize, 1)`) and
leaves the free list; `coalesce` is called on the block at `bp + asize` in a state where its
header and footer are `PACK(csize - asize, 0)`, and that block ends up on the free list, the
other entries being the old ones. Otherwise the whole block becomes allocated (header and
footer `PACK(csize, 1)`) and leaves the free list, which gets no new entry. -/
theorem place_correct (s : State) (live : List Nat) (bs : List Blk) (fl : List Nat)
    (h : Inv s live bs fl) (bp asize : Nat) (hbp : OnFreeList s bp) (h24 : 24 ≤ asize)
    (h8 : asize % 8 = 0) (hle : asize ≤ GET_SIZE s.mem (HDRP bp)) :
    GET_SIZE s.mem (HDRP bp) % 8 = 0
    ∧ (24 ≤ GET_SIZE s.mem (HDRP bp) - asize →
        GET (place s bp asize).mem (HDRP bp) = PACK asize 1
        ∧ GET (place s bp asize).mem (FTRP (place s bp asize).mem bp) = PACK asize 1
        ∧ ¬ OnFreeList (place s bp asize) bp
        ∧ (∃ s1, place s bp asize = (coalesce s1 (bp + asize)).2
            ∧ GET s1.mem (HDRP (bp + asize)) = PACK (GET_SIZE s.mem (HDRP bp) - asize) 0
            ∧ GET s1.mem (FTRP s1.mem (bp + asize))
                = PACK (GET_SIZE s.mem (HDRP bp) - asize) 0)
        ∧ OnFreeList (place s bp asize) (bp + asize)
        ∧ GET (place s bp asize).mem (HDRP (bp + asize))
            = PACK (GET_SIZE s.mem (HDRP bp) - asize) 0
        ∧ ∀ x, OnFreeList (place s bp asize) x ↔ x = bp + asize ∨ (OnFreeList s x ∧ x ≠ bp))
    ∧ (¬ 24 ≤ GET_SIZE s.mem (HDRP bp) - asize →
        GET (place s bp asize).mem (HDRP bp) = PACK (GET_SIZE s.mem (HDRP bp)) 1
        ∧ GET (place s bp asize).mem (FTRP (place s bp asize).mem bp)
            = PACK (GET_SIZE s.mem (HDRP bp)) 1
        ∧ ¬ OnFreeList (place s bp asize) bp
        ∧ ∀ x, OnFreeList (place s bp asize) x ↔ (OnFreeList s x ∧ x ≠ bp)) := by
  have hw := h.wf
  have hfl : bp ∈ fl := (h.onFreeList bp).1 hbp
  obtain ⟨b, hb, hbx⟩ := hw.sub bp hfl
  subst hbx
  have hbf : b.alloc = false := (h.free_iff b hb).1 hfl
  obtain ⟨l1, l2, hl⟩ := List.append_of_mem hb
  subst hl
  have hbm : b ∈ pro s :: (l1 ++ b :: l2) := List.mem_cons_of_mem _ hb
  have hbl := Lay_mem hw.lay hbm
  have hbt := hw.tags b hbm (List.not_mem_nil _)
  have hbr := hbt.reads hbl.2.2.1
  have hsm := hw.small
  have hlo := hw.lo_le
  have hb4 := hw.bp_ne_pro hb
  have hnd := hw.nodup
  rw [hbr.1] at hle ⊢
  refine ⟨hbl.2.2.1, fun hc => ?_, fun hc => ?_⟩
  · obtain ⟨i2, _⟩ := place_split h hbf h24 h8 (by omega)
    have hw2 := i2.wf
    have t1 := hw2.tags_at (b := ⟨b.bp, asize, true⟩) (by simp)
    have t2 := hw2.tags_at (b := ⟨b.bp + asize, b.size - asize, false⟩) (by simp)
    have hon := i2.onFreeList
    refine ⟨t1.1, t1.2, ?_, ?_, (hon _).2 (List.mem_cons_self _ _), t2.1, fun x => ?_⟩
    · rw [hon]
      simp only [List.mem_cons, not_or]
      exact ⟨by omega, fun hh => (List.Nodup.mem_erase_iff hnd).1 hh |>.1 rfl⟩
    · refine ⟨_, place_split_eq hbr.1 (by omega) (by omega) hbl.2.2.1 h24 h8 (by omega), ?_, ?_⟩
      · show GET (PUT (PUT _ (b.bp + asize - 4) (b.size - asize + 0)) (b.bp + b.size - 8)
          (b.size - asize + 0)) (HDRP (b.bp + asize)) = _
        simp only [HDRP, WSIZE]
        rw [GET_PUT_disj _ _ _ _ (by omega), GET_PUT_same, PACK_free _ (by omega)]
        omega
      · show GET (PUT (PUT _ (b.bp + asize - 4) (b.size - asize + 0)) (b.bp + b.size - 8)
          (b.size - asize + 0)) (FTRP (PUT (PUT _ (b.bp + asize - 4) (b.size - asize + 0))
            (b.bp + b.size - 8) (b.size - asize + 0)) (b.bp + asize)) = _
        have e : FTRP (PUT (PUT (remove_free_bp
            { s with
              mem := PUT (PUT s.mem (b.bp - 4) (asize + 1)) (b.bp + asize - 8) (asize + 1) }
            b.bp).mem (b.bp + asize - 4) (b.size - asize + 0))
            (b.bp + b.size - 8) (b.size - asize + 0)) (b.bp + asize) = b.bp + b.size - 8 := by
          unfold FTRP
          rw [GET_SIZE_eq]
          simp only [HDRP, WSIZE, DSIZE]
          rw [GET_PUT_disj _ _ _ _ (by omega), GET_PUT_same]
          omega
        rw [e, GET_PUT_same, PACK_free _ (by omega)]
        omega
    · rw [hon, h.onFreeList]
      simp only [List.mem_cons]
      rw [List.Nodup.mem_erase_iff hnd]
      tauto
  · obtain ⟨i2, _⟩ := place_fill h hbf hle (by omega)
    have hw2 := i2.wf
    have t1 := hw2.tags_at (b := ⟨b.bp, b.size, true⟩) (by simp)
    have hon := i2.onFreeList
    refine ⟨t1.1, t1.2, ?_, fun x => ?_⟩
    · rw [hon]
      exact fun hh => (List.Nodup.mem_erase_iff hnd).1 hh |>.1 rfl
    · rw [hon, h.onFreeList, List.Nodup.mem_erase_iff hnd]
      tauto

theorem heap0_inv : Inv heap0 [] [⟨4128, 4096, false⟩] [4128] :=
  (@mm_init_inv fresh (by decide) (by decide) (by decide) (by decide) (by decide)).1

/-- Witness of C17 on the heap right after `mm_init` (one free block of 4096 bytes at 4128):
`place(4128, 24)` splits, `place(4128, 4080)` takes the whole block. -/
theorem place_correct_witness :
    Inv heap0 [] [⟨4128, 4096, false⟩] [4128]
    ∧ OnFreeList heap0 4128
    ∧ GET (place heap0 4128 24).mem (HDRP 4128) = PACK 24 1
    ∧ OnFreeList (place heap0 4128 24) (4128 + 24)
    ∧ GET (place heap0 4128 24).mem (HDRP (4128 + 24)) = PACK 4072 0
    ∧ GET (place heap0 4128 4080).mem (HDRP 4128) = PACK 4096 1
    ∧ ¬ OnFreeList (place heap0 4128 4080) 4128 := by
  have hon : OnFreeList heap0 4128 := (heap0_inv.onFreeList 4128).2 (by simp)
  have e : GET_SIZE heap0.mem (HDRP 4128) = 4096 := by decide
  have ha := (place_correct heap0 [] _ _ heap0_inv 4128 24 hon (by decide) (by decide)
    (by decide)).2.1 (by decide)
  have hb := (place_correct heap0 [] _ _ heap0_inv 4128 4080 hon (by decide) (by decide)
    (by decide)).2.2 (by decide)
  rw [e] at ha hb
  exact ⟨heap0_inv, hon, ha.1, ha.2.2.2.2.1, ha.2.2.2.2.2.1, hb.1, hb.2.2.1⟩



/-! ## `find_fit` on a free list given by its walk -/

/-- The first fit is the node of least index that is large enough. -/
theorem firstFit_least (m : Mem) (asize : Nat) :
    ∀ (l : List Nat) (i : Nat) (hi : i < l.length), asize ≤ GET_SIZE m (HDRP l[i]) →
      (∀ j (hj : j < l.length), j < i → GET_SIZE m (HDRP l[j]) < asize) →
      firstFit m asize l = l[i] := by
  intro l
  induction l with
  | nil => intro i hi; simp at hi
  | cons x r ih =>
    intro i hi hfit hlt
    cases i with
    | zero =>
      simp only [firstFit, List.getElem_cons_zero] at hfit ⊢
      rw [if_pos hfit]
    | succ i =>
      have h0 := hlt 0 (by simp) (by omega)
      simp only [List.getElem_cons_zero] at h0
      simp only [firstFit, List.getElem_cons_succ] at hfit ⊢
      rw [if_neg (by omega)]
      refine ih i (by simpa using hi) hfit (fun j hj hji => ?_)
      have := hlt (j + 1) (by simpa using hj) (by omega)
      simpa using this

/-- A walk that reaches an allocated block after `n` steps visits `n` distinct free nodes. -/
theorem walk_injective {f : Nat → Nat} {P : Nat → Prop} {c n : Nat}
    (hfree : ∀ i, i < n → P (f^[i] c)) (hend : ¬ P (f^[n] c)) :
    ∀ i j, i < j → j < n → f^[i] c ≠ f^[j] c := by
  intro i j hij hjn heq
  -- the walk has period `j - i` from `i` on
  have hper : ∀ t, f^[i + t] c = f^[j + t] c := by
    intro t
    rw [Nat.add_comm i t, Nat.add_comm j t, Function.iterate_add_apply,
      Function.iterate_add_apply, heq]
  have hback : ∀ q k, i ≤ k → f^[k + q * (j - i)] c = f^[k] c := by
    intro q
    induction q with
    | zero => intro k _; simp
    | succ q ih =>
      intro k hk
      have e : k + (q + 1) * (j - i) = j + (k - i + q * (j - i)) := by
        rw [Nat.add_mul, Nat.one_mul]; omega
      have e2 : i + (k - i + q * (j - i)) = k + q * (j - i) := by omega
      rw [e, ← hper, e2]
      exact ih k hk
  -- `n` is `k + q * (j - i)` for some `k` in `[i, j)`
  have hd : 0 < j - i := by omega
  have hk1 : i ≤ i + (n - i) % (j - i) := by omega
  have hk2 : i + (n - i) % (j - i) < j := by
    have := Nat.mod_lt (n - i) hd
    omega
  have hn : n = i + (n - i) % (j - i) + (n - i) / (j - i) * (j - i) := by
    have := Nat.div_add_mod (n - i) (j - i)
    rw [Nat.mul_comm] at this
    omega
  have := hback ((n - i) / (j - i)) (i + (n - i) % (j - i)) hk1
  rw [← hn] at this
  apply hend
  rw [this]
  exact hfree _ (by omega)

/-- A list of distinct addresses below `2^64` has at most `2^64` entries. -/
theorem nodup_length_le (l : List Nat) (hnd : l.Nodup)
    (hlt : ∀ x ∈ l, x < 18446744073709551616) : l.length ≤ 18446744073709551616 := by
  have h1 : l.toFinset ⊆ Finset.range 18446744073709551616 := by
    intro x hx
    exact Finset.mem_range.2 (hlt x (List.mem_toFinset.1 hx))
  have h2 := Finset.card_le_card h1
  rw [List.toFinset_card_of_nodup hnd, Finset.card_range] at h2
  exact h2

/-- The loop of `find_fit` on a walk of free nodes that ends at an allocated block. -/
theorem find_fit_loop_walk {m : Mem} {asize : Nat} :
    ∀ (l : List Nat) (fuel cur : Nat),
      (∀ i (hi : i < l.length), (NEXT_FREE m)^[i] cur = l[i]) →
      GET_ALLOC m (HDRP ((NEXT_FREE m)^[l.length] cur)) ≠ 0 →
      (∀ x ∈ l, GET_ALLOC m (HDRP x) = 0) → l.length < fuel →
      find_fit_loop m asize fuel cur = some (firstFit m asize l) := by
  intro l
  induction l with
  | nil =>
    intro fuel cur _ he _ hf
    obtain ⟨f, rfl⟩ : ∃ f, fuel = f + 1 := ⟨fuel - 1, by simp at hf; omega⟩
    simp only [List.length_nil, Function.iterate_zero, id_eq] at he
    simp only [find_fit_loop, firstFit]
    rw [if_neg he]
  | cons x r ih =>
    intro fuel cur hw he ha hf
    obtain ⟨f, rfl⟩ : ∃ f, fuel = f + 1 := ⟨fuel - 1, by simp at hf; omega⟩
    have h0 := hw 0 (by simp)
    simp only [Function.iterate_zero, id_eq, List.getElem_cons_zero] at h0
    subst h0
    simp only [find_fit_loop, firstFit]
    rw [if_pos (ha cur (List.mem_cons_self _ _))]
    by_cases hc : asize ≤ GET_SIZE m (HDRP cur)
    · rw [if_pos hc, if_pos hc]
    · rw [if_neg hc, if_neg hc]
      refine ih f (NEXT_FREE m cur) (fun i hi => ?_) ?_
        (fun y hy => ha y (List.mem_cons_of_mem _ hy)) (by simp at hf; omega)
      · have := hw (i + 1) (by simpa using hi)
        simpa using this
      · simpa using he

/-- C18: `find_fit` is first fit. For a free list `l` given by the walk from `free_listp`
along `NEXT_FREE` (its nodes are non-`NULL` 64-bit addresses marked free, and the walk ends
at a block marked allocated, the prologue sentinel) and every `asize`, `find_fit(asize)`
returns the node of least index whose size is at least `asize`, and returns `NULL` exactly
when no node is that large, in particular on the empty list. `find_fit` has no store: it is
a function of the state that yields only the pointer. -/
theorem find_fit_first_fit (s : State) (l : List Nat) (asize : Nat)
    (hwalk : ∀ i (hi : i < l.length), nodeAt s i = l[i])
    (hend : GET_ALLOC s.mem (HDRP (nodeAt s l.length)) ≠ 0)
    (hfree : ∀ x ∈ l, GET_ALLOC s.mem (HDRP x) = 0)
    (hptr : ∀ x ∈ l, x ≠ 0 ∧ x < 18446744073709551616) :
    (∀ i (hi : i < l.length), asize ≤ GET_SIZE s.mem (HDRP l[i]) →
        (∀ j (hj : j < l.length), j < i → GET_SIZE s.mem (HDRP l[j]) < asize) →
        find_fit s asize = some l[i])
    ∧ (find_fit s asize = some 0 ↔ ∀ x ∈ l, GET_SIZE s.mem (HDRP x) < asize)
    ∧ (l = [] → find_fit s asize = some 0) := by
  have hnd : l.Nodup := by
    unfold List.Nodup
    rw [List.pairwise_iff_getElem]
    intro i j hi hj hij
    rw [← hwalk i hi, ← hwalk j hj]
    exact walk_injective (f := NEXT_FREE s.mem) (P := fun x => GET_ALLOC s.mem (HDRP x) = 0)
      (c := s.free_listp) (n := l.length)
      (fun k hk => by
        have := hwalk k hk
        unfold nodeAt at this
        rw [this]
        exact hfree _ (List.getElem_mem _))
      hend i j hij hj
  have hlen := nodup_length_le l hnd (fun x hx => (hptr x hx).2)
  have hff : find_fit s asize = some (firstFit s.mem asize l) :=
    find_fit_loop_walk l _ s.free_listp hwalk hend hfree (by omega)
  refine ⟨fun i hi h1 h2 => ?_, ?_, fun h0 => ?_⟩
  · rw [hff, firstFit_least s.mem asize l i hi h1 h2]
  · rw [hff, ← firstFit_zero (fun x hx => (hptr x hx).1)]
    constructor
    · intro h; exact Option.some.inj h
    · intro h; rw [h]
  · rw [hff, h0]
    rfl

/-- Witness of C18 on the heap after three `mm_malloc(16)`, `mm_free` of the second block and
`mm_free` of the first: the free list is 4128 (48 bytes), 4200 (4024 bytes); a request of 64
bytes skips the first node. -/
theorem find_fit_first_fit_witness :
    nodeAt (mm_free heapFB 4128) 0 = 4128
    ∧ nodeAt (mm_free heapFB 4128) 1 = 4200
    ∧ GET_ALLOC (mm_free heapFB 4128).mem (HDRP (nodeAt (mm_free heapFB 4128) 2)) ≠ 0
    ∧ find_fit (mm_free heapFB 4128) 64 = some 4200
    ∧ find_fit (mm_free heapFB 4128) 48 = some 4128
    ∧ (find_fit (mm_free heapFB 4128) 4032 = some 0 ↔
        ∀ x ∈ [4128, 4200], GET_SIZE (mm_free heapFB 4128).mem (HDRP x) < 4032) := by
  have hw : ∀ i (hi : i < [4128, 4200].length),
      nodeAt (mm_free heapFB 4128) i = [4128, 4200][i] := by decide
  have he : GET_ALLOC (mm_free heapFB 4128).mem
      (HDRP (nodeAt (mm_free heapFB 4128) [4128, 4200].length)) ≠ 0 := by decide
  have hf : ∀ x ∈ [4128, 4200], GET_ALLOC (mm_free heapFB 4128).mem (HDRP x) = 0 := by decide
  have hp : ∀ x ∈ [4128, 4200], x ≠ 0 ∧ x < 18446744073709551616 := by decide
  exact ⟨by decide, by decide, he,
    (find_fit_first_fit (mm_free heapFB 4128) [4128, 4200] 64 hw he hf hp).1 1 (by decide)
      (by decide) (by decide),
    (find_fit_first_fit (mm_free heapFB 4128) [4128, 4200] 48 hw he hf hp).1 0 (by decide)
      (by decide) (by decide),
    (find_fit_first_fit (mm_free heapFB 4128) [4128, 4200] 4032 hw he hf hp).2.1⟩



/-! ## `remove_free_bp` -/

/-- C19: `remove_free_bp(x)` deletes exactly one node. On a well-formed free list
`l1 ++ x :: l2` (the walk from `free_listp` along `NEXT_FREE` visits these nodes and then the
sentinel `e`; each `PREV_FREE` is the node before, `NULL` for the head; the nodes and the
sentinel are distinct, non-`NULL`, with link areas that do not overlap; `count` is the length
of the list), `remove_free_bp(x)` leaves the well-formed list `l1 ++ l2` in the same order
with consistent links; `free_listp` is the successor of `x` when `x` was the head and is
unchanged otherwise; `count` is one less; and when `x` was the only node the list is empty:
`free_listp` is the sentinel. -/
theorem remove_free_bp_correct (s : State) (l1 l2 : List Nat) (x e : Nat)
    (hseg : Seg s.mem 0 s.free_listp (l1 ++ x :: l2) e)
    (hap : Apart (e :: (l1 ++ x :: l2))) (hnd : (e :: (l1 ++ x :: l2)).Nodup)
    (hnz : ∀ y ∈ l1 ++ x :: l2, y ≠ 0) (hc : s.count = (l1 ++ x :: l2).length)
    (hlen : (l1 ++ x :: l2).length < 4294967296) :
    Seg (remove_free_bp s x).mem 0 (remove_free_bp s x).free_listp (l1 ++ l2) e
    ∧ (l1 = [] → (remove_free_bp s x).free_listp = NEXT_FREE s.mem x)
    ∧ (l1 ≠ [] → (remove_free_bp s x).free_listp = s.free_listp)
    ∧ (remove_free_bp s x).count + 1 = s.count
    ∧ (remove_free_bp s x).count = (l1 ++ l2).length
    ∧ (l1 = [] → l2 = [] → (remove_free_bp s x).free_listp = e) := by
  obtain ⟨r1, r2, _, r4⟩ := remove_free_bp_seg s l1 l2 x e hseg hap hnd
    (fun y hy => hnz y (List.mem_append_left _ hy)) hc (by omega)
  refine ⟨r1, fun h1 => ?_, fun h1 => ?_, ?_, r2, fun h1 h2 => ?_⟩
  · subst h1
    have hx : s.free_listp = x := hseg.1
    have hp : PREV_FREE s.mem x = 0 := hseg.2.1
    unfold remove_free_bp
    rw [if_neg (by simp [hp])]
  · obtain ⟨y, r, rfl⟩ := List.exists_cons_of_ne_nil h1
    have h0 : s.free_listp = y := hseg.1
    have h2 : (remove_free_bp s x).free_listp = y := r1.1
    rw [h2, h0]
  · rw [r2, hc]
    simp only [List.length_append, List.length_cons]
    omega
  · subst h1 h2
    exact r1

/-- Witness of C19: removing the only node 4128 of the free list of the heap right after
`mm_init` leaves the empty list (`free_listp` is the sentinel 4104, `count` is 0), and
removing the second node 4200 of the list 4128, 4200 leaves the list 4128. -/
theorem remove_free_bp_correct_witness :
    Seg heap0.mem 0 heap0.free_listp ([] ++ 4128 :: []) 4104
    ∧ heap0.count = 1
    ∧ (remove_free_bp heap0 4128).free_listp = 4104
    ∧ (remove_free_bp heap0 4128).count = 0
    ∧ Seg (mm_free heapFB 4128).mem 0 (mm_free heapFB 4128).free_listp ([4128] ++ 4200 :: [])
        4104
    ∧ Seg (remove_free_bp (mm_free heapFB 4128) 4200).mem 0
        (remove_free_bp (mm_free heapFB 4128) 4200).free_listp ([4128] ++ []) 4104
    ∧ (remove_free_bp (mm_free heapFB 4128) 4200).count + 1 = (mm_free heapFB 4128).count := by
  have a1 : Seg heap0.mem 0 heap0.free_listp ([] ++ 4128 :: []) 4104 := by decide
  have a2 : Apart (4104 :: ([] ++ 4128 :: [])) := by unfold Apart; decide
  have b1 : Seg (mm_free heapFB 4128).mem 0 (mm_free heapFB 4128).free_listp
      ([4128] ++ 4200 :: []) 4104 := by decide
  have b2 : Apart (4104 :: ([4128] ++ 4200 :: [])) := by unfold Apart; decide
  have ha := remove_free_bp_correct heap0 [] [] 4128 4104 a1 a2 (by decide) (by decide)
    (by decide) (by decide)
  have hb := remove_free_bp_correct (mm_free heapFB 4128) [4128] [] 4200 4104 b1 b2 (by decide)
    (by decide) (by decide) (by decide)
  exact ⟨a1, by decide, ha.2.2.2.2.2 rfl rfl, ha.2.2.2.2.1, b1, hb.1, hb.2.2.2.1⟩



/-! ## Allocate, then free -/

theorem prevFree_none_of_last {s : State} {l1 : List Blk}
    (h : ∀ x ∈ (pro s :: l1).getLast?, x.alloc = true) : prevFree l1 = none := by
  rcases prevFree_cases l1 with ⟨h1, _⟩ | ⟨l, c, hl, hcf, _⟩
  · exact h1
  · subst hl
    have := h c (by
      have e : pro s :: (l ++ [c]) = (pro s :: l) ++ [c] := by simp
      rw [e, List.getLast?_append]
      simp)
    rw [hcf] at this
    exact absurd this (by simp)

/-- `mm_free` right after `place` on the free block `b`: the chain is the one before `place`
and `b` is the head of the free list. -/
theorem free_after_place {s : State} {live : List Nat} {l1 l2 : List Blk} {b : Blk}
    {fl : List Nat} {asize : Nat} (h : Inv s live (l1 ++ b :: l2) fl) (hbf : b.alloc = false)
    (h24 : 24 ≤ asize) (h8 : asize % 8 = 0) (hle : asize ≤ b.size) :
    Inv (mm_free (place s b.bp asize) b.bp) ((b.bp :: live).erase b.bp) (l1 ++ b :: l2)
      (b.bp :: fl.erase b.bp) := by
  have hnd := h.wf.nodup
  obtain ⟨na1, na2, na3, na4⟩ := NoAdj_around (P := pro s :: l1) hbf (by simpa using h.noadj)
  have hp : prevFree l1 = none := prevFree_none_of_last na3
  have hbe : (⟨b.bp, b.size, false⟩ : Blk) = b := by
    cases b
    simp only [Blk.mk.injEq, true_and]
    exact hbf.symm
  by_cases hc : 24 ≤ b.size - asize
  · obtain ⟨i2, _⟩ := place_split h hbf h24 h8 (by omega)
    obtain ⟨i3, _⟩ := mm_free_spec (b := ⟨b.bp, asize, true⟩) i2 rfl
    have hn : nextFree ((⟨b.bp + asize, b.size - asize, false⟩ : Blk) :: l2)
        = some ⟨b.bp + asize, b.size - asize, false⟩ := by
      rw [nextFree_cons]; rfl
    simp only [mergedChain, mergedList, merged, hp, hn, List.tail_cons] at i3
    have e1 : asize + (b.size - asize) = b.size := by omega
    have e2 : ((b.bp + asize) :: fl.erase b.bp).erase (b.bp + asize) = fl.erase b.bp := by
      simp
    rw [e1, hbe, e2] at i3
    exact i3
  · obtain ⟨i2, _⟩ := place_fill h hbf hle (by omega)
    obtain ⟨i3, _⟩ := mm_free_spec (b := ⟨b.bp, b.size, true⟩) i2 rfl
    have hn : nextFree l2 = none := nextFree_none_of_head na4
    simp only [mergedChain, mergedList, merged, hp, hn] at i3
    rw [hbe] at i3
    exact i3

/-- C20: in every state reached from a successful `mm_init` by valid `mm_malloc` and `mm_free`
calls, and for every size `n` between 1 and `2^32 - 16` for which some block on the free list
is at least as large as the adjusted size, `p = mm_malloc(n)` returns a non-`NULL` address
and `mm_free(p)` restores the physical block chain: the walk from the prologue reaches the
epilogue (the end of the arena, unchanged) after the same number of blocks, with the same
payload addresses and the same header words (size and allocated bit) as before the two
calls; the same blocks are on the free list; and `count` is the same. -/
theorem malloc_free_roundtrip (s : State) (live : List Nat) (h : Reach s live) (n : Nat)
    (h1 : 1 ≤ n) (h2 : n ≤ 4294967280)
    (hfit : ∃ x, OnFreeList s x ∧ adjust n ≤ GET_SIZE s.mem (HDRP x)) :
    ∃ p s2, mm_malloc s n = some (p, s2) ∧ p ≠ 0
      ∧ (mm_free s2 p).mem_start_brk = s.mem_start_brk
      ∧ (mm_free s2 p).mem_brk = s.mem_brk
      ∧ (mm_free s2 p).heap_listp = s.heap_listp
      ∧ (∃ m, blockAt s m = s.mem_brk
          ∧ ∀ k, k ≤ m → blockAt (mm_free s2 p) k = blockAt s k
            ∧ GET (mm_free s2 p).mem (HDRP (blockAt (mm_free s2 p) k))
                = GET s.mem (HDRP (blockAt s k)))
      ∧ (∀ x, OnFreeList (mm_free s2 p) x ↔ OnFreeList s x)
      ∧ (mm_free s2 p).count = s.count := by
  obtain ⟨bs, fl, hi⟩ := reach_inv h
  obtain ⟨a1, a2, a3, a4, a5⟩ := adjust_eq h1 h2
  have hff : firstFit s.mem (adjust n) fl ≠ 0 := fun h0 => (firstFit_zero_iff hi _).1 h0 hfit
  obtain ⟨hm, l1, c, l2, hbs, hcp, hcf, hcs⟩ := mm_malloc_found hi h1 hff
  rw [← hcp] at hm hff
  subst hbs
  have hw := hi.wf
  have hnd := hw.nodup
  have hcfl : c.bp ∈ fl := (hi.free_iff c (by simp)).2 hcf
  have i3 := free_after_place hi hcf a2 a3 hcs
  have hw3 := i3.wf
  obtain ⟨p1, p2, p3, _, _⟩ := place_fields s c.bp (adjust n)
  obtain ⟨f1, f2, f3, _, _, _⟩ := mm_free_fields (place s c.bp (adjust n)) c.bp
  have ehl : (mm_free (place s c.bp (adjust n)) c.bp).heap_listp = s.heap_listp := f1.trans p1
  have ebrk : (mm_free (place s c.bp (adjust n)) c.bp).mem_brk = s.mem_brk := f2.trans p2
  have hpro : pro (mm_free (place s c.bp (adjust n)) c.bp) = pro s := pro_congr ehl
  refine ⟨c.bp, place s c.bp (adjust n), hm, hff, f3.trans p3, ebrk, ehl, ?_, fun x => ?_, ?_⟩
  · obtain ⟨w1, _⟩ := hi.blocks
    obtain ⟨v1, _⟩ := i3.blocks
    refine ⟨(l1 ++ c :: l2).length + 1, hi.blocks.2, fun k hk => ?_⟩
    by_cases hk2 : k < (l1 ++ c :: l2).length + 1
    · have hk3 : k < (pro s :: (l1 ++ c :: l2)).length := by simpa using hk2
      have hb := List.getElem?_eq_getElem hk3
      have hbm := List.getElem_mem hk3
      have e1 := w1 k _ hb
      have e2 := v1 k ((pro s :: (l1 ++ c :: l2))[k]) (by rw [hpro]; exact hb)
      rw [e1, e2]
      refine ⟨rfl, ?_⟩
      have t1 := hw.tags _ hbm (List.not_mem_nil _)
      have t2 := hw3.tags _ (by rw [hpro]; exact hbm) (List.not_mem_nil _)
      simp only [HDRP, WSIZE]
      rw [t1.1, t2.1]
    · have hk4 : k = (l1 ++ c :: l2).length + 1 := by omega
      rw [hk4, hi.blocks.2, i3.blocks.2, ebrk]
      refine ⟨rfl, ?_⟩
      simp only [HDRP, WSIZE]
      have := hw3.epi
      rw [ebrk] at this
      rw [this, hw.epi]
  · rw [i3.onFreeList, hi.onFreeList, List.mem_cons, List.Nodup.mem_erase_iff hnd]
    constructor
    · rintro (rfl | ⟨_, hx⟩)
      · exact hcfl
      · exact hx
    · intro hx
      by_cases hxc : x = c.bp
      · exact Or.inl hxc
      · exact Or.inr ⟨hxc, hx⟩
  · rw [hw3.cnt, hw.cnt, List.length_cons, List.length_erase_of_mem hcfl]
    have : 0 < fl.length := List.length_pos_of_mem hcfl
    omega

/-- Witness of C20 on the heap after two `mm_malloc(16)`: a third `mm_malloc(16)` returns
4176, and `mm_free(4176)` leaves the header words of the chain and `count` as they were. -/
theorem malloc_free_roundtrip_witness :
    Reach heapAB [4152, 4128]
    ∧ (∃ x, OnFreeList heapAB x ∧ adjust 16 ≤ GET_SIZE heapAB.mem (HDRP x))
    ∧ mm_malloc heapAB 16 = some (4176, heapABC)
    ∧ (mm_free heapABC 4176).count = heapAB.count
    ∧ (mm_free heapABC 4176).mem_brk = heapAB.mem_brk
    ∧ (∀ x, OnFreeList (mm_free heapABC 4176) x ↔ OnFreeList heapAB x) := by
  have hfit : ∃ x, OnFreeList heapAB x ∧ adjust 16 ≤ GET_SIZE heapAB.mem (HDRP x) :=
    ⟨4176, ⟨0, by decide, fun i hi => by
      obtain rfl : i = 0 := by omega
      decide⟩, by decide⟩
  obtain ⟨p, s2, hm, _, _, r2, _, _, r5, r6⟩ :=
    malloc_free_roundtrip heapAB [4152, 4128] reach_heapAB 16 (by decide) (by decide) hfit
  have e : mm_malloc heapAB 16 = some (4176, heapABC) := rfl
  rw [e] at hm
  simp only [Option.some.injEq, Prod.mk.injEq] at hm
  obtain ⟨rfl, rfl⟩ := hm
  exact ⟨reach_heapAB, hfit, e, r6, r2, r5⟩


end MM
